import Mathlib

/-!
# A verification development for `vector.h`

`vector.h` holds two class templates: `RawMemory<T>`, a block of raw storage for
`capacity_` objects of type `T`, and `Vector<T>`, a growable array that keeps
`size_` constructed objects in the first slots of a `RawMemory<T>`.

## The embedding

* A block of storage is a list of slots.  A slot is `raw` (no object), `live v`
  (a constructed object with value `v`) or `moved` (a constructed object that
  has been moved from: it can be assigned to and destroyed, its value is
  unspecified and reading it is a failure of the model).
* Each `RawMemory` owns its block exclusively (its copy operations are
  deleted), so `buffer_` is modelled by the block itself and swapping two
  `buffer_` pointers swaps the blocks.  `nullptr` is the empty block.
* A pointer into a block is the offset from `GetAddress()`; an iterator of a
  `Vector` is the offset from `begin()`.
* Operations return `Option`: `none` stands for a failed `assert` and for
  undefined behaviour (an access outside the block, a read of a slot that holds
  no value, an assignment to or destruction of a raw slot).
* `size_t` values are natural numbers.  A block of `2^63` slots cannot be
  allocated, so `size_ * 2` and `++size_` never wrap; unsigned subtraction
  does wrap (`size_ - 1` for `size_ == 0`) and is modelled by `size_t_sub`,
  and the product `n * sizeof(T)` of an allocation wraps for a `n` the caller
  chooses and is modelled by `size_t_mul`.
* `operator new` returns a block of the bytes it is asked for; it does not
  throw `std::bad_alloc`.  Where the caller chooses the number of slots
  (`Reserve`, `Resize`, `Vector(size_t)`) the request `n * sizeof(T)` is
  computed in `size_t`, as `Allocate` does, with `sizeof(T)` a parameter
  `size_of`: when the product wraps the block is smaller than `capacity_`
  says, and an access past it is a failure of the model.  The growth paths and
  the copy constructor ask for at most twice the slots of a block that exists;
  their request is taken to fit (`Allocate_fitting`), and so is the request of
  `Reserve_throwing`, which models the transfer and its unwinding.
* Element constructors and assignments do not throw, except in the part on
  copy constructors that throw: there the definitions named `*_throwing` give
  the outcome of the growth paths and of `Reserve` when the copy of a
  transferred element throws.
* The compile-time choice `is_nothrow_move_constructible_v<T> ||
  !is_copy_constructible_v<T>` is the parameter `TypeTraits`.
-/

namespace Vec14

/-! ## Slots and the primitive object operations -/

/-- The state of one `T`-sized slot of a block of storage. -/
inductive Slot (T : Type) where
  | raw : Slot T
  | live (v : T) : Slot T
  | moved : Slot T
  deriving DecidableEq, Repr

/-- The two type traits the growth paths test with `if constexpr`. -/
structure TypeTraits where
  is_nothrow_move_constructible : Bool
  is_copy_constructible : Bool
  deriving DecidableEq, Repr

/-- The condition of every `if constexpr` of `vector.h`. -/
def TypeTraits.moves (tr : TypeTraits) : Bool :=
  tr.is_nothrow_move_constructible || !tr.is_copy_constructible

/-- The number of values of `size_t`. -/
def SIZE_RANGE : Nat := 2 ^ 64

/-- Subtraction of `size_t` values: `a - b`, wrapping around when `b > a`. -/
def size_t_sub (a b : Nat) : Nat :=
  if b ≤ a then a - b else a + SIZE_RANGE - b

/-- Multiplication of `size_t` values: `a * b`, wrapping around. -/
def size_t_mul (a b : Nat) : Nat :=
  (a * b) % SIZE_RANGE

/-- Reading the value of the object in slot `i` (`*(p + i)` as an rvalue). -/
def readAt {T : Type} (buf : List (Slot T)) (i : Nat) : Option T :=
  match buf[i]? with
  | some (Slot.live v) => some v
  | _ => none

/-- Placement new in slot `i`: `new (p + i) T(v)`. -/
def constructAt {T : Type} (buf : List (Slot T)) (i : Nat) (v : T) : Option (List (Slot T)) :=
  if i < buf.length then some (buf.set i (Slot.live v)) else none

/-- Assignment to the object in slot `i`: `*(p + i) = v`. -/
def assignAt {T : Type} (buf : List (Slot T)) (i : Nat) (v : T) : Option (List (Slot T)) :=
  match buf[i]? with
  | some (Slot.live _) => some (buf.set i (Slot.live v))
  | some Slot.moved => some (buf.set i (Slot.live v))
  | _ => none

/-- Moving out of the object in slot `i`: `std::move(*(p + i))` consumed by a
move constructor or a move assignment.  Gives the value and the block with the
slot in the moved-from state. -/
def moveFrom {T : Type} (buf : List (Slot T)) (i : Nat) : Option (T × List (Slot T)) :=
  match buf[i]? with
  | some (Slot.live v) => some (v, buf.set i Slot.moved)
  | _ => none

/-- Destroying the object in slot `i`: `(p + i)->~T()`. -/
def destroyAt {T : Type} (buf : List (Slot T)) (i : Nat) : Option (List (Slot T)) :=
  match buf[i]? with
  | some (Slot.live _) => some (buf.set i Slot.raw)
  | some Slot.moved => some (buf.set i Slot.raw)
  | _ => none

/-! ## The standard algorithms `vector.h` calls -/

/-- The algorithm `std::uninitialized_copy_n(src + first, n, dst + d_first)`. -/
def uninitialized_copy_n {T : Type} (src : List (Slot T)) :
    Nat → Nat → List (Slot T) → Nat → Option (List (Slot T))
  | _, 0, dst, _ => some dst
  | first, n + 1, dst, d_first =>
    match readAt src first with
    | none => none
    | some v =>
      match constructAt dst d_first v with
      | none => none
      | some dst1 => uninitialized_copy_n src (first + 1) n dst1 (d_first + 1)

/-- The algorithm `std::uninitialized_move_n(src + first, n, dst + d_first)`;
gives the source block and the destination block. -/
def uninitialized_move_n {T : Type} :
    List (Slot T) → Nat → Nat → List (Slot T) → Nat → Option (List (Slot T) × List (Slot T))
  | src, _, 0, dst, _ => some (src, dst)
  | src, first, n + 1, dst, d_first =>
    match moveFrom src first with
    | none => none
    | some (v, src1) =>
      match constructAt dst d_first v with
      | none => none
      | some dst1 => uninitialized_move_n src1 (first + 1) n dst1 (d_first + 1)

/-- The algorithm `std::uninitialized_value_construct_n(p + first, n)`: every
object is value-initialised, `T()`, which is `default`. -/
def uninitialized_value_construct_n {T : Type} [Inhabited T] :
    List (Slot T) → Nat → Nat → Option (List (Slot T))
  | buf, _, 0 => some buf
  | buf, first, n + 1 =>
    match constructAt buf first default with
    | none => none
    | some buf1 => uninitialized_value_construct_n buf1 (first + 1) n

/-- The algorithm `std::destroy_n(p + first, n)`. -/
def destroy_n {T : Type} : List (Slot T) → Nat → Nat → Option (List (Slot T))
  | buf, _, 0 => some buf
  | buf, first, n + 1 =>
    match destroyAt buf first with
    | none => none
    | some buf1 => destroy_n buf1 (first + 1) n

/-- The loop of `std::copy`, `n` elements from `src + first` to `dst + d_first`
by copy assignment. -/
def copy_loop {T : Type} (src : List (Slot T)) :
    Nat → Nat → List (Slot T) → Nat → Option (List (Slot T))
  | _, 0, dst, _ => some dst
  | first, n + 1, dst, d_first =>
    match readAt src first with
    | none => none
    | some v =>
      match assignAt dst d_first v with
      | none => none
      | some dst1 => copy_loop src (first + 1) n dst1 (d_first + 1)

/-- The algorithm `std::copy(src + first, src + last, dst + d_first)`; a range
with `last < first` is not a valid range. -/
def copy {T : Type} (src : List (Slot T)) (first last : Nat) (dst : List (Slot T))
    (d_first : Nat) : Option (List (Slot T)) :=
  if first ≤ last then copy_loop src first (last - first) dst d_first else none

/-- The loop of `std::move_backward`: `n` times `*(--d_last) = std::move(*(--last))`. -/
def move_backward_loop {T : Type} :
    List (Slot T) → Nat → Nat → Nat → Option (List (Slot T))
  | buf, 0, _, _ => some buf
  | buf, n + 1, last, d_last =>
    if last = 0 ∨ d_last = 0 then none
    else
      match moveFrom buf (last - 1) with
      | none => none
      | some (v, buf1) =>
        match assignAt buf1 (d_last - 1) v with
        | none => none
        | some buf2 => move_backward_loop buf2 n (last - 1) (d_last - 1)

/-- The algorithm `std::move_backward(p + first, p + last, p + d_last)` inside
one block; a range with `last < first` is not a valid range. -/
def move_backward {T : Type} (buf : List (Slot T)) (first last d_last : Nat) :
    Option (List (Slot T)) :=
  if first ≤ last then move_backward_loop buf (last - first) last d_last else none

/-! ## `RawMemory<T>` -/

/-- The class `RawMemory<T>`: `buffer_` (the block it points to) and `capacity_`. -/
structure RawMemory (T : Type) where
  buffer_ : List (Slot T)
  capacity_ : Nat
  deriving DecidableEq, Repr

namespace RawMemory

/-- The function `Allocate(n)`: `nullptr` for `n == 0`, otherwise the block
that `operator new(n * sizeof(T))` gives, with the product computed in
`size_t`.  `size_of` is `sizeof(T)`.  The block has as many whole slots as the
requested bytes hold: `n` when the product does not wrap, fewer when it
wraps. -/
def Allocate {T : Type} (size_of n : Nat) : List (Slot T) :=
  if n ≠ 0 then List.replicate (size_t_mul n size_of / size_of) Slot.raw else []

/-- The function `Allocate(n)` for a request that fits: raw storage for `n`
elements, `nullptr` for `n == 0`.  This is `Allocate` when `n * sizeof(T)`
does not wrap; the growth paths and the copy constructor, which ask for at
most twice the slots of a block that exists, go through it. -/
def Allocate_fitting {T : Type} (n : Nat) : List (Slot T) :=
  if n ≠ 0 then List.replicate n Slot.raw else []

/-- The constructor `RawMemory() = default`. -/
def ctor_default {T : Type} : RawMemory T :=
  { buffer_ := [], capacity_ := 0 }

/-- The constructor `RawMemory(size_t capacity)`, with `size_of` for
`sizeof(T)`: `capacity_` is the requested capacity, also when the block
`Allocate` gives is smaller. -/
def ctor_capacity {T : Type} (size_of capacity : Nat) : RawMemory T :=
  { buffer_ := Allocate size_of capacity, capacity_ := capacity }

/-- The constructor `RawMemory(size_t capacity)` for a request that fits. -/
def ctor_fitting {T : Type} (capacity : Nat) : RawMemory T :=
  { buffer_ := Allocate_fitting capacity, capacity_ := capacity }

/-- The member `Swap(RawMemory& other)`; gives `(*this, other)`. -/
def Swap {T : Type} (self other : RawMemory T) : RawMemory T × RawMemory T :=
  ({ buffer_ := other.buffer_, capacity_ := other.capacity_ },
   { buffer_ := self.buffer_, capacity_ := self.capacity_ })

/-- The move constructor `RawMemory(RawMemory&& other)`: the new object starts
from the default member initialisers and swaps with `other`; gives
`(*this, other)`. -/
def ctor_move {T : Type} (other : RawMemory T) : RawMemory T × RawMemory T :=
  let self : RawMemory T := { buffer_ := [], capacity_ := 0 }
  ({ buffer_ := other.buffer_, capacity_ := other.capacity_ },
   { buffer_ := self.buffer_, capacity_ := self.capacity_ })

/-- The move assignment `operator=(RawMemory&& rhs)`: swaps both members; gives
`(*this, rhs)`. -/
def assign_move {T : Type} (self rhs : RawMemory T) : RawMemory T × RawMemory T :=
  ({ buffer_ := rhs.buffer_, capacity_ := rhs.capacity_ },
   { buffer_ := self.buffer_, capacity_ := self.capacity_ })

/-- The member `operator+(size_t offset)`: the offset, under
`assert(offset <= capacity_)`. -/
def plus {T : Type} (self : RawMemory T) (offset : Nat) : Option Nat :=
  if offset ≤ self.capacity_ then some offset else none

/-- The member `operator[](size_t index)`: the value in the slot, under
`assert(index < capacity_)`. -/
def index {T : Type} (self : RawMemory T) (i : Nat) : Option T :=
  if i < self.capacity_ then readAt self.buffer_ i else none

/-- The member `GetAddress()`: offset `0` of the block. -/
def GetAddress {T : Type} (_self : RawMemory T) : Nat := 0

/-- The member `Capacity()`. -/
def Capacity {T : Type} (self : RawMemory T) : Nat := self.capacity_

end RawMemory

/-! ## `Vector<T>` -/

/-- The class `Vector<T>`: `data_` and `size_`. -/
structure Vector (T : Type) where
  data_ : RawMemory T
  size_ : Nat
  deriving DecidableEq, Repr

namespace Vector

/-- The member `Size()`. -/
def Size {T : Type} (self : Vector T) : Nat := self.size_

/-- The member `Capacity()`. -/
def Capacity {T : Type} (self : Vector T) : Nat := self.data_.Capacity

/-- The member `operator[](size_t index)`: `assert(index < size_)`, then
`data_[index]`. -/
def index {T : Type} (self : Vector T) (i : Nat) : Option T :=
  if i < self.size_ then self.data_.index i else none

/-- The constructor `Vector() = default`. -/
def ctor_default {T : Type} : Vector T :=
  { data_ := RawMemory.ctor_default, size_ := 0 }

/-- The member `PushBack(const T& value)`. -/
def PushBack {T : Type} (tr : TypeTraits) (self : Vector T) (value : T) : Option (Vector T) :=
  if self.size_ = self.Capacity then
    let new_data : RawMemory T :=
      RawMemory.ctor_fitting (if self.size_ = 0 then 1 else self.size_ * 2)
    match new_data.plus self.size_ with
    | none => none
    | some at_ =>
      match constructAt new_data.buffer_ at_ value with
      | none => none
      | some nb =>
        match (if tr.moves then
            uninitialized_move_n self.data_.buffer_ self.data_.GetAddress self.size_ nb
              new_data.GetAddress
          else
            (uninitialized_copy_n self.data_.buffer_ self.data_.GetAddress self.size_ nb
              new_data.GetAddress).map (fun d => (self.data_.buffer_, d))) with
        | none => none
        | some (ob, nb1) =>
          let sw := RawMemory.Swap { self.data_ with buffer_ := ob }
            { new_data with buffer_ := nb1 }
          match destroy_n sw.2.buffer_ sw.2.GetAddress self.size_ with
          | none => none
          | some _ => some { data_ := sw.1, size_ := self.size_ + 1 }
  else
    match self.data_.plus self.size_ with
    | none => none
    | some at_ =>
      match constructAt self.data_.buffer_ at_ value with
      | none => none
      | some b => some { data_ := { self.data_ with buffer_ := b }, size_ := self.size_ + 1 }

/-- The member `PushBack(T&& value)`: the same steps, the new object is move
constructed from `value`. -/
def PushBack_rvalue {T : Type} (tr : TypeTraits) (self : Vector T) (value : T) :
    Option (Vector T) :=
  if self.size_ = self.Capacity then
    let new_data : RawMemory T :=
      RawMemory.ctor_fitting (if self.size_ = 0 then 1 else self.size_ * 2)
    match new_data.plus self.size_ with
    | none => none
    | some at_ =>
      match constructAt new_data.buffer_ at_ value with
      | none => none
      | some nb =>
        match (if tr.moves then
            uninitialized_move_n self.data_.buffer_ self.data_.GetAddress self.size_ nb
              new_data.GetAddress
          else
            (uninitialized_copy_n self.data_.buffer_ self.data_.GetAddress self.size_ nb
              new_data.GetAddress).map (fun d => (self.data_.buffer_, d))) with
        | none => none
        | some (ob, nb1) =>
          let sw := RawMemory.Swap { self.data_ with buffer_ := ob }
            { new_data with buffer_ := nb1 }
          match destroy_n sw.2.buffer_ sw.2.GetAddress self.size_ with
          | none => none
          | some _ => some { data_ := sw.1, size_ := self.size_ + 1 }
  else
    match self.data_.plus self.size_ with
    | none => none
    | some at_ =>
      match constructAt self.data_.buffer_ at_ value with
      | none => none
      | some b => some { data_ := { self.data_ with buffer_ := b }, size_ := self.size_ + 1 }

/-- The member `EmplaceBack(Args&&... args)`, where `value` is the object
`T(args...)`; gives the vector and the value behind the returned reference
`data_[size_ - 1]`. -/
def EmplaceBack {T : Type} (tr : TypeTraits) (self : Vector T) (value : T) :
    Option (Vector T × T) :=
  match (if self.size_ = self.Capacity then
      let new_data : RawMemory T :=
        RawMemory.ctor_fitting (if self.size_ = 0 then 1 else self.size_ * 2)
      match constructAt new_data.buffer_ (new_data.GetAddress + self.size_) value with
      | none => none
      | some nb =>
        match (if tr.moves then
            uninitialized_move_n self.data_.buffer_ self.data_.GetAddress self.size_ nb
              new_data.GetAddress
          else
            (uninitialized_copy_n self.data_.buffer_ self.data_.GetAddress self.size_ nb
              new_data.GetAddress).map (fun d => (self.data_.buffer_, d))) with
        | none => none
        | some (ob, nb1) =>
          let sw := RawMemory.Swap { self.data_ with buffer_ := ob }
            { new_data with buffer_ := nb1 }
          match destroy_n sw.2.buffer_ sw.2.GetAddress self.size_ with
          | none => none
          | some _ => some ({ data_ := sw.1, size_ := self.size_ + 1 } : Vector T)
    else
      match constructAt self.data_.buffer_ (self.data_.GetAddress + self.size_) value with
      | none => none
      | some b =>
        some ({ data_ := { self.data_ with buffer_ := b }, size_ := self.size_ + 1 } : Vector T))
  with
  | none => none
  | some r =>
    match r.data_.index (size_t_sub r.size_ 1) with
    | none => none
    | some x => some (r, x)

/-- The member `Emplace(const_iterator pos, Args&&... args)`, where
`pos == begin() + p_index` and `value` is the object `T(args...)`; gives the
vector and the returned iterator as an offset from the new `begin()`. -/
def Emplace {T : Type} (tr : TypeTraits) (self : Vector T) (p_index : Nat) (value : T) :
    Option (Vector T × Nat) :=
  if self.size_ = self.Capacity then
    let new_data : RawMemory T :=
      RawMemory.ctor_fitting (if self.size_ = 0 then 1 else self.size_ * 2)
    match new_data.plus p_index with
    | none => none
    | some at_ =>
      match constructAt new_data.buffer_ at_ value with
      | none => none
      | some nb =>
        match (if tr.moves then
            match uninitialized_move_n self.data_.buffer_ self.data_.GetAddress p_index nb
              new_data.GetAddress with
            | none => none
            | some (ob, nb1) =>
              uninitialized_move_n ob (self.data_.GetAddress + p_index)
                (size_t_sub self.size_ p_index) nb1 (new_data.GetAddress + p_index + 1)
          else
            match uninitialized_copy_n self.data_.buffer_ self.data_.GetAddress p_index nb
              new_data.GetAddress with
            | none => none
            | some nb1 =>
              (uninitialized_copy_n self.data_.buffer_ (self.data_.GetAddress + p_index)
                (size_t_sub self.size_ p_index) nb1 (new_data.GetAddress + p_index + 1)).map
                (fun d => (self.data_.buffer_, d))) with
        | none => none
        | some (ob, nb2) =>
          let sw := RawMemory.Swap { self.data_ with buffer_ := ob }
            { new_data with buffer_ := nb2 }
          match destroy_n sw.2.buffer_ sw.2.GetAddress self.size_ with
          | none => none
          | some _ => some ({ data_ := sw.1, size_ := self.size_ + 1 }, p_index)
  else
    if p_index = self.size_ then
      match constructAt self.data_.buffer_ self.size_ value with
      | none => none
      | some b =>
        some ({ data_ := { self.data_ with buffer_ := b }, size_ := self.size_ + 1 }, p_index)
    else
      let buffer : T := value
      if size_t_sub self.size_ 1 < self.data_.capacity_ then
        match moveFrom self.data_.buffer_ (size_t_sub self.size_ 1) with
        | none => none
        | some (last, b0) =>
          match constructAt b0 (self.data_.GetAddress + self.size_) last with
          | none => none
          | some b1 =>
            match move_backward b1 p_index (size_t_sub self.size_ 1) self.size_ with
            | none => none
            | some b2 =>
              match assignAt b2 p_index buffer with
              | none => none
              | some b3 =>
                some ({ data_ := { self.data_ with buffer_ := b3 }, size_ := self.size_ + 1 },
                  p_index)
      else none

/-- The member `PopBack()`. -/
def PopBack {T : Type} (self : Vector T) : Option (Vector T) :=
  if self.size_ ≠ 0 then
    match destroy_n self.data_.buffer_ (self.data_.GetAddress + self.size_ - 1) 1 with
    | none => none
    | some b => some { data_ := { self.data_ with buffer_ := b }, size_ := self.size_ - 1 }
  else some self

/-- The loop of `Erase`: `n` iterations of
`*(data_.GetAddress() + index) = std::move(*(data_.GetAddress() + index + 1))`
with `index` going up by one. -/
def Erase_loop {T : Type} : List (Slot T) → Nat → Nat → Option (List (Slot T))
  | buf, _, 0 => some buf
  | buf, index, n + 1 =>
    match moveFrom buf (index + 1) with
    | none => none
    | some (v, buf1) =>
      match assignAt buf1 index v with
      | none => none
      | some buf2 => Erase_loop buf2 (index + 1) n

/-- The member `Erase(const_iterator pos)`, where `pos == begin() + p_index`.
The loop runs while `index < size_ - 1` in `size_t`, that is
`size_t_sub size_ 1 - p_index` times; gives the vector and the returned
iterator as an offset from `begin()`. -/
def Erase {T : Type} (self : Vector T) (p_index : Nat) : Option (Vector T × Nat) :=
  match Erase_loop self.data_.buffer_ p_index (size_t_sub self.size_ 1 - p_index) with
  | none => none
  | some b =>
    match PopBack { data_ := { self.data_ with buffer_ := b }, size_ := self.size_ } with
    | none => none
    | some r => some (r, p_index)

/-- The member `Insert(const_iterator pos, const T& value)`. -/
def Insert {T : Type} (tr : TypeTraits) (self : Vector T) (p_index : Nat) (value : T) :
    Option (Vector T × Nat) :=
  Emplace tr self p_index value

/-- The member `Insert(const_iterator pos, T&& value)`. -/
def Insert_rvalue {T : Type} (tr : TypeTraits) (self : Vector T) (p_index : Nat) (value : T) :
    Option (Vector T × Nat) :=
  Emplace tr self p_index value

/-- The member `Swap(Vector& other)`; gives `(*this, other)`. -/
def Swap {T : Type} (self other : Vector T) : Vector T × Vector T :=
  let sw := RawMemory.Swap self.data_ other.data_
  let buf := self.size_
  ({ data_ := sw.1, size_ := other.size_ }, { data_ := sw.2, size_ := buf })

/-- The member `Reserve(size_t new_capacity)`, with `size_of` for `sizeof(T)`.
The caller chooses `new_capacity`, so the request goes through `Allocate`
with its `size_t` product. -/
def Reserve {T : Type} (tr : TypeTraits) (size_of : Nat) (self : Vector T)
    (new_capacity : Nat) : Option (Vector T) :=
  if new_capacity ≤ self.data_.Capacity then some self
  else
    let new_data : RawMemory T := RawMemory.ctor_capacity size_of new_capacity
    match (if tr.moves then
        uninitialized_move_n self.data_.buffer_ self.data_.GetAddress self.size_
          new_data.buffer_ new_data.GetAddress
      else
        (uninitialized_copy_n self.data_.buffer_ self.data_.GetAddress self.size_
          new_data.buffer_ new_data.GetAddress).map (fun d => (self.data_.buffer_, d))) with
    | none => none
    | some (ob, nb) =>
      match destroy_n ob self.data_.GetAddress self.size_ with
      | none => none
      | some ob1 =>
        let sw := RawMemory.Swap { self.data_ with buffer_ := ob1 }
          { new_data with buffer_ := nb }
        some { data_ := sw.1, size_ := self.size_ }

/-- The member `Resize(size_t new_size)`, with `size_of` for `sizeof(T)`. -/
def Resize {T : Type} [Inhabited T] (tr : TypeTraits) (size_of : Nat) (self : Vector T)
    (new_size : Nat) : Option (Vector T) :=
  if new_size > self.size_ then
    match Reserve tr size_of self new_size with
    | none => none
    | some r =>
      match uninitialized_value_construct_n r.data_.buffer_ (r.data_.GetAddress + r.size_)
        (size_t_sub new_size r.size_) with
      | none => none
      | some b => some { data_ := { r.data_ with buffer_ := b }, size_ := new_size }
  else
    match destroy_n self.data_.buffer_ (self.data_.GetAddress + new_size)
      (size_t_sub self.size_ new_size) with
    | none => none
    | some b => some { data_ := { self.data_ with buffer_ := b }, size_ := new_size }

/-- The constructor `Vector(size_t size)`, with `size_of` for `sizeof(T)`. -/
def ctor_size {T : Type} [Inhabited T] (size_of size : Nat) : Option (Vector T) :=
  let data_ : RawMemory T := RawMemory.ctor_capacity size_of size
  match uninitialized_value_construct_n data_.buffer_ data_.GetAddress size with
  | none => none
  | some b => some { data_ := { data_ with buffer_ := b }, size_ := size }

/-- The constructor `Vector(const Vector& other)`; gives `(*this, other)`,
where `other` is `const`. -/
def ctor_copy {T : Type} (other : Vector T) : Option (Vector T × Vector T) :=
  let data_ : RawMemory T := RawMemory.ctor_fitting other.size_
  match uninitialized_copy_n other.data_.buffer_ other.data_.GetAddress other.Size
    data_.buffer_ data_.GetAddress with
  | none => none
  | some b => some ({ data_ := { data_ with buffer_ := b }, size_ := other.size_ }, other)

/-- The constructor `Vector(Vector&& other)`; gives `(*this, other)`. -/
def ctor_move {T : Type} (other : Vector T) : Vector T × Vector T :=
  let mv := RawMemory.ctor_move other.data_
  ({ data_ := mv.1, size_ := other.size_ }, { data_ := mv.2, size_ := 0 })

/-- The destructor `~Vector()`: `std::destroy_n(data_.GetAddress(), size_)`,
after which `~RawMemory` releases the block. -/
def dtor {T : Type} (self : Vector T) : Option Unit :=
  match destroy_n self.data_.buffer_ self.data_.GetAddress self.size_ with
  | none => none
  | some _ => some ()

/-- The copy assignment `operator=(const Vector& rhs)` for `this != &rhs`; gives
`(*this, rhs)`, where `rhs` is `const`. -/
def assign_copy {T : Type} (self rhs : Vector T) : Option (Vector T × Vector T) :=
  match (if rhs.size_ > self.data_.Capacity then
      match ctor_copy rhs with
      | none => none
      | some (rhs_copy, _) =>
        let sw := Swap self rhs_copy
        match dtor sw.2 with
        | none => none
        | some _ => some sw.1
    else
      if rhs.size_ < self.size_ then
        match copy rhs.data_.buffer_ rhs.data_.GetAddress (rhs.data_.GetAddress + rhs.Size)
          self.data_.buffer_ self.data_.GetAddress with
        | none => none
        | some b =>
          match destroy_n b (self.data_.GetAddress + rhs.size_)
            (size_t_sub self.size_ rhs.size_) with
          | none => none
          | some b1 => some ({ self with data_ := { self.data_ with buffer_ := b1 } } : Vector T)
      else
        match copy rhs.data_.buffer_ rhs.data_.GetAddress (rhs.data_.GetAddress + self.Size)
          self.data_.buffer_ self.data_.GetAddress with
        | none => none
        | some b =>
          match uninitialized_copy_n rhs.data_.buffer_ (rhs.data_.GetAddress + self.Size)
            (size_t_sub rhs.Size self.Size) b self.data_.GetAddress with
          | none => none
          | some b1 => some ({ self with data_ := { self.data_ with buffer_ := b1 } } : Vector T))
  with
  | none => none
  | some r => some ({ r with size_ := rhs.size_ }, rhs)

/-- The copy assignment `operator=(const Vector& rhs)` for `this == &rhs`: only
`size_ = rhs.size_` runs. -/
def assign_copy_self {T : Type} (self : Vector T) : Option (Vector T) :=
  some { self with size_ := self.size_ }

/-- The move assignment `operator=(Vector&& rhs)` for two different objects;
gives `(*this, rhs)`. -/
def assign_move {T : Type} (self rhs : Vector T) : Vector T × Vector T :=
  let mv := RawMemory.assign_move self.data_ rhs.data_
  ({ data_ := mv.1, size_ := rhs.size_ }, { data_ := mv.2, size_ := 0 })

end Vector

/-! ## Sequences of calls -/

/-- The calls `PushBack(v)` for the values `v` of a list, one after the other. -/
def Vector.PushBack_all {T : Type} (tr : TypeTraits) : Vector T → List T → Option (Vector T)
  | S, [] => some S
  | S, v :: vs =>
    match S.PushBack tr v with
    | none => none
    | some S1 => Vector.PushBack_all tr S1 vs

/-- The predicate `LeastPow2 c n`: `c` is the least power of two that is at
least `n`. -/
def LeastPow2 (c n : Nat) : Prop :=
  (∃ k, c = 2 ^ k) ∧ n ≤ c ∧ ∀ j, n ≤ 2 ^ j → c ≤ 2 ^ j

/-! ## What a vector holds -/

/-- The relation `S.Holds xs`: the vector `S` has the contents `xs`.  Its size
is `|xs|`, its block has `capacity_` slots, and the first `|xs|` slots hold
live objects with the values `xs`.  Nothing is asked of the slots from `size_`
on. -/
def Vector.Holds {T : Type} (S : Vector T) (xs : List T) : Prop :=
  S.size_ = xs.length ∧ S.data_.buffer_.length = S.data_.capacity_ ∧
    S.data_.buffer_.take S.size_ = xs.map Slot.live

instance {T : Type} [DecidableEq T] (S : Vector T) (xs : List T) : Decidable (S.Holds xs) := by
  unfold Vector.Holds; infer_instance

/-- The predicate `S.TailRaw`: every slot from `size_` on is raw storage. -/
def Vector.TailRaw {T : Type} (S : Vector T) : Prop :=
  ∀ s ∈ S.data_.buffer_.drop S.size_, s = Slot.raw

instance {T : Type} [DecidableEq T] (S : Vector T) : Decidable S.TailRaw := by
  unfold Vector.TailRaw; infer_instance

/-- The vector whose block is the live objects `xs` followed by the slots
`tail`, with `capacity_` the length of the block and `size_ = |xs|`. -/
def Vector.ofParts {T : Type} (xs : List T) (tail : List (Slot T)) : Vector T :=
  { data_ := { buffer_ := xs.map Slot.live ++ tail, capacity_ := xs.length + tail.length },
    size_ := xs.length }

/-- The capacity reached by appends: `0` for no element, otherwise a power of
two `2 ^ k` that is at least the size, with `2 ^ (k - 1)` below the size. -/
def GrowthInv (n c : Nat) : Prop :=
  (n = 0 ∧ c = 0) ∨ (0 < n ∧ ∃ k, c = 2 ^ k ∧ n ≤ c ∧ (k = 0 ∨ 2 ^ (k - 1) < n))

/-! ## Invariants and reachable states -/

/-- The test `s.isConstructed`: the slot holds a constructed object that has
not been destroyed, live or moved-from. -/
def Slot.isConstructed {T : Type} : Slot T → Bool
  | Slot.raw => false
  | Slot.live _ => true
  | Slot.moved => true

/-- The predicate `S.SlotsLive`, the slot-liveness invariant: the block has
`capacity_` slots, `size_ <= capacity_`, every slot in `[0, size_)` holds a
constructed object and every slot in `[size_, capacity_)` is raw. -/
def Vector.SlotsLive {T : Type} (S : Vector T) : Prop :=
  S.data_.buffer_.length = S.data_.capacity_ ∧ S.size_ ≤ S.data_.capacity_ ∧
    (∀ s ∈ S.data_.buffer_.take S.size_, s.isConstructed = true) ∧
    (∀ s ∈ S.data_.buffer_.drop S.size_, s.isConstructed = false)

instance {T : Type} (S : Vector T) : Decidable S.SlotsLive := by
  unfold Vector.SlotsLive; infer_instance

/-- The vector states that the public operations of `Vector<T>` reach for an
element type with the traits `tr` and `sizeof(T) == size_of`: the states the
constructors give and the states in which an operation that returns leaves
each vector it works on. -/
inductive Reachable {T : Type} [Inhabited T] (tr : TypeTraits) (size_of : Nat) :
    Vector T → Prop where
  | ctor_default : Reachable tr size_of Vector.ctor_default
  | ctor_size (n : Nat) (R : Vector T) :
      Vector.ctor_size size_of n = some R → Reachable tr size_of R
  | ctor_copy (S C S1 : Vector T) :
      Reachable tr size_of S → Vector.ctor_copy S = some (C, S1) → Reachable tr size_of C
  | ctor_move_target (S : Vector T) :
      Reachable tr size_of S → Reachable tr size_of (Vector.ctor_move S).1
  | ctor_move_source (S : Vector T) :
      Reachable tr size_of S → Reachable tr size_of (Vector.ctor_move S).2
  | assign_copy (a b R B : Vector T) :
      Reachable tr size_of a → Reachable tr size_of b → Vector.assign_copy a b = some (R, B) →
      Reachable tr size_of R
  | assign_copy_self (a R : Vector T) :
      Reachable tr size_of a → Vector.assign_copy_self a = some R → Reachable tr size_of R
  | assign_move_target (a b : Vector T) :
      Reachable tr size_of a → Reachable tr size_of b →
      Reachable tr size_of (Vector.assign_move a b).1
  | assign_move_source (a b : Vector T) :
      Reachable tr size_of a → Reachable tr size_of b →
      Reachable tr size_of (Vector.assign_move a b).2
  | PushBack (S R : Vector T) (v : T) :
      Reachable tr size_of S → Vector.PushBack tr S v = some R → Reachable tr size_of R
  | PushBack_rvalue (S R : Vector T) (v : T) :
      Reachable tr size_of S → Vector.PushBack_rvalue tr S v = some R → Reachable tr size_of R
  | EmplaceBack (S R : Vector T) (v x : T) :
      Reachable tr size_of S → Vector.EmplaceBack tr S v = some (R, x) → Reachable tr size_of R
  | PopBack (S R : Vector T) :
      Reachable tr size_of S → Vector.PopBack S = some R → Reachable tr size_of R
  | Insert (S R : Vector T) (p pos : Nat) (v : T) :
      Reachable tr size_of S → Vector.Insert tr S p v = some (R, pos) → Reachable tr size_of R
  | Insert_rvalue (S R : Vector T) (p pos : Nat) (v : T) :
      Reachable tr size_of S → Vector.Insert_rvalue tr S p v = some (R, pos) →
      Reachable tr size_of R
  | Emplace (S R : Vector T) (p pos : Nat) (v : T) :
      Reachable tr size_of S → Vector.Emplace tr S p v = some (R, pos) → Reachable tr size_of R
  | Erase (S R : Vector T) (p pos : Nat) :
      Reachable tr size_of S → Vector.Erase S p = some (R, pos) → Reachable tr size_of R
  | Resize (S R : Vector T) (n : Nat) :
      Reachable tr size_of S → Vector.Resize tr size_of S n = some R → Reachable tr size_of R
  | Reserve (S R : Vector T) (n : Nat) :
      Reachable tr size_of S → Vector.Reserve tr size_of S n = some R → Reachable tr size_of R
  | Swap_this (a b : Vector T) :
      Reachable tr size_of a → Reachable tr size_of b → Reachable tr size_of (Vector.Swap a b).1
  | Swap_other (a b : Vector T) :
      Reachable tr size_of a → Reachable tr size_of b → Reachable tr size_of (Vector.Swap a b).2

/-- The full vector `[1, 2]`, used in a run of the size invariant. -/
def run_full : Vector Nat := Vector.ofParts [1, 2] []

/-- The vector `[7]` with capacity 2, used in a run of the size invariant. -/
def run_room : Vector Nat := Vector.ofParts [7] [Slot.raw]

/-! ## Copy constructors that throw

In this part the copy constructor of `T` throws when it copies the element at
index `k` of the vector for every `k` with `throws k`; the other element
operations do not throw.  On the growth paths the `k`-th transferred element
is the element at index `k`. -/

/-- The outcome of `std::uninitialized_copy_n` with a copy constructor that may
throw: all objects constructed, or an exception after the objects constructed
by the call were destroyed, or undefined behaviour.  Both first cases carry
the destination block. -/
inductive CopyOutcome (T : Type) where
  | done (dst : List (Slot T)) : CopyOutcome T
  | thrown (dst : List (Slot T)) : CopyOutcome T
  | undefined : CopyOutcome T
  deriving DecidableEq, Repr

/-- The loop of `std::uninitialized_copy_n` with a copy constructor that may
throw.  `d_begin` is the start of the destination range and `d_cur` the slot
the next object goes to.  When the copy of the element at `first` throws, the
objects in `[d_begin, d_cur)`, which this call constructed, are destroyed and
the exception leaves the algorithm. -/
def uninitialized_copy_n_throwing_loop {T : Type} (throws : Nat → Bool) (src : List (Slot T)) :
    Nat → Nat → List (Slot T) → Nat → Nat → CopyOutcome T
  | _, 0, dst, _, _ => CopyOutcome.done dst
  | first, n + 1, dst, d_begin, d_cur =>
    match readAt src first with
    | none => CopyOutcome.undefined
    | some v =>
      if throws first then
        match destroy_n dst d_begin (d_cur - d_begin) with
        | none => CopyOutcome.undefined
        | some dst1 => CopyOutcome.thrown dst1
      else
        match constructAt dst d_cur v with
        | none => CopyOutcome.undefined
        | some dst1 =>
          uninitialized_copy_n_throwing_loop throws src (first + 1) n dst1 d_begin (d_cur + 1)

/-- The algorithm `std::uninitialized_copy_n(src + first, n, dst + d_first)`
with a copy constructor that may throw. -/
def uninitialized_copy_n_throwing {T : Type} (throws : Nat → Bool) (src : List (Slot T))
    (first n : Nat) (dst : List (Slot T)) (d_first : Nat) : CopyOutcome T :=
  uninitialized_copy_n_throwing_loop throws src first n dst d_first d_first

/-- The outcome of a member function of `Vector<T>` when copy constructors may
throw: it returns `r`, or an exception leaves it, or the behaviour is
undefined.  `thrown self released` gives the vector as the exception leaves
it, and the block of the local `new_data` at the moment the unwinding runs
`~RawMemory` on it, which releases the storage and destroys no object. -/
inductive Outcome (T : Type) (α : Type) where
  | returned (r : α) : Outcome T α
  | thrown (self : Vector T) (released : List (Slot T)) : Outcome T α
  | undefined : Outcome T α
  deriving DecidableEq, Repr

/-- The member `Reserve(size_t new_capacity)` with a copy constructor that may
throw, for a request that fits: the new block has its `new_capacity` slots
(`Allocate_fitting`), so that what is modelled is the transfer and its
unwinding. -/
def Vector.Reserve_throwing {T : Type} (tr : TypeTraits) (throws : Nat → Bool)
    (self : Vector T) (new_capacity : Nat) : Outcome T (Vector T) :=
  if new_capacity ≤ self.data_.Capacity then Outcome.returned self
  else
    let new_data : RawMemory T := RawMemory.ctor_fitting new_capacity
    if tr.moves then
      match uninitialized_move_n self.data_.buffer_ self.data_.GetAddress self.size_
        new_data.buffer_ new_data.GetAddress with
      | none => Outcome.undefined
      | some (ob, nb) =>
        match destroy_n ob self.data_.GetAddress self.size_ with
        | none => Outcome.undefined
        | some ob1 =>
          let sw := RawMemory.Swap { self.data_ with buffer_ := ob1 }
            { new_data with buffer_ := nb }
          Outcome.returned { data_ := sw.1, size_ := self.size_ }
    else
      match uninitialized_copy_n_throwing throws self.data_.buffer_ self.data_.GetAddress
        self.size_ new_data.buffer_ new_data.GetAddress with
      | CopyOutcome.undefined => Outcome.undefined
      | CopyOutcome.thrown nb => Outcome.thrown self nb
      | CopyOutcome.done nb =>
        match destroy_n self.data_.buffer_ self.data_.GetAddress self.size_ with
        | none => Outcome.undefined
        | some ob1 =>
          let sw := RawMemory.Swap { self.data_ with buffer_ := ob1 }
            { new_data with buffer_ := nb }
          Outcome.returned { data_ := sw.1, size_ := self.size_ }

/-- The member `PushBack(const T& value)` with a copy constructor that may throw
on the transferred elements. -/
def Vector.PushBack_throwing {T : Type} (tr : TypeTraits) (throws : Nat → Bool)
    (self : Vector T) (value : T) : Outcome T (Vector T) :=
  if self.size_ = self.Capacity then
    let new_data : RawMemory T :=
      RawMemory.ctor_fitting (if self.size_ = 0 then 1 else self.size_ * 2)
    match new_data.plus self.size_ with
    | none => Outcome.undefined
    | some at_ =>
      match constructAt new_data.buffer_ at_ value with
      | none => Outcome.undefined
      | some nb =>
        if tr.moves then
          match uninitialized_move_n self.data_.buffer_ self.data_.GetAddress self.size_ nb
            new_data.GetAddress with
          | none => Outcome.undefined
          | some (ob, nb1) =>
            let sw := RawMemory.Swap { self.data_ with buffer_ := ob }
              { new_data with buffer_ := nb1 }
            match destroy_n sw.2.buffer_ sw.2.GetAddress self.size_ with
            | none => Outcome.undefined
            | some _ => Outcome.returned { data_ := sw.1, size_ := self.size_ + 1 }
        else
          match uninitialized_copy_n_throwing throws self.data_.buffer_ self.data_.GetAddress
            self.size_ nb new_data.GetAddress with
          | CopyOutcome.undefined => Outcome.undefined
          | CopyOutcome.thrown nb1 => Outcome.thrown self nb1
          | CopyOutcome.done nb1 =>
            let sw := RawMemory.Swap self.data_ { new_data with buffer_ := nb1 }
            match destroy_n sw.2.buffer_ sw.2.GetAddress self.size_ with
            | none => Outcome.undefined
            | some _ => Outcome.returned { data_ := sw.1, size_ := self.size_ + 1 }
  else
    match self.data_.plus self.size_ with
    | none => Outcome.undefined
    | some at_ =>
      match constructAt self.data_.buffer_ at_ value with
      | none => Outcome.undefined
      | some b =>
        Outcome.returned { data_ := { self.data_ with buffer_ := b }, size_ := self.size_ + 1 }

/-- The member `EmplaceBack(Args&&... args)` with a copy constructor that may
throw on the transferred elements. -/
def Vector.EmplaceBack_throwing {T : Type} (tr : TypeTraits) (throws : Nat → Bool)
    (self : Vector T) (value : T) : Outcome T (Vector T × T) :=
  match (if self.size_ = self.Capacity then
      let new_data : RawMemory T :=
        RawMemory.ctor_fitting (if self.size_ = 0 then 1 else self.size_ * 2)
      match constructAt new_data.buffer_ (new_data.GetAddress + self.size_) value with
      | none => Outcome.undefined
      | some nb =>
        if tr.moves then
          match uninitialized_move_n self.data_.buffer_ self.data_.GetAddress self.size_ nb
            new_data.GetAddress with
          | none => Outcome.undefined
          | some (ob, nb1) =>
            let sw := RawMemory.Swap { self.data_ with buffer_ := ob }
              { new_data with buffer_ := nb1 }
            match destroy_n sw.2.buffer_ sw.2.GetAddress self.size_ with
            | none => Outcome.undefined
            | some _ => Outcome.returned ({ data_ := sw.1, size_ := self.size_ + 1 } : Vector T)
        else
          match uninitialized_copy_n_throwing throws self.data_.buffer_ self.data_.GetAddress
            self.size_ nb new_data.GetAddress with
          | CopyOutcome.undefined => Outcome.undefined
          | CopyOutcome.thrown nb1 => Outcome.thrown self nb1
          | CopyOutcome.done nb1 =>
            let sw := RawMemory.Swap self.data_ { new_data with buffer_ := nb1 }
            match destroy_n sw.2.buffer_ sw.2.GetAddress self.size_ with
            | none => Outcome.undefined
            | some _ => Outcome.returned ({ data_ := sw.1, size_ := self.size_ + 1 } : Vector T)
    else
      match constructAt self.data_.buffer_ (self.data_.GetAddress + self.size_) value with
      | none => Outcome.undefined
      | some b =>
        Outcome.returned
          ({ data_ := { self.data_ with buffer_ := b }, size_ := self.size_ + 1 } : Vector T))
  with
  | Outcome.undefined => Outcome.undefined
  | Outcome.thrown s nb => Outcome.thrown s nb
  | Outcome.returned r =>
    match r.data_.index (size_t_sub r.size_ 1) with
    | none => Outcome.undefined
    | some x => Outcome.returned (r, x)

/-- The member `Emplace(const_iterator pos, Args&&... args)` with a copy
constructor that may throw on the transferred elements. -/
def Vector.Emplace_throwing {T : Type} (tr : TypeTraits) (throws : Nat → Bool)
    (self : Vector T) (p_index : Nat) (value : T) : Outcome T (Vector T × Nat) :=
  if self.size_ = self.Capacity then
    let new_data : RawMemory T :=
      RawMemory.ctor_fitting (if self.size_ = 0 then 1 else self.size_ * 2)
    match new_data.plus p_index with
    | none => Outcome.undefined
    | some at_ =>
      match constructAt new_data.buffer_ at_ value with
      | none => Outcome.undefined
      | some nb =>
        if tr.moves then
          match uninitialized_move_n self.data_.buffer_ self.data_.GetAddress p_index nb
            new_data.GetAddress with
          | none => Outcome.undefined
          | some (ob, nb1) =>
            match uninitialized_move_n ob (self.data_.GetAddress + p_index)
              (size_t_sub self.size_ p_index) nb1 (new_data.GetAddress + p_index + 1) with
            | none => Outcome.undefined
            | some (ob2, nb2) =>
              let sw := RawMemory.Swap { self.data_ with buffer_ := ob2 }
                { new_data with buffer_ := nb2 }
              match destroy_n sw.2.buffer_ sw.2.GetAddress self.size_ with
              | none => Outcome.undefined
              | some _ => Outcome.returned ({ data_ := sw.1, size_ := self.size_ + 1 }, p_index)
        else
          match uninitialized_copy_n_throwing throws self.data_.buffer_ self.data_.GetAddress
            p_index nb new_data.GetAddress with
          | CopyOutcome.undefined => Outcome.undefined
          | CopyOutcome.thrown nb1 => Outcome.thrown self nb1
          | CopyOutcome.done nb1 =>
            match uninitialized_copy_n_throwing throws self.data_.buffer_
              (self.data_.GetAddress + p_index) (size_t_sub self.size_ p_index) nb1
              (new_data.GetAddress + p_index + 1) with
            | CopyOutcome.undefined => Outcome.undefined
            | CopyOutcome.thrown nb2 => Outcome.thrown self nb2
            | CopyOutcome.done nb2 =>
              let sw := RawMemory.Swap self.data_ { new_data with buffer_ := nb2 }
              match destroy_n sw.2.buffer_ sw.2.GetAddress self.size_ with
              | none => Outcome.undefined
              | some _ => Outcome.returned ({ data_ := sw.1, size_ := self.size_ + 1 }, p_index)
  else
    if p_index = self.size_ then
      match constructAt self.data_.buffer_ self.size_ value with
      | none => Outcome.undefined
      | some b =>
        Outcome.returned
          ({ data_ := { self.data_ with buffer_ := b }, size_ := self.size_ + 1 }, p_index)
    else
      let buffer : T := value
      if size_t_sub self.size_ 1 < self.data_.capacity_ then
        match moveFrom self.data_.buffer_ (size_t_sub self.size_ 1) with
        | none => Outcome.undefined
        | some (last, b0) =>
          match constructAt b0 (self.data_.GetAddress + self.size_) last with
          | none => Outcome.undefined
          | some b1 =>
            match move_backward b1 p_index (size_t_sub self.size_ 1) self.size_ with
            | none => Outcome.undefined
            | some b2 =>
              match assignAt b2 p_index buffer with
              | none => Outcome.undefined
              | some b3 =>
                Outcome.returned
                  ({ data_ := { self.data_ with buffer_ := b3 }, size_ := self.size_ + 1 },
                    p_index)
      else Outcome.undefined

/-- The outcome of an operation that cannot throw. -/
def Outcome.ofOption {T α : Type} : Option α → Outcome T α
  | some r => Outcome.returned r
  | none => Outcome.undefined

/-! ## Sanity checks of the embedding on concrete inputs -/

section Checks
open Slot

example : Vector.PushBack ⟨true, true⟩ (Vector.ctor_default : Vector Nat) 1
    = some ⟨⟨[live 1], 1⟩, 1⟩ := by decide
example : Vector.PushBack ⟨false, true⟩ (⟨⟨[live 1], 1⟩, 1⟩ : Vector Nat) 2
    = some ⟨⟨[live 1, live 2], 2⟩, 2⟩ := by decide
example : Vector.Emplace ⟨true, true⟩ (⟨⟨[live 1, live 3, raw], 3⟩, 2⟩ : Vector Nat) 1 2
    = some (⟨⟨[live 1, live 2, live 3], 3⟩, 3⟩, 1) := by decide
example : Vector.Emplace ⟨true, true⟩ (⟨⟨[live 1, live 3], 2⟩, 2⟩ : Vector Nat) 1 2
    = some (⟨⟨[live 1, live 2, live 3, raw], 4⟩, 3⟩, 1) := by decide
example : Vector.Erase (⟨⟨[live 10, live 20, live 30], 3⟩, 3⟩ : Vector Nat) 1
    = some (⟨⟨[live 10, live 30, raw], 3⟩, 2⟩, 1) := by decide
example : Vector.Resize ⟨true, true⟩ 4 (⟨⟨[live 1, live 2], 2⟩, 2⟩ : Vector Nat) 5
    = some ⟨⟨[live 1, live 2, live 0, live 0, live 0], 5⟩, 5⟩ := by decide
example : (RawMemory.Allocate 4 3 : List (Slot Nat)) = [raw, raw, raw] := by decide
example : (RawMemory.Allocate 4 0 : List (Slot Nat)) = [] := by decide
example : size_t_mul (2 ^ 62) 4 = 0 := by decide
example : size_t_mul (2 ^ 61 + 1) 8 = 8 := by decide
example : (RawMemory.Allocate 4 (2 ^ 62) : List (Slot Nat)) = [] := by decide
example : (RawMemory.Allocate 8 (2 ^ 61 + 1) : List (Slot Nat)) = [raw] := by decide
example : Vector.Reserve ⟨true, true⟩ 4 (⟨⟨[live 1, live 2], 2⟩, 2⟩ : Vector Nat) 3
    = some ⟨⟨[live 1, live 2, raw], 3⟩, 2⟩ := by decide
example : Vector.Reserve ⟨true, true⟩ 4 (⟨⟨[live 1, live 2], 2⟩, 2⟩ : Vector Nat) (2 ^ 62)
    = none := by decide
example : Vector.Reserve ⟨true, true⟩ 4 (⟨⟨[], 0⟩, 0⟩ : Vector Nat) (2 ^ 62)
    = some ⟨⟨[], 2 ^ 62⟩, 0⟩ := by decide
example : (Vector.ctor_size 4 2 : Option (Vector Nat)) = some ⟨⟨[live 0, live 0], 2⟩, 2⟩ := by
  decide
example : Vector.assign_copy (⟨⟨[live 1, raw], 2⟩, 1⟩ : Vector Nat) ⟨⟨[live 7, live 8], 2⟩, 2⟩
    = some (⟨⟨[live 8, raw], 2⟩, 2⟩, ⟨⟨[live 7, live 8], 2⟩, 2⟩) := by decide

end Checks

section ChecksThrowing
open Slot

example : Vector.PushBack_throwing ⟨false, true⟩ (fun k => k == 1)
    (Vector.ofParts [1, 2] [] : Vector Nat) 5
    = Outcome.thrown (Vector.ofParts [1, 2] []) [raw, raw, live 5, raw] := by decide
example : Vector.Emplace_throwing ⟨false, true⟩ (fun k => k == 1)
    (Vector.ofParts [1, 2] [] : Vector Nat) 1 5
    = Outcome.thrown (Vector.ofParts [1, 2] []) [live 1, live 5, raw, raw] := by decide
example : Vector.Reserve_throwing ⟨false, true⟩ (fun k => k == 1)
    (Vector.ofParts [1, 2] [] : Vector Nat) 3
    = Outcome.thrown (Vector.ofParts [1, 2] []) [raw, raw, raw] := by decide
example : Vector.PushBack_throwing ⟨false, true⟩ (fun _ => false)
    (Vector.ofParts [1, 2] [] : Vector Nat) 5
    = Outcome.returned (Vector.ofParts [1, 2, 5] [raw]) := by decide

end ChecksThrowing

/-! ## Lemmas on the primitive operations -/

section Primitives
variable {T : Type}

theorem getElem?_mid {α : Type} (a : List α) (x : α) (b : List α) (n : Nat)
    (hn : n = a.length) : (a ++ x :: b)[n]? = some x := by
  subst hn
  induction a with
  | nil => simp
  | cons h t ih => simpa using ih

theorem set_mid {α : Type} (a : List α) (x y : α) (b : List α) (n : Nat)
    (hn : n = a.length) : (a ++ x :: b).set n y = a ++ y :: b := by
  subst hn
  induction a with
  | nil => rfl
  | cons h t ih => simp [List.set, ih]

theorem readAt_mid (a : List (Slot T)) (v : T) (b : List (Slot T)) (n : Nat)
    (hn : n = a.length) : readAt (a ++ Slot.live v :: b) n = some v := by
  simp [readAt, getElem?_mid a _ b n hn]

theorem constructAt_mid (a : List (Slot T)) (s : Slot T) (v : T) (b : List (Slot T)) (n : Nat)
    (hn : n = a.length) :
    constructAt (a ++ s :: b) n v = some (a ++ Slot.live v :: b) := by
  have hlt : n < (a ++ s :: b).length := by simp [hn]
  unfold constructAt
  rw [if_pos hlt, set_mid a s _ b n hn]

theorem assignAt_mid (a : List (Slot T)) (s : Slot T) (hs : s ≠ Slot.raw) (v : T)
    (b : List (Slot T)) (n : Nat) (hn : n = a.length) :
    assignAt (a ++ s :: b) n v = some (a ++ Slot.live v :: b) := by
  cases s with
  | raw => exact absurd rfl hs
  | live w => simp [assignAt, getElem?_mid a _ b n hn, set_mid a _ _ b n hn]
  | moved => simp [assignAt, getElem?_mid a _ b n hn, set_mid a _ _ b n hn]

theorem moveFrom_mid (a : List (Slot T)) (v : T) (b : List (Slot T)) (n : Nat)
    (hn : n = a.length) :
    moveFrom (a ++ Slot.live v :: b) n = some (v, a ++ Slot.moved :: b) := by
  simp [moveFrom, getElem?_mid a _ b n hn, set_mid a _ _ b n hn]

theorem destroyAt_mid (a : List (Slot T)) (s : Slot T) (hs : s ≠ Slot.raw)
    (b : List (Slot T)) (n : Nat) (hn : n = a.length) :
    destroyAt (a ++ s :: b) n = some (a ++ Slot.raw :: b) := by
  cases s with
  | raw => exact absurd rfl hs
  | live w => simp [destroyAt, getElem?_mid a _ b n hn, set_mid a _ _ b n hn]
  | moved => simp [destroyAt, getElem?_mid a _ b n hn, set_mid a _ _ b n hn]

/-- Copying `xs` out of the middle of `src` over the middle `mid` of the
destination. -/
theorem uninitialized_copy_n_mid (src pre post : List (Slot T)) (xs : List T)
    (hsrc : src = pre ++ xs.map Slot.live ++ post) :
    ∀ (k : Nat) (ys : List T) (dpre mid dpost : List (Slot T)) (first d_first : Nat),
      k + ys.length = xs.length → ys = xs.drop k → first = pre.length + k →
      d_first = dpre.length → mid.length = ys.length →
      uninitialized_copy_n src first ys.length (dpre ++ mid ++ dpost) d_first
        = some (dpre ++ ys.map Slot.live ++ dpost) := by
  intro k ys
  induction ys generalizing k with
  | nil =>
    intro dpre mid dpost first d_first _ _ _ _ hmid
    have : mid = [] := List.length_eq_zero.mp (by simpa using hmid)
    subst this
    simp [uninitialized_copy_n]
  | cons y ys ih =>
    intro dpre mid dpost first d_first hk hys hfirst hd hmid
    cases mid with
    | nil => simp at hmid
    | cons m mid =>
      have hklt : k < xs.length := by simp at hk; omega
      have hsplit : xs = xs.take k ++ y :: ys := by
        conv_lhs => rw [← List.take_append_drop k xs, ← hys]
      have hread : readAt src first = some y := by
        have : src = (pre ++ (xs.take k).map Slot.live) ++ Slot.live y ::
            (ys.map Slot.live ++ post) := by
          rw [hsrc]; conv_lhs => rw [hsplit]
          simp
        rw [this]
        apply readAt_mid
        simp [hfirst, List.length_take, Nat.min_eq_left (Nat.le_of_lt hklt)]
      have hys2 : ys = xs.drop (k + 1) := by
        have := congrArg List.tail hys
        simpa [List.drop_drop, Nat.add_comm] using this
      have hcons : constructAt (dpre ++ (m :: mid) ++ dpost) d_first y
          = some ((dpre ++ [Slot.live y]) ++ mid ++ dpost) := by
        have := constructAt_mid dpre m y (mid ++ dpost) d_first hd
        simpa using this
      simp only [List.length_cons, uninitialized_copy_n, hread, hcons]
      rw [ih (k + 1) (dpre ++ [Slot.live y]) mid dpost (first + 1) (d_first + 1)
        (by simp at hk ⊢; omega) hys2 (by omega) (by simp [hd]) (by simpa using hmid)]
      simp

/-- Copying the run `xs` that starts at offset `first` of `src` over the run
`mid` that starts at offset `d_first` of the destination. -/
theorem uninitialized_copy_n_spec (xs : List T) (pre post dpre mid dpost : List (Slot T))
    (first d_first : Nat) (hfirst : first = pre.length) (hd : d_first = dpre.length)
    (hmid : mid.length = xs.length) :
    uninitialized_copy_n (pre ++ xs.map Slot.live ++ post) first xs.length
        (dpre ++ mid ++ dpost) d_first
      = some (dpre ++ xs.map Slot.live ++ dpost) :=
  uninitialized_copy_n_mid _ pre post xs rfl 0 xs dpre mid dpost first d_first
    (by simp) (by simp) (by simpa using hfirst) hd hmid

/-- Moving the run `xs` out of the source over the run `mid` of the
destination: the source slots are left moved-from. -/
theorem uninitialized_move_n_spec (xs : List T) :
    ∀ (pre post dpre mid dpost : List (Slot T)) (first d_first : Nat),
      first = pre.length → d_first = dpre.length → mid.length = xs.length →
      uninitialized_move_n (pre ++ xs.map Slot.live ++ post) first xs.length
          (dpre ++ mid ++ dpost) d_first
        = some (pre ++ List.replicate xs.length Slot.moved ++ post,
            dpre ++ xs.map Slot.live ++ dpost) := by
  induction xs with
  | nil =>
    intro pre post dpre mid dpost first d_first _ _ hmid
    have : mid = [] := List.length_eq_zero.mp (by simpa using hmid)
    subst this
    simp [uninitialized_move_n]
  | cons x xs ih =>
    intro pre post dpre mid dpost first d_first hfirst hd hmid
    cases mid with
    | nil => simp at hmid
    | cons m mid =>
      have hmove : moveFrom (pre ++ (x :: xs).map Slot.live ++ post) first
          = some (x, (pre ++ [Slot.moved]) ++ xs.map Slot.live ++ post) := by
        have := moveFrom_mid pre x (xs.map Slot.live ++ post) first hfirst
        simpa using this
      have hcons : constructAt (dpre ++ (m :: mid) ++ dpost) d_first x
          = some ((dpre ++ [Slot.live x]) ++ mid ++ dpost) := by
        have := constructAt_mid dpre m x (mid ++ dpost) d_first hd
        simpa using this
      simp only [List.length_cons, uninitialized_move_n, hmove, hcons]
      rw [ih (pre ++ [Slot.moved]) post (dpre ++ [Slot.live x]) mid dpost (first + 1)
        (d_first + 1) (by simp [hfirst]) (by simp [hd]) (by simpa using hmid)]
      simp [List.replicate_succ]

/-- Destroying a run of constructed objects leaves raw storage. -/
theorem destroy_n_spec (mid : List (Slot T)) :
    ∀ (pre post : List (Slot T)) (first : Nat),
      first = pre.length → (∀ s ∈ mid, s ≠ Slot.raw) →
      destroy_n (pre ++ mid ++ post) first mid.length
        = some (pre ++ List.replicate mid.length Slot.raw ++ post) := by
  induction mid with
  | nil => intro pre post first _ _; simp [destroy_n]
  | cons m mid ih =>
    intro pre post first hfirst hlive
    have hd : destroyAt (pre ++ (m :: mid) ++ post) first
        = some ((pre ++ [Slot.raw]) ++ mid ++ post) := by
      have := destroyAt_mid pre m (hlive m (by simp)) (mid ++ post) first hfirst
      simpa using this
    simp only [List.length_cons, destroy_n, hd]
    rw [ih (pre ++ [Slot.raw]) post (first + 1) (by simp [hfirst])
      (fun s hs => hlive s (by simp [hs]))]
    simp [List.replicate_succ]

/-- Value-constructing over a run of slots. -/
theorem uninitialized_value_construct_n_spec [Inhabited T] (mid : List (Slot T)) :
    ∀ (pre post : List (Slot T)) (first : Nat),
      first = pre.length →
      uninitialized_value_construct_n (pre ++ mid ++ post) first mid.length
        = some (pre ++ List.replicate mid.length (Slot.live default) ++ post) := by
  induction mid with
  | nil => intro pre post first _; simp [uninitialized_value_construct_n]
  | cons m mid ih =>
    intro pre post first hfirst
    have hc : constructAt (pre ++ (m :: mid) ++ post) first (default : T)
        = some ((pre ++ [Slot.live default]) ++ mid ++ post) := by
      have := constructAt_mid pre m (default : T) (mid ++ post) first hfirst
      simpa using this
    simp only [List.length_cons, uninitialized_value_construct_n, hc]
    rw [ih (pre ++ [Slot.live default]) post (first + 1) (by simp [hfirst])]
    simp [List.replicate_succ]

/-- Copy-assigning the run `xs` of the source over a run of constructed
objects of the destination. -/
theorem copy_loop_spec (src pre post : List (Slot T)) (xs : List T)
    (hsrc : src = pre ++ xs.map Slot.live ++ post) :
    ∀ (k : Nat) (ys : List T) (dpre mid dpost : List (Slot T)) (first d_first : Nat),
      k + ys.length = xs.length → ys = xs.drop k → first = pre.length + k →
      d_first = dpre.length → mid.length = ys.length → (∀ s ∈ mid, s ≠ Slot.raw) →
      copy_loop src first ys.length (dpre ++ mid ++ dpost) d_first
        = some (dpre ++ ys.map Slot.live ++ dpost) := by
  intro k ys
  induction ys generalizing k with
  | nil =>
    intro dpre mid dpost first d_first _ _ _ _ hmid _
    have : mid = [] := List.length_eq_zero.mp (by simpa using hmid)
    subst this
    simp [copy_loop]
  | cons y ys ih =>
    intro dpre mid dpost first d_first hk hys hfirst hd hmid hlive
    cases mid with
    | nil => simp at hmid
    | cons m mid =>
      have hklt : k < xs.length := by simp at hk; omega
      have hsplit : xs = xs.take k ++ y :: ys := by
        conv_lhs => rw [← List.take_append_drop k xs, ← hys]
      have hread : readAt src first = some y := by
        have : src = (pre ++ (xs.take k).map Slot.live) ++ Slot.live y ::
            (ys.map Slot.live ++ post) := by
          rw [hsrc]; conv_lhs => rw [hsplit]
          simp
        rw [this]
        apply readAt_mid
        simp [hfirst, List.length_take, Nat.min_eq_left (Nat.le_of_lt hklt)]
      have hys2 : ys = xs.drop (k + 1) := by
        have := congrArg List.tail hys
        simpa [List.drop_drop, Nat.add_comm] using this
      have hasg : assignAt (dpre ++ (m :: mid) ++ dpost) d_first y
          = some ((dpre ++ [Slot.live y]) ++ mid ++ dpost) := by
        have := assignAt_mid dpre m (hlive m (by simp)) y (mid ++ dpost) d_first hd
        simpa using this
      simp only [List.length_cons, copy_loop, hread, hasg]
      rw [ih (k + 1) (dpre ++ [Slot.live y]) mid dpost (first + 1) (d_first + 1)
        (by simp at hk ⊢; omega) hys2 (by omega) (by simp [hd]) (by simpa using hmid)
        (fun s hs => hlive s (by simp [hs]))]
      simp

/-- The loop of `std::move_backward` shifts a run of live objects one slot to
the right, into a moved-from slot, and leaves the first slot moved-from. -/
theorem move_backward_loop_spec (xs : List T) :
    ∀ (pre post : List (Slot T)) (last d_last : Nat),
      last = pre.length + xs.length → d_last = last + 1 →
      move_backward_loop (pre ++ xs.map Slot.live ++ Slot.moved :: post) xs.length last d_last
        = some (pre ++ Slot.moved :: xs.map Slot.live ++ post) := by
  induction xs using List.reverseRecOn with
  | nil => intro pre post last d_last _ _; simp [move_backward_loop]
  | append_singleton xs x ih =>
    intro pre post last d_last hlast hd
    have hne : ¬ (last = 0 ∨ d_last = 0) := by simp at hlast; omega
    have hmove : moveFrom (pre ++ (xs ++ [x]).map Slot.live ++ Slot.moved :: post) (last - 1)
        = some (x, (pre ++ xs.map Slot.live ++ [Slot.moved]) ++ Slot.moved :: post) := by
      have := moveFrom_mid (pre ++ xs.map Slot.live) x (Slot.moved :: post) (last - 1)
        (by simp at hlast ⊢; omega)
      simpa using this
    have hasg : assignAt ((pre ++ xs.map Slot.live ++ [Slot.moved]) ++ Slot.moved :: post)
        (d_last - 1) x
        = some (pre ++ xs.map Slot.live ++ Slot.moved :: Slot.live x :: post) := by
      have := assignAt_mid (pre ++ xs.map Slot.live ++ [Slot.moved]) Slot.moved (by simp) x
        post (d_last - 1) (by simp at hlast ⊢; omega)
      simpa using this
    have hlen : (xs ++ [x]).length = xs.length + 1 := by simp
    rw [hlen]
    simp only [move_backward_loop, hne, if_false, hmove, hasg]
    rw [ih pre (Slot.live x :: post) (last - 1) (d_last - 1) (by simp at hlast; omega) (by omega)]
    simp

/-- The loop of `Erase` shifts the run `xs` one slot to the left, over the
constructed object in front of it, and leaves the last slot moved-from. -/
theorem Erase_loop_spec (xs : List T) :
    ∀ (pre post : List (Slot T)) (s : Slot T) (index : Nat),
      index = pre.length → s ≠ Slot.raw →
      Vector.Erase_loop (pre ++ s :: xs.map Slot.live ++ post) index xs.length
        = some (pre ++ xs.map Slot.live ++ (if xs.isEmpty then s else Slot.moved) :: post) := by
  induction xs with
  | nil => intro pre post s index _ _; simp [Vector.Erase_loop]
  | cons x xs ih =>
    intro pre post s index hidx hs
    have hmove : moveFrom (pre ++ s :: (x :: xs).map Slot.live ++ post) (index + 1)
        = some (x, pre ++ s :: Slot.moved :: xs.map Slot.live ++ post) := by
      have := moveFrom_mid (pre ++ [s]) x (xs.map Slot.live ++ post) (index + 1)
        (by simp [hidx])
      simpa using this
    have hasg : assignAt (pre ++ s :: Slot.moved :: xs.map Slot.live ++ post) index x
        = some ((pre ++ [Slot.live x]) ++ Slot.moved :: xs.map Slot.live ++ post) := by
      have := assignAt_mid pre s hs x (Slot.moved :: xs.map Slot.live ++ post) index hidx
      simpa using this
    simp only [List.length_cons, Vector.Erase_loop, hmove, hasg]
    rw [ih (pre ++ [Slot.live x]) post Slot.moved (index + 1) (by simp [hidx]) (by simp)]
    simp

end Primitives

/-! ## Vectors in canonical form -/

section Canonical
variable {T : Type}

theorem Vector.holds_ofParts (xs : List T) (tail : List (Slot T)) :
    (Vector.ofParts xs tail).Holds xs := by
  simp [Vector.Holds, Vector.ofParts]

/-- Every vector that holds `xs` is in canonical form. -/
theorem Vector.Holds.canonical {S : Vector T} {xs : List T} (h : S.Holds xs) :
    ∃ tail, S = Vector.ofParts xs tail := by
  obtain ⟨hsz, hlen, htake⟩ := h
  refine ⟨S.data_.buffer_.drop S.size_, ?_⟩
  have hbuf : S.data_.buffer_ = xs.map Slot.live ++ S.data_.buffer_.drop S.size_ := by
    conv_lhs => rw [← List.take_append_drop S.size_ S.data_.buffer_, htake]
  have hle : xs.length ≤ S.data_.buffer_.length := by
    have := congrArg List.length htake
    simp [List.length_take] at this
    omega
  rcases S with ⟨⟨buf, cap⟩, sz⟩
  simp only [Vector.ofParts] at *
  subst hsz hlen
  simp only [Vector.mk.injEq, RawMemory.mk.injEq, and_true]
  refine ⟨hbuf, ?_⟩
  simp [List.length_drop]
  omega

theorem Vector.holds_iff (S : Vector T) (xs : List T) :
    S.Holds xs ↔ ∃ tail, S = Vector.ofParts xs tail :=
  ⟨fun h => h.canonical, fun ⟨tail, h⟩ => h ▸ Vector.holds_ofParts xs tail⟩

@[simp] theorem Vector.ofParts_Size (xs : List T) (tail : List (Slot T)) :
    (Vector.ofParts xs tail).Size = xs.length := rfl

@[simp] theorem Vector.ofParts_Capacity (xs : List T) (tail : List (Slot T)) :
    (Vector.ofParts xs tail).Capacity = xs.length + tail.length := rfl

/-- Indexing a canonical vector: `operator[]` gives the `i`-th element of the
contents for `i < size_` and fails otherwise. -/
theorem Vector.ofParts_index (xs : List T) (tail : List (Slot T)) (i : Nat) :
    (Vector.ofParts xs tail).index i = xs[i]? := by
  unfold Vector.index RawMemory.index Vector.ofParts readAt
  by_cases hi : i < xs.length
  · have h2 : i < xs.length + tail.length := by omega
    have h3 : (xs.map Slot.live ++ tail)[i]? = some (Slot.live xs[i]) := by
      rw [List.getElem?_append_left (by simpa using hi)]
      simp [List.getElem?_eq_getElem hi]
    simp [hi, h2, h3, List.getElem?_eq_getElem hi]
  · have : xs[i]? = none := List.getElem?_eq_none (by omega)
    simp [hi, this]

/-- The transfer of all elements to a new block on a growth path, followed by
the destruction of the old elements. -/
theorem transfer_all (tr : TypeTraits) (xs : List T) (mid dpost : List (Slot T))
    (hmid : mid.length = xs.length) :
    ∃ ob, (if tr.moves then
          uninitialized_move_n (xs.map Slot.live) 0 xs.length (mid ++ dpost) 0
        else
          (uninitialized_copy_n (xs.map Slot.live) 0 xs.length (mid ++ dpost) 0).map
            (fun d => (xs.map Slot.live, d)))
        = some (ob, xs.map Slot.live ++ dpost) ∧
      destroy_n ob 0 xs.length = some (List.replicate xs.length Slot.raw) := by
  cases hm : tr.moves with
  | true =>
    refine ⟨List.replicate xs.length Slot.moved, ?_, ?_⟩
    · have := uninitialized_move_n_spec xs [] [] [] mid dpost 0 0 rfl rfl hmid
      simpa using this
    · have := destroy_n_spec (List.replicate xs.length (Slot.moved : Slot T)) [] [] 0 rfl
        (by intro s hs; rw [List.eq_of_mem_replicate hs]; simp)
      simpa using this
  | false =>
    refine ⟨xs.map Slot.live, ?_, ?_⟩
    · have := uninitialized_copy_n_spec xs [] [] [] mid dpost 0 0 rfl rfl hmid
      simp at this
      simp [this]
    · have := destroy_n_spec (xs.map Slot.live) [] [] 0 rfl
        (by intro s hs; simp at hs; obtain ⟨a, _, rfl⟩ := hs; simp)
      simpa using this

/-- The capacity a growth path allocates. -/
theorem grow_capacity (n : Nat) : (if n = 0 then 1 else n * 2) = n + 1 + (n - 1) := by
  split <;> omega

theorem Allocate_fitting_split (a b : Nat) :
    (RawMemory.Allocate_fitting (a + 1 + b) : List (Slot T))
      = List.replicate a Slot.raw ++ Slot.raw :: List.replicate b Slot.raw := by
  have : a + 1 + b ≠ 0 := by omega
  unfold RawMemory.Allocate_fitting
  rw [if_pos this, show a + 1 + b = a + (b + 1) by omega, List.replicate_add,
    List.replicate_succ]

/-- The member `PushBack` on the growth path. -/
theorem Vector.PushBack_grow (tr : TypeTraits) (xs : List T) (v : T) :
    Vector.PushBack tr (Vector.ofParts xs []) v
      = some (Vector.ofParts (xs ++ [v]) (List.replicate (xs.length - 1) Slot.raw)) := by
  obtain ⟨ob, htr, hdes⟩ := transfer_all tr xs (List.replicate xs.length Slot.raw)
    (Slot.live v :: List.replicate (xs.length - 1) Slot.raw) (by simp)
  have hc : constructAt (List.replicate xs.length Slot.raw ++ Slot.raw ::
      List.replicate (xs.length - 1) Slot.raw) xs.length v
      = some (List.replicate xs.length Slot.raw ++ Slot.live v ::
          List.replicate (xs.length - 1) Slot.raw) :=
    constructAt_mid _ _ _ _ _ (by simp)
  unfold Vector.PushBack
  simp only [Vector.ofParts, Vector.Capacity, RawMemory.Capacity, List.append_nil,
    List.length_nil, Nat.add_zero, if_true, RawMemory.ctor_fitting, grow_capacity,
    Allocate_fitting_split, RawMemory.plus, RawMemory.GetAddress, RawMemory.Swap]
  rw [if_pos (by omega)]
  simp only [hc, htr, hdes]
  simp

/-- The member `PushBack` when a free slot is left. -/
theorem Vector.PushBack_room (tr : TypeTraits) (xs : List T) (t : Slot T)
    (tail : List (Slot T)) (v : T) :
    Vector.PushBack tr (Vector.ofParts xs (t :: tail)) v
      = some (Vector.ofParts (xs ++ [v]) tail) := by
  have hc : constructAt (xs.map Slot.live ++ t :: tail) xs.length v
      = some (xs.map Slot.live ++ Slot.live v :: tail) :=
    constructAt_mid _ _ _ _ _ (by simp)
  unfold Vector.PushBack
  simp only [Vector.ofParts, Vector.Capacity, RawMemory.Capacity, List.length_cons,
    RawMemory.plus]
  rw [if_neg (by omega), if_pos (by omega)]
  simp only [hc]
  simp
  omega

/-- The two overloads of `PushBack` run the same steps. -/
theorem Vector.PushBack_rvalue_eq (tr : TypeTraits) (S : Vector T) (v : T) :
    Vector.PushBack_rvalue tr S v = Vector.PushBack tr S v := rfl

/-- The member `PushBack` on any vector: the result holds the old contents
followed by the new value, and the capacity follows the growth policy. -/
theorem Vector.PushBack_holds (tr : TypeTraits) (S : Vector T) (xs : List T) (v : T)
    (h : S.Holds xs) :
    ∃ R, Vector.PushBack tr S v = some R ∧ R.Holds (xs ++ [v]) ∧
      R.Capacity = (if S.Size = S.Capacity then (if S.Size = 0 then 1 else S.Size * 2)
        else S.Capacity) := by
  obtain ⟨tail, rfl⟩ := h.canonical
  cases tail with
  | nil =>
    refine ⟨_, Vector.PushBack_grow tr xs v, Vector.holds_ofParts _ _, ?_⟩
    simp only [Vector.ofParts_Size, Vector.ofParts_Capacity, List.length_nil, Nat.add_zero,
      if_true, List.length_append, List.length_singleton, List.length_replicate]
    split <;> omega
  | cons t tail =>
    refine ⟨_, Vector.PushBack_room tr xs t tail v, Vector.holds_ofParts _ _, ?_⟩
    simp only [Vector.ofParts_Size, Vector.ofParts_Capacity, List.length_cons,
      List.length_append, List.length_nil]
    rw [if_neg (by omega)]
    omega

/-- Indexing a vector that holds `xs`. -/
theorem Vector.Holds.index_eq {S : Vector T} {xs : List T} (h : S.Holds xs) (i : Nat) :
    S.index i = xs[i]? := by
  obtain ⟨tail, rfl⟩ := h.canonical
  exact Vector.ofParts_index xs tail i

theorem Vector.Holds.size_eq {S : Vector T} {xs : List T} (h : S.Holds xs) :
    S.Size = xs.length := h.1

theorem Vector.Holds.size_le {S : Vector T} {xs : List T} (h : S.Holds xs) :
    S.Size ≤ S.Capacity := by
  obtain ⟨tail, rfl⟩ := h.canonical
  simp

/-- Two lists held by the same vector are equal. -/
theorem Vector.Holds.unique {S : Vector T} {xs ys : List T} (h : S.Holds xs)
    (h2 : S.Holds ys) : xs = ys := by
  have := h.2.2.symm.trans h2.2.2
  exact List.map_injective_iff.mpr (fun a b hab => by injection hab) this

theorem GrowthInv.step {n c : Nat} (h : GrowthInv n c) (hle : n ≤ c) :
    GrowthInv (n + 1) (if n = c then (if n = 0 then 1 else n * 2) else c) := by
  rcases h with ⟨hn, hc⟩ | ⟨hpos, k, hc, hnc, hk⟩
  · subst hn hc
    exact Or.inr ⟨by omega, 0, by simp, by simp, Or.inl rfl⟩
  · right
    refine ⟨by omega, ?_⟩
    by_cases heq : n = c
    · refine ⟨k + 1, ?_, ?_, Or.inr ?_⟩
      · rw [if_pos heq, if_neg (by omega), heq, hc, pow_succ]
      · rw [if_pos heq, if_neg (by omega)]; omega
      · simp only [Nat.add_sub_cancel]; omega
    · refine ⟨k, ?_, ?_, ?_⟩
      · rw [if_neg heq]; exact hc
      · rw [if_neg heq]; omega
      · rcases hk with hk | hk
        · left; exact hk
        · right; omega

theorem GrowthInv.least {n c : Nat} (h : GrowthInv n c) (hpos : 0 < n) : LeastPow2 c n := by
  rcases h with ⟨hn, _⟩ | ⟨_, k, hc, hnc, hk⟩
  · omega
  · refine ⟨⟨k, hc⟩, hnc, ?_⟩
    intro j hj
    rw [hc]
    rcases hk with hk | hk
    · subst hk; simpa using Nat.one_le_two_pow
    · have hlt : 2 ^ (k - 1) < 2 ^ j := lt_of_lt_of_le hk hj
      have : k - 1 < j := (Nat.pow_lt_pow_iff_right (by norm_num)).mp hlt
      exact Nat.pow_le_pow_right (by norm_num) (by omega)

/-- A run of appends: the contents grow by the appended values and the
capacity keeps the growth invariant. -/
theorem Vector.PushBack_all_holds (tr : TypeTraits) (vs : List T) :
    ∀ (S : Vector T) (xs : List T), S.Holds xs → GrowthInv S.Size S.Capacity →
      ∃ R, Vector.PushBack_all tr S vs = some R ∧ R.Holds (xs ++ vs) ∧
        GrowthInv R.Size R.Capacity := by
  induction vs with
  | nil => intro S xs h hinv; exact ⟨S, rfl, by simpa using h, hinv⟩
  | cons v vs ih =>
    intro S xs h hinv
    obtain ⟨S1, h1, hholds, hcap⟩ := Vector.PushBack_holds tr S xs v h
    have hinv1 : GrowthInv S1.Size S1.Capacity := by
      have hs : S1.Size = S.Size + 1 := by
        rw [hholds.size_eq, h.size_eq]; simp
      rw [hs, hcap]
      exact hinv.step h.size_le
    obtain ⟨R, hR, hRh, hRi⟩ := ih S1 (xs ++ [v]) hholds hinv1
    refine ⟨R, ?_, by simpa using hRh, hRi⟩
    simp only [Vector.PushBack_all, h1, hR]

theorem Vector.holds_ctor_default : (Vector.ctor_default : Vector T).Holds [] := by
  simp [Vector.Holds, Vector.ctor_default, RawMemory.ctor_default]

theorem Allocate_fitting_split3 (a m r : Nat) :
    (RawMemory.Allocate_fitting (a + 1 + (m + r)) : List (Slot T))
      = List.replicate a Slot.raw ++ Slot.raw ::
          (List.replicate m Slot.raw ++ List.replicate r Slot.raw) := by
  rw [Allocate_fitting_split, List.replicate_add]

theorem grow_capacity3 (n a : Nat) (ha : a ≤ n) :
    (if n = 0 then 1 else n * 2) = a + 1 + ((n - a) + (n - 1)) := by
  split <;> omega

theorem size_t_sub_le (a b : Nat) (h : b ≤ a) : size_t_sub a b = a - b := by
  simp [size_t_sub, h]

/-- The transfer of the elements before and after the insertion point to a
new block on the growth path of `Emplace`, followed by the destruction of the
old elements. -/
theorem transfer_split (tr : TypeTraits) (xs ys : List T) (gap : Slot T)
    (m1 m2 dpost : List (Slot T)) (h1 : m1.length = xs.length) (h2 : m2.length = ys.length) :
    ∃ ob, (if tr.moves then
          match uninitialized_move_n ((xs ++ ys).map Slot.live) 0 xs.length
            (m1 ++ gap :: (m2 ++ dpost)) 0 with
          | none => none
          | some (ob, nb1) =>
            uninitialized_move_n ob (0 + xs.length) ys.length nb1 (0 + xs.length + 1)
        else
          match uninitialized_copy_n ((xs ++ ys).map Slot.live) 0 xs.length
            (m1 ++ gap :: (m2 ++ dpost)) 0 with
          | none => none
          | some nb1 =>
            (uninitialized_copy_n ((xs ++ ys).map Slot.live) (0 + xs.length) ys.length nb1
              (0 + xs.length + 1)).map (fun d => ((xs ++ ys).map Slot.live, d)))
        = some (ob, xs.map Slot.live ++ gap :: (ys.map Slot.live ++ dpost)) ∧
      destroy_n ob 0 (xs ++ ys).length = some (List.replicate (xs ++ ys).length Slot.raw) := by
  cases hm : tr.moves with
  | true =>
    refine ⟨List.replicate (xs ++ ys).length Slot.moved, ?_, ?_⟩
    · have e1 := uninitialized_move_n_spec xs [] (ys.map Slot.live) [] m1
        (gap :: (m2 ++ dpost)) 0 0 rfl rfl h1
      have e2 := uninitialized_move_n_spec ys (List.replicate xs.length Slot.moved) []
        (xs.map Slot.live ++ [gap]) m2 dpost (0 + xs.length) (0 + xs.length + 1)
        (by simp) (by simp) h2
      simp only [List.nil_append, List.append_nil, List.append_assoc, List.singleton_append,
        List.cons_append] at e1 e2
      simp only [List.map_append, if_true, e1, e2]
      simp
    · have := destroy_n_spec (List.replicate (xs ++ ys).length (Slot.moved : Slot T)) [] [] 0 rfl
        (by intro s hs; rw [List.eq_of_mem_replicate hs]; simp)
      simpa using this
  | false =>
    refine ⟨(xs ++ ys).map Slot.live, ?_, ?_⟩
    · have e1 := uninitialized_copy_n_spec xs [] (ys.map Slot.live) [] m1
        (gap :: (m2 ++ dpost)) 0 0 rfl rfl h1
      have e2 := uninitialized_copy_n_spec ys (xs.map Slot.live) []
        (xs.map Slot.live ++ [gap]) m2 dpost (0 + xs.length) (0 + xs.length + 1)
        (by simp) (by simp) h2
      simp only [List.nil_append, List.append_nil, List.append_assoc, List.singleton_append,
        List.cons_append] at e1 e2
      simp only [List.map_append, e1, e2]
      simp
    · have := destroy_n_spec ((xs ++ ys).map Slot.live) [] [] 0 rfl
        (by intro s hs; simp at hs; rcases hs with ⟨a, _, rfl⟩ | ⟨a, _, rfl⟩ <;> simp)
      simpa using this

/-- The member `Emplace` on the growth path, at the position between `xs` and
`ys`. -/
theorem Vector.Emplace_grow (tr : TypeTraits) (xs ys : List T) (v : T) :
    Vector.Emplace tr (Vector.ofParts (xs ++ ys) []) xs.length v
      = some (Vector.ofParts (xs ++ v :: ys)
          (List.replicate ((xs ++ ys).length - 1) Slot.raw), xs.length) := by
  obtain ⟨ob, htr, hdes⟩ := transfer_split tr xs ys (Slot.live v)
    (List.replicate xs.length Slot.raw) (List.replicate ys.length Slot.raw)
    (List.replicate ((xs ++ ys).length - 1) Slot.raw) (by simp) (by simp)
  have hc : constructAt (List.replicate xs.length Slot.raw ++ Slot.raw ::
      (List.replicate ys.length Slot.raw ++ List.replicate ((xs ++ ys).length - 1) Slot.raw))
      xs.length v
      = some (List.replicate xs.length Slot.raw ++ Slot.live v ::
        (List.replicate ys.length Slot.raw ++
          List.replicate ((xs ++ ys).length - 1) Slot.raw)) :=
    constructAt_mid _ _ _ _ _ (by simp)
  have hsub : size_t_sub (xs ++ ys).length xs.length = ys.length := by
    rw [size_t_sub_le _ _ (by simp)]; simp
  have hys : (xs ++ ys).length - xs.length = ys.length := by simp
  unfold Vector.Emplace
  simp only [Vector.ofParts, Vector.Capacity, RawMemory.Capacity, List.append_nil,
    List.length_nil, Nat.add_zero, if_true, RawMemory.ctor_fitting,
    grow_capacity3 (xs ++ ys).length xs.length (by simp), hys,
    Allocate_fitting_split3, RawMemory.plus, RawMemory.GetAddress, RawMemory.Swap, hsub]
  rw [if_pos (by omega)]
  simp only [hc, htr, hdes]
  simp
  omega

/-- The member `Emplace` at the end when a free slot is left. -/
theorem Vector.Emplace_end_room (tr : TypeTraits) (xs : List T) (t : Slot T)
    (tail : List (Slot T)) (v : T) :
    Vector.Emplace tr (Vector.ofParts xs (t :: tail)) xs.length v
      = some (Vector.ofParts (xs ++ [v]) tail, xs.length) := by
  have hc : constructAt (xs.map Slot.live ++ t :: tail) xs.length v
      = some (xs.map Slot.live ++ Slot.live v :: tail) :=
    constructAt_mid _ _ _ _ _ (by simp)
  unfold Vector.Emplace
  simp only [Vector.ofParts, Vector.Capacity, RawMemory.Capacity, List.length_cons]
  rw [if_neg (by omega), if_pos trivial]
  simp only [hc]
  simp
  omega

/-- The member `Emplace` in front of the element `l` when a free slot is left:
the contents are `xs ++ ys ++ [l]` and the position is `|xs|`. -/
theorem Vector.Emplace_mid_room (tr : TypeTraits) (xs ys : List T) (l : T) (t : Slot T)
    (tail : List (Slot T)) (v : T) :
    Vector.Emplace tr (Vector.ofParts (xs ++ ys ++ [l]) (t :: tail)) xs.length v
      = some (Vector.ofParts (xs ++ v :: ys ++ [l]) tail, xs.length) := by
  have hlen : (xs ++ ys ++ [l]).length = xs.length + ys.length + 1 := by
    simp [Nat.add_assoc]
  have hsub : size_t_sub (xs.length + ys.length + 1) 1 = xs.length + ys.length := by
    rw [size_t_sub_le _ _ (by omega)]; simp
  have hbuf : (xs ++ ys ++ [l]).map Slot.live ++ t :: tail
      = (xs.map Slot.live ++ ys.map Slot.live) ++ Slot.live l :: t :: tail := by simp
  have hmv : moveFrom ((xs.map Slot.live ++ ys.map Slot.live) ++ Slot.live l :: t :: tail)
      (xs.length + ys.length)
      = some (l, (xs.map Slot.live ++ ys.map Slot.live) ++ Slot.moved :: t :: tail) :=
    moveFrom_mid _ _ _ _ (by simp)
  have hc : constructAt ((xs.map Slot.live ++ ys.map Slot.live) ++ Slot.moved :: t :: tail)
      (0 + (xs.length + ys.length + 1)) l
      = some (xs.map Slot.live ++ ys.map Slot.live ++ Slot.moved :: Slot.live l :: tail) := by
    have := constructAt_mid (xs.map Slot.live ++ ys.map Slot.live ++ [Slot.moved]) t l tail
      (0 + (xs.length + ys.length + 1)) (by simp [Nat.add_assoc])
    simpa using this
  have hmb : move_backward
      (xs.map Slot.live ++ ys.map Slot.live ++ Slot.moved :: Slot.live l :: tail)
      xs.length (xs.length + ys.length) (xs.length + ys.length + 1)
      = some (xs.map Slot.live ++ Slot.moved :: ys.map Slot.live ++ Slot.live l :: tail) := by
    unfold move_backward
    rw [if_pos (by omega), Nat.add_sub_cancel_left]
    exact move_backward_loop_spec ys (xs.map Slot.live) (Slot.live l :: tail) _ _
      (by simp) rfl
  have hasg : assignAt
      (xs.map Slot.live ++ Slot.moved :: ys.map Slot.live ++ Slot.live l :: tail) xs.length v
      = some (xs.map Slot.live ++ Slot.live v :: (ys.map Slot.live ++ Slot.live l :: tail)) := by
    have := assignAt_mid (xs.map Slot.live) Slot.moved (by simp) v
      (ys.map Slot.live ++ Slot.live l :: tail) xs.length (by simp)
    simpa using this
  unfold Vector.Emplace
  simp only [Vector.ofParts, Vector.Capacity, RawMemory.Capacity, List.length_cons, hlen,
    hsub, hbuf, RawMemory.GetAddress]
  rw [if_neg (by omega), if_neg (by omega), if_pos (by omega)]
  simp only [hmv, hc, hmb, hasg]
  simp
  omega

/-- The member `Emplace` on any vector and at any position up to the end. -/
theorem Vector.Emplace_holds (tr : TypeTraits) (S : Vector T) (xs : List T) (p : Nat) (v : T)
    (h : S.Holds xs) (hp : p ≤ xs.length) :
    ∃ R, Vector.Emplace tr S p v = some (R, p) ∧ R.Holds (xs.take p ++ v :: xs.drop p) ∧
      S.Capacity ≤ R.Capacity := by
  obtain ⟨tail, rfl⟩ := h.canonical
  have hsplit : xs = xs.take p ++ xs.drop p := (List.take_append_drop p xs).symm
  have hplen : (xs.take p).length = p := by simp [List.length_take, hp]
  cases tail with
  | nil =>
    have := Vector.Emplace_grow tr (xs.take p) (xs.drop p) v
    rw [← hsplit, hplen] at this
    refine ⟨_, this, Vector.holds_ofParts _ _, ?_⟩
    simp
    omega
  | cons t tail =>
    by_cases hlt : p < xs.length
    · have hne : xs.drop p ≠ [] := by
        intro hnil
        have := congrArg List.length hnil
        simp at this
        omega
      obtain ⟨ys, l, hyl⟩ : ∃ ys l, xs.drop p = ys ++ [l] :=
        ⟨(xs.drop p).dropLast, (xs.drop p).getLast hne, (List.dropLast_append_getLast hne).symm⟩
      have := Vector.Emplace_mid_room tr (xs.take p) ys l t tail v
      rw [List.append_assoc, ← hyl, ← hsplit, hplen] at this
      rw [hyl]
      refine ⟨_, by simpa using this, by simpa using Vector.holds_ofParts _ _, ?_⟩
      have hl : xs.length = p + (ys.length + 1) := by
        have := congrArg List.length hyl
        simp at this
        omega
      simp
      omega
    · have hpe : p = xs.length := by omega
      subst hpe
      refine ⟨_, Vector.Emplace_end_room tr xs t tail v, by simpa using Vector.holds_ofParts _ _,
        ?_⟩
      simp
      omega

/-- The member `PopBack` on a vector that ends with the constructed object `s`. -/
theorem Vector.PopBack_slot (pre : List (Slot T)) (s : Slot T) (hs : s ≠ Slot.raw)
    (tail : List (Slot T)) (cap sz : Nat) (hsz : sz = pre.length + 1) :
    Vector.PopBack { data_ := { buffer_ := pre ++ s :: tail, capacity_ := cap }, size_ := sz }
      = some { data_ := { buffer_ := pre ++ Slot.raw :: tail, capacity_ := cap },
               size_ := pre.length } := by
  have hd : destroy_n (pre ++ s :: tail) (0 + sz - 1) 1 = some (pre ++ Slot.raw :: tail) := by
    have := destroy_n_spec [s] pre tail (0 + sz - 1) (by omega)
      (by intro x hx; rw [List.mem_singleton.mp hx]; exact hs)
    simpa using this
  unfold Vector.PopBack
  simp only [RawMemory.GetAddress]
  rw [if_pos (by omega)]
  simp only [hd]
  simp [hsz]

/-- The member `Erase` at the position of `x` in the contents `xs ++ x :: ys`. -/
theorem Vector.Erase_at (xs : List T) (x : T) (ys : List T) (tail : List (Slot T)) :
    Vector.Erase (Vector.ofParts (xs ++ x :: ys) tail) xs.length
      = some (Vector.ofParts (xs ++ ys) (Slot.raw :: tail), xs.length) := by
  have hlen : (xs ++ x :: ys).length = xs.length + ys.length + 1 := by
    simp [Nat.add_assoc]
  have hsub : size_t_sub (xs.length + ys.length + 1) 1 - xs.length = ys.length := by
    rw [size_t_sub_le _ _ (by omega)]; omega
  have hbuf : (xs ++ x :: ys).map Slot.live ++ tail
      = xs.map Slot.live ++ Slot.live x :: ys.map Slot.live ++ tail := by simp
  have hloop := Erase_loop_spec ys (xs.map Slot.live) tail (Slot.live x) xs.length
    (by simp) (by simp)
  have hpop := Vector.PopBack_slot (xs.map Slot.live ++ ys.map Slot.live)
    (if ys.isEmpty then Slot.live x else Slot.moved) (by split <;> simp) tail
    (xs.length + ys.length + 1 + tail.length) (xs.length + ys.length + 1) (by simp)
  unfold Vector.Erase
  simp only [Vector.ofParts, hlen, hsub, hbuf, hloop]
  simp only [List.append_assoc] at hpop ⊢
  simp only [hpop]
  simp
  omega

/-- The member `Erase` on any non-empty vector and at any position before the
end. -/
theorem Vector.Erase_holds (S : Vector T) (xs : List T) (p : Nat) (h : S.Holds xs)
    (hp : p < xs.length) :
    ∃ R, Vector.Erase S p = some (R, p) ∧ R.Holds (xs.take p ++ xs.drop (p + 1)) ∧
      R.Capacity = S.Capacity := by
  obtain ⟨tail, rfl⟩ := h.canonical
  have hplen : (xs.take p).length = p := by simp [List.length_take]; omega
  have hsplit : xs = xs.take p ++ xs[p] :: xs.drop (p + 1) := by
    conv_lhs => rw [← List.take_append_drop p xs, List.drop_eq_getElem_cons hp]
  have := Vector.Erase_at (xs.take p) xs[p] (xs.drop (p + 1)) tail
  rw [← hsplit, hplen] at this
  refine ⟨_, this, Vector.holds_ofParts _ _, ?_⟩
  simp
  omega

theorem Allocate_fitting_eq (n : Nat) :
    (RawMemory.Allocate_fitting n : List (Slot T)) = List.replicate n Slot.raw := by
  unfold RawMemory.Allocate_fitting
  split
  · rfl
  · have : n = 0 := by omega
    subst this; rfl

/-- A request whose byte count does not wrap gets its `n` slots. -/
theorem Allocate_fits (size_of n : Nat) (hsz : 0 < size_of)
    (hfit : n * size_of < SIZE_RANGE) :
    (RawMemory.Allocate size_of n : List (Slot T)) = List.replicate n Slot.raw := by
  unfold RawMemory.Allocate size_t_mul
  rw [Nat.mod_eq_of_lt hfit, Nat.mul_div_cancel _ hsz]
  split
  · rfl
  · have : n = 0 := by omega
    subst this; rfl

/-- For a request whose byte count does not wrap, `RawMemory(capacity)` owns
the block of `capacity` slots. -/
theorem ctor_capacity_fits (size_of n : Nat) (hsz : 0 < size_of)
    (hfit : n * size_of < SIZE_RANGE) :
    (RawMemory.ctor_capacity size_of n : RawMemory T) = RawMemory.ctor_fitting n := by
  unfold RawMemory.ctor_capacity RawMemory.ctor_fitting
  rw [Allocate_fits size_of n hsz hfit, Allocate_fitting_eq]

/-- The copy constructor. -/
theorem Vector.ctor_copy_ofParts (xs : List T) (tail : List (Slot T)) :
    Vector.ctor_copy (Vector.ofParts xs tail)
      = some (Vector.ofParts xs [], Vector.ofParts xs tail) := by
  have hcp := uninitialized_copy_n_spec xs [] tail [] (List.replicate xs.length Slot.raw) []
    0 0 rfl rfl (by simp)
  simp only [List.nil_append, List.append_nil] at hcp
  unfold Vector.ctor_copy
  simp only [Vector.ofParts, Vector.Size, RawMemory.ctor_fitting, Allocate_fitting_eq,
    RawMemory.GetAddress, hcp]
  simp

/-- The member `Reserve`. -/
theorem Vector.Reserve_ofParts (tr : TypeTraits) (size_of : Nat) (xs : List T)
    (tail : List (Slot T)) (n : Nat) (hsz : 0 < size_of)
    (hfit : n ≤ xs.length + tail.length ∨ n * size_of < SIZE_RANGE) :
    Vector.Reserve tr size_of (Vector.ofParts xs tail) n
      = some (if n ≤ xs.length + tail.length then Vector.ofParts xs tail
          else Vector.ofParts xs (List.replicate (n - xs.length) Slot.raw)) := by
  by_cases hn : n ≤ xs.length + tail.length
  · unfold Vector.Reserve
    simp only [Vector.ofParts, RawMemory.Capacity, hn, if_true]
  · have hfit2 : n * size_of < SIZE_RANGE := hfit.resolve_left hn
    have hsplit : (List.replicate n Slot.raw : List (Slot T))
        = List.replicate xs.length Slot.raw ++ List.replicate (n - xs.length) Slot.raw := by
      rw [← List.replicate_add]; congr 1; omega
    have hmv := uninitialized_move_n_spec xs [] tail [] (List.replicate xs.length Slot.raw)
      (List.replicate (n - xs.length) Slot.raw) 0 0 rfl rfl (by simp)
    have hcp := uninitialized_copy_n_spec xs [] tail [] (List.replicate xs.length Slot.raw)
      (List.replicate (n - xs.length) Slot.raw) 0 0 rfl rfl (by simp)
    have hd1 := destroy_n_spec (List.replicate xs.length (Slot.moved : Slot T)) [] tail 0 rfl
      (by intro s hs; rw [List.eq_of_mem_replicate hs]; simp)
    have hd2 := destroy_n_spec (xs.map Slot.live) [] tail 0 rfl
      (by intro s hs; simp at hs; obtain ⟨a, _, rfl⟩ := hs; simp)
    simp only [List.nil_append, List.length_replicate, List.length_map] at hmv hcp hd1 hd2
    unfold Vector.Reserve
    simp only [Vector.ofParts, RawMemory.Capacity, hn, if_false, RawMemory.ctor_capacity,
      Allocate_fits size_of n hsz hfit2, RawMemory.GetAddress, RawMemory.Swap, hsplit]
    cases hm : tr.moves with
    | true =>
      simp only [if_true, hmv, hd1]
      simp
      omega
    | false =>
      simp only [Bool.false_eq_true, if_false, hcp, Option.map_some', hd2]
      simp
      omega

/-- The member `Reserve` on any vector. -/
theorem Vector.Reserve_holds (tr : TypeTraits) (size_of : Nat) (S : Vector T) (xs : List T)
    (n : Nat) (h : S.Holds xs) (hsz : 0 < size_of)
    (hfit : n ≤ S.Capacity ∨ n * size_of < SIZE_RANGE) :
    ∃ R, Vector.Reserve tr size_of S n = some R ∧ R.Holds xs ∧
      R.Capacity = max S.Capacity n ∧ (n ≤ S.Capacity → R = S) := by
  obtain ⟨tail, rfl⟩ := h.canonical
  rw [Vector.ofParts_Capacity] at hfit
  refine ⟨_, Vector.Reserve_ofParts tr size_of xs tail n hsz hfit, ?_, ?_, ?_⟩
  · split <;> exact Vector.holds_ofParts _ _
  · split
    · simp; omega
    · simp; omega
  · intro hle
    simp only [Vector.ofParts_Capacity] at hle
    rw [if_pos hle]

/-- The member `Resize` to a size that is not larger. -/
theorem Vector.Resize_shrink [Inhabited T] (tr : TypeTraits) (size_of : Nat) (xs ys : List T)
    (tail : List (Slot T)) :
    Vector.Resize tr size_of (Vector.ofParts (xs ++ ys) tail) xs.length
      = some (Vector.ofParts xs (List.replicate ys.length Slot.raw ++ tail)) := by
  have hd := destroy_n_spec (ys.map Slot.live) (xs.map Slot.live) tail (0 + xs.length)
    (by simp) (by intro s hs; simp at hs; obtain ⟨a, _, rfl⟩ := hs; simp)
  have hsub : size_t_sub (xs ++ ys).length xs.length = ys.length := by
    rw [size_t_sub_le _ _ (by simp)]; simp
  simp only [List.length_map] at hd
  unfold Vector.Resize
  simp only [Vector.ofParts, RawMemory.GetAddress, hsub, List.map_append]
  rw [if_neg (by simp)]
  simp only [hd]
  simp
  omega

/-- The member `Resize` to a larger size on a vector whose block has room for
it: `mid` are the slots that get value-constructed objects. -/
theorem Vector.Resize_room [Inhabited T] (tr : TypeTraits) (size_of : Nat) (xs : List T)
    (mid tail : List (Slot T)) (hmid : mid ≠ []) (hsz : 0 < size_of) :
    Vector.Resize tr size_of (Vector.ofParts xs (mid ++ tail)) (xs.length + mid.length)
      = some (Vector.ofParts (xs ++ List.replicate mid.length default) tail) := by
  have hpos : 0 < mid.length := List.length_pos.mpr hmid
  have hres := Vector.Reserve_ofParts tr size_of xs (mid ++ tail) (xs.length + mid.length) hsz
    (Or.inl (by simp))
  rw [if_pos (by simp)] at hres
  have hv := uninitialized_value_construct_n_spec mid (xs.map Slot.live) tail (0 + xs.length)
    (by simp)
  have hsub : size_t_sub (xs.length + mid.length) xs.length = mid.length := by
    rw [size_t_sub_le _ _ (by omega)]; simp
  unfold Vector.Resize
  rw [if_pos (by simp [Vector.ofParts]; omega), hres]
  simp only [Vector.ofParts, RawMemory.GetAddress, hsub]
  simp only [List.append_assoc] at hv ⊢
  simp only [hv]
  simp
  omega

/-- The member `Resize` on any vector. -/
theorem Vector.Resize_holds [Inhabited T] (tr : TypeTraits) (size_of : Nat) (S : Vector T)
    (xs : List T) (n : Nat) (h : S.Holds xs) (hsz : 0 < size_of)
    (hfit : n ≤ S.Capacity ∨ n * size_of < SIZE_RANGE) :
    ∃ R, Vector.Resize tr size_of S n = some R ∧
      R.Holds (xs.take n ++ List.replicate (n - xs.length) default) ∧
      R.Capacity = max S.Capacity n := by
  obtain ⟨tail, rfl⟩ := h.canonical
  rw [Vector.ofParts_Capacity] at hfit
  by_cases hn : n ≤ xs.length
  · have hplen : (xs.take n).length = n := by simp [List.length_take]; omega
    have := Vector.Resize_shrink tr size_of (xs.take n) (xs.drop n) tail
    rw [List.take_append_drop, hplen] at this
    refine ⟨_, this, ?_, ?_⟩
    · have h0 : n - xs.length = 0 := by omega
      simpa [h0] using Vector.holds_ofParts (xs.take n) _
    · simp
      omega
  · have hgt : xs.length < n := by omega
    have htake : xs.take n = xs := List.take_of_length_le (by omega)
    obtain ⟨R1, hR1, hholds1, hcap1, _⟩ :=
      Vector.Reserve_holds tr size_of (Vector.ofParts xs tail) xs n (Vector.holds_ofParts _ _)
        hsz (by rw [Vector.ofParts_Capacity]; exact hfit)
    obtain ⟨tail1, rfl⟩ := hholds1.canonical
    simp only [Vector.ofParts_Capacity] at hcap1
    have hlen1 : n - xs.length ≤ tail1.length := by omega
    have hsplit1 : tail1 = tail1.take (n - xs.length) ++ tail1.drop (n - xs.length) :=
      (List.take_append_drop _ _).symm
    have hmlen : (tail1.take (n - xs.length)).length = n - xs.length := by
      simp [List.length_take]; omega
    have hmid : tail1.take (n - xs.length) ≠ [] := by
      intro hnil
      rw [hnil] at hmlen
      simp at hmlen
      omega
    have hroom := Vector.Resize_room tr size_of xs (tail1.take (n - xs.length))
      (tail1.drop (n - xs.length)) hmid hsz
    rw [← hsplit1, hmlen, show xs.length + (n - xs.length) = n by omega] at hroom
    have hres : Vector.Resize tr size_of (Vector.ofParts xs tail) n
        = Vector.Resize tr size_of (Vector.ofParts xs tail1) n := by
      unfold Vector.Resize
      have hc : n > (Vector.ofParts xs tail).size_ := hgt
      have hc1 : n > (Vector.ofParts xs tail1).size_ := hgt
      have hres1 := Vector.Reserve_ofParts tr size_of xs tail1 n hsz (Or.inl (by omega))
      rw [if_pos (by omega)] at hres1
      rw [if_pos hc, if_pos hc1, hR1, hres1]
    rw [hres, htake]
    refine ⟨_, hroom, Vector.holds_ofParts _ _, ?_⟩
    simp
    omega

/-- The member `Erase` on an empty vector: `size_ - 1` wraps around, the loop
runs and its first step moves from a slot that holds no object. -/
theorem Vector.Erase_empty (tail : List (Slot T)) (hraw : ∀ s ∈ tail, s = Slot.raw) :
    Vector.Erase (Vector.ofParts ([] : List T) tail) 0 = none := by
  have hcount : size_t_sub 0 1 - 0 = (2 ^ 64 - 2) + 1 := by
    norm_num [size_t_sub, SIZE_RANGE]
  have hmv : moveFrom tail 1 = none := by
    unfold moveFrom
    cases hget : tail[1]? with
    | none => rfl
    | some s =>
      have hs := hraw s (List.getElem?_mem hget)
      subst hs; rfl
  unfold Vector.Erase
  simp only [Vector.ofParts, List.map_nil, List.nil_append, List.length_nil]
  rw [hcount]
  simp only [Vector.Erase_loop, hmv]

/-- The move assignment between two different vectors: the target takes the
block and the size of the source, the source takes the old block of the target
and the size `0`. -/
theorem Vector.assign_move_eq (a b : Vector T) :
    Vector.assign_move a b = (b, { data_ := a.data_, size_ := 0 }) := rfl

/-- The member `PopBack` on any vector. -/
theorem Vector.PopBack_holds (S : Vector T) (xs : List T) (h : S.Holds xs) :
    ∃ R, Vector.PopBack S = some R ∧ R.Holds xs.dropLast ∧ R.Capacity = S.Capacity ∧
      (xs = [] → R = S) := by
  obtain ⟨tail, rfl⟩ := h.canonical
  by_cases hne : xs = []
  · subst hne
    refine ⟨Vector.ofParts [] tail, ?_, by simpa using Vector.holds_ofParts [] tail, rfl,
      fun _ => rfl⟩
    simp [Vector.PopBack, Vector.ofParts]
  · have hsplit : xs = xs.dropLast ++ [xs.getLast hne] :=
      (List.dropLast_append_getLast hne).symm
    have hpop := Vector.PopBack_slot (xs.dropLast.map Slot.live) (Slot.live (xs.getLast hne))
      (by simp) tail (xs.length + tail.length) xs.length
      (by conv_lhs => rw [hsplit]
          simp)
    have hbuf : xs.map Slot.live ++ tail
        = xs.dropLast.map Slot.live ++ Slot.live (xs.getLast hne) :: tail := by
      conv_lhs => rw [hsplit]
      simp
    have hlen : xs.length = xs.dropLast.length + 1 := by
      conv_lhs => rw [hsplit]
      simp
    refine ⟨Vector.ofParts xs.dropLast (Slot.raw :: tail), ?_, Vector.holds_ofParts _ _, ?_,
      fun hnil => absurd hnil hne⟩
    · simp only [Vector.ofParts, hbuf, hpop]
      simp
      omega
    · simp only [Vector.ofParts_Capacity, List.length_cons]
      omega

/-- The member `EmplaceBack` on the growth path. -/
theorem Vector.EmplaceBack_grow (tr : TypeTraits) (xs : List T) (v : T) :
    Vector.EmplaceBack tr (Vector.ofParts xs []) v
      = some (Vector.ofParts (xs ++ [v]) (List.replicate (xs.length - 1) Slot.raw), v) := by
  obtain ⟨ob, htr, hdes⟩ := transfer_all tr xs (List.replicate xs.length Slot.raw)
    (Slot.live v :: List.replicate (xs.length - 1) Slot.raw) (by simp)
  have hc : constructAt (List.replicate xs.length Slot.raw ++ Slot.raw ::
      List.replicate (xs.length - 1) Slot.raw) (0 + xs.length) v
      = some (List.replicate xs.length Slot.raw ++ Slot.live v ::
          List.replicate (xs.length - 1) Slot.raw) :=
    constructAt_mid _ _ _ _ _ (by simp)
  have hrd : readAt (xs.map Slot.live ++ Slot.live v ::
      List.replicate (xs.length - 1) Slot.raw) xs.length = some v :=
    readAt_mid _ _ _ _ (by simp)
  have hsub : size_t_sub (xs.length + 1) 1 = xs.length := by
    rw [size_t_sub_le _ _ (by omega)]; simp
  unfold Vector.EmplaceBack
  simp only [Vector.ofParts, Vector.Capacity, RawMemory.Capacity, List.append_nil,
    List.length_nil, Nat.add_zero, if_true, RawMemory.ctor_fitting, grow_capacity,
    Allocate_fitting_split, RawMemory.GetAddress, RawMemory.Swap]
  simp only [hc, htr, hdes, RawMemory.index, hsub]
  rw [if_pos (by omega)]
  simp only [hrd]
  simp

/-- The member `EmplaceBack` when a free slot is left. -/
theorem Vector.EmplaceBack_room (tr : TypeTraits) (xs : List T) (t : Slot T)
    (tail : List (Slot T)) (v : T) :
    Vector.EmplaceBack tr (Vector.ofParts xs (t :: tail)) v
      = some (Vector.ofParts (xs ++ [v]) tail, v) := by
  have hc : constructAt (xs.map Slot.live ++ t :: tail) (0 + xs.length) v
      = some (xs.map Slot.live ++ Slot.live v :: tail) :=
    constructAt_mid _ _ _ _ _ (by simp)
  have hrd : readAt (xs.map Slot.live ++ Slot.live v :: tail) xs.length = some v :=
    readAt_mid _ _ _ _ (by simp)
  have hsub : size_t_sub (xs.length + 1) 1 = xs.length := by
    rw [size_t_sub_le _ _ (by omega)]; simp
  unfold Vector.EmplaceBack
  simp only [Vector.ofParts, Vector.Capacity, RawMemory.Capacity, List.length_cons,
    RawMemory.GetAddress]
  rw [if_neg (by omega)]
  simp only [hc, RawMemory.index, hsub]
  rw [if_pos (by omega)]
  simp only [hrd]
  simp
  omega

/-- The member `EmplaceBack` on any vector gives the vector `PushBack` gives and
a reference to the new value. -/
theorem Vector.EmplaceBack_eq_PushBack (tr : TypeTraits) (S : Vector T) (xs : List T) (v : T)
    (h : S.Holds xs) :
    Vector.EmplaceBack tr S v = (Vector.PushBack tr S v).map (fun R => (R, v)) := by
  obtain ⟨tail, rfl⟩ := h.canonical
  cases tail with
  | nil => rw [Vector.EmplaceBack_grow, Vector.PushBack_grow]; rfl
  | cons t tail => rw [Vector.EmplaceBack_room, Vector.PushBack_room]; rfl

/-- The member `Emplace` at `end()` on any vector gives the vector `PushBack`
gives and the old size as position. -/
theorem Vector.Emplace_end_eq_PushBack (tr : TypeTraits) (S : Vector T) (xs : List T) (v : T)
    (h : S.Holds xs) :
    Vector.Emplace tr S S.Size v = (Vector.PushBack tr S v).map (fun R => (R, S.Size)) := by
  obtain ⟨tail, rfl⟩ := h.canonical
  cases tail with
  | nil =>
    have := Vector.Emplace_grow tr xs [] v
    simp only [List.append_nil] at this
    rw [Vector.ofParts_Size, this, Vector.PushBack_grow]; rfl
  | cons t tail =>
    rw [Vector.ofParts_Size, Vector.Emplace_end_room, Vector.PushBack_room]; rfl

/-- The destructor on a canonical vector destroys the live elements. -/
theorem Vector.dtor_ofParts (xs : List T) (tail : List (Slot T)) :
    Vector.dtor (Vector.ofParts xs tail) = some () := by
  have hd := destroy_n_spec (xs.map Slot.live) [] tail 0 rfl
    (by intro s hs; simp at hs; obtain ⟨a, _, rfl⟩ := hs; simp)
  simp only [List.nil_append, List.length_map] at hd
  simp only [Vector.dtor, Vector.ofParts, RawMemory.GetAddress, hd]

/-- Copy assignment when the source is longer than the capacity of the
target: the target becomes a fresh copy of the source. -/
theorem Vector.assign_copy_realloc (xs ys : List T) (tail tail2 : List (Slot T))
    (hgt : xs.length + tail.length < ys.length) :
    Vector.assign_copy (Vector.ofParts xs tail) (Vector.ofParts ys tail2)
      = some (Vector.ofParts ys [], Vector.ofParts ys tail2) := by
  have hdt := Vector.dtor_ofParts xs tail
  have hsw : (Vector.Swap (Vector.ofParts xs tail) (Vector.ofParts ys [])).2
      = Vector.ofParts xs tail := rfl
  have hsw1 : (Vector.Swap (Vector.ofParts xs tail) (Vector.ofParts ys [])).1
      = Vector.ofParts ys [] := rfl
  unfold Vector.assign_copy
  have hc : (Vector.ofParts ys tail2).size_ > (Vector.ofParts xs tail).data_.Capacity := hgt
  rw [if_pos hc, Vector.ctor_copy_ofParts]
  simp only [hsw, hsw1, hdt]
  rfl

/-- Copy assignment from a shorter source: the first elements are assigned
and the excess is destroyed, in place. -/
theorem Vector.assign_copy_shrink (ys xs1 xs2 : List T) (tail tail2 : List (Slot T))
    (hlen : xs1.length = ys.length) (hne : xs2 ≠ []) :
    Vector.assign_copy (Vector.ofParts (xs1 ++ xs2) tail) (Vector.ofParts ys tail2)
      = some (Vector.ofParts ys (List.replicate xs2.length Slot.raw ++ tail),
          Vector.ofParts ys tail2) := by
  have hpos : 0 < xs2.length := List.length_pos.mpr hne
  have hcp := copy_loop_spec (ys.map Slot.live ++ tail2) [] tail2 ys (by simp) 0 ys []
    (xs1.map Slot.live) (xs2.map Slot.live ++ tail) 0 0 (by simp) (by simp) (by simp) rfl
    (by simp [hlen]) (by intro s hs; simp at hs; obtain ⟨a, _, rfl⟩ := hs; simp)
  have hd := destroy_n_spec (xs2.map Slot.live) (ys.map Slot.live) tail (0 + ys.length)
    (by simp) (by intro s hs; simp at hs; obtain ⟨a, _, rfl⟩ := hs; simp)
  have hsub : size_t_sub (xs1 ++ xs2).length ys.length = xs2.length := by
    rw [size_t_sub_le _ _ (by simp [hlen])]; simp [hlen]
  simp only [List.nil_append, List.length_map, List.append_assoc, Nat.zero_add] at hcp hd
  unfold Vector.assign_copy
  simp only [Vector.ofParts, RawMemory.Capacity, RawMemory.GetAddress, Vector.Size, hsub,
    List.map_append, List.append_assoc]
  rw [if_neg (by simp [hlen]; omega), if_pos (by simp [hlen]; omega)]
  unfold copy
  rw [if_pos (by omega)]
  simp only [Nat.add_sub_cancel_left, Nat.zero_add, Nat.sub_zero, hcp, hd]
  simp [hlen]
  omega

/-! ### Size and capacity of the result of each operation, for any state -/

theorem Vector.PushBack_size_cap (tr : TypeTraits) (S R : Vector T) (v : T)
    (h : S.Size ≤ S.Capacity) (hR : Vector.PushBack tr S v = some R) :
    R.Size ≤ R.Capacity := by
  unfold Vector.PushBack at hR
  simp only [Vector.Size, Vector.Capacity, RawMemory.Capacity, RawMemory.Swap,
    RawMemory.ctor_fitting] at hR h ⊢
  repeat' split at hR
  all_goals first
    | contradiction
    | (injection hR with hR; subst hR; simp only []; omega)

theorem Vector.EmplaceBack_size_cap (tr : TypeTraits) (S R : Vector T) (v x : T)
    (h : S.Size ≤ S.Capacity) (hR : Vector.EmplaceBack tr S v = some (R, x)) :
    R.Size ≤ R.Capacity := by
  unfold Vector.EmplaceBack at hR
  split at hR
  · contradiction
  · rename_i r hin
    split at hR
    · contradiction
    · injection hR with hR
      injection hR with hR hx
      subst hR
      simp only [Vector.Size, Vector.Capacity, RawMemory.Capacity, RawMemory.Swap,
        RawMemory.ctor_fitting] at hin h ⊢
      repeat' split at hin
      all_goals first
        | contradiction
        | (injection hin with hin; subst hin; simp only []; omega)

theorem Vector.Emplace_size_cap (tr : TypeTraits) (S R : Vector T) (p pos : Nat) (v : T)
    (h : S.Size ≤ S.Capacity) (hR : Vector.Emplace tr S p v = some (R, pos)) :
    R.Size ≤ R.Capacity := by
  unfold Vector.Emplace at hR
  simp only [Vector.Size, Vector.Capacity, RawMemory.Capacity, RawMemory.Swap,
    RawMemory.ctor_fitting] at hR h ⊢
  repeat' split at hR
  all_goals first
    | contradiction
    | (injection hR with hR; injection hR with hR hx; subst hR; simp only []; omega)

theorem Vector.PopBack_size_cap (S R : Vector T)
    (h : S.Size ≤ S.Capacity) (hR : Vector.PopBack S = some R) :
    R.Size ≤ R.Capacity := by
  unfold Vector.PopBack at hR
  simp only [Vector.Size, Vector.Capacity, RawMemory.Capacity] at hR h ⊢
  repeat' split at hR
  all_goals first
    | contradiction
    | (injection hR with hR; subst hR; simp only []; omega)
    | (injection hR with hR; subst hR; exact h)

theorem Vector.Erase_size_cap (S R : Vector T) (p pos : Nat)
    (h : S.Size ≤ S.Capacity) (hR : Vector.Erase S p = some (R, pos)) :
    R.Size ≤ R.Capacity := by
  unfold Vector.Erase at hR
  repeat' split at hR
  all_goals first
    | contradiction
    | (injection hR with hR; injection hR with hR hx; subst hR
       rename_i heq
       refine Vector.PopBack_size_cap _ _ ?_ heq
       exact h)

/-- The size and the capacity after `Reserve`. -/
theorem Vector.Reserve_size_cap_eq (tr : TypeTraits) (size_of : Nat) (S R : Vector T) (n : Nat)
    (hR : Vector.Reserve tr size_of S n = some R) :
    R.Size = S.Size ∧ R.Capacity = (if n ≤ S.Capacity then S.Capacity else n) := by
  unfold Vector.Reserve at hR
  simp only [Vector.Size, Vector.Capacity, RawMemory.Capacity, RawMemory.Swap,
    RawMemory.ctor_capacity] at hR ⊢
  split at hR
  · rename_i hle
    injection hR with hR
    subst hR
    exact ⟨rfl, by rw [if_pos hle]⟩
  · rename_i hgt
    repeat' split at hR
    all_goals first
      | contradiction
      | (injection hR with hR; subst hR; exact ⟨rfl, by rw [if_neg hgt]⟩)

theorem Vector.Reserve_size_cap (tr : TypeTraits) (size_of : Nat) (S R : Vector T) (n : Nat)
    (h : S.Size ≤ S.Capacity) (hR : Vector.Reserve tr size_of S n = some R) :
    R.Size ≤ R.Capacity := by
  obtain ⟨h1, h2⟩ := Vector.Reserve_size_cap_eq tr size_of S R n hR
  rw [h1, h2]
  split <;> omega

theorem Vector.Resize_size_cap [Inhabited T] (tr : TypeTraits) (size_of : Nat) (S R : Vector T)
    (n : Nat) (h : S.Size ≤ S.Capacity) (hR : Vector.Resize tr size_of S n = some R) :
    R.Size ≤ R.Capacity := by
  unfold Vector.Resize at hR
  split at hR
  · rename_i hgt
    split at hR
    · contradiction
    · rename_i r hres
      obtain ⟨h1, h2⟩ := Vector.Reserve_size_cap_eq tr size_of S r n hres
      split at hR
      · contradiction
      · injection hR with hR
        subst hR
        simp only [Vector.Size, Vector.Capacity, RawMemory.Capacity] at h1 h2 h hgt ⊢
        rw [h2]
        split <;> omega
  · rename_i hle
    split at hR
    · contradiction
    · injection hR with hR
      subst hR
      simp only [Vector.Size, Vector.Capacity, RawMemory.Capacity] at h hle ⊢
      omega

theorem Vector.ctor_size_size_cap [Inhabited T] (size_of n : Nat) (R : Vector T)
    (hR : Vector.ctor_size size_of n = some R) : R.Size ≤ R.Capacity := by
  unfold Vector.ctor_size at hR
  simp only [RawMemory.ctor_capacity] at hR
  split at hR
  · contradiction
  · injection hR with hR
    subst hR
    exact Nat.le_refl _

/-- The size and the capacity of a copy-constructed vector. -/
theorem Vector.ctor_copy_size_cap_eq (S C S1 : Vector T)
    (hR : Vector.ctor_copy S = some (C, S1)) :
    C.Size = S.Size ∧ C.Capacity = S.Size ∧ S1 = S := by
  unfold Vector.ctor_copy at hR
  simp only [RawMemory.ctor_fitting] at hR
  split at hR
  · contradiction
  · injection hR with hR
    injection hR with hC hS
    subst hC hS
    exact ⟨rfl, rfl, rfl⟩

theorem Vector.assign_copy_size_cap (S B R B1 : Vector T)
    (hR : Vector.assign_copy S B = some (R, B1)) :
    R.Size ≤ R.Capacity ∧ B1 = B := by
  unfold Vector.assign_copy at hR
  split at hR
  · contradiction
  · rename_i r hr
    injection hR with hR
    injection hR with hR hB
    subst hR hB
    refine ⟨?_, rfl⟩
    split at hr
    · rename_i hgt
      split at hr
      · contradiction
      · rename_i rhs_copy x hcopy
        obtain ⟨h1, h2, _⟩ := Vector.ctor_copy_size_cap_eq B rhs_copy x hcopy
        dsimp only at hr
        split at hr
        · contradiction
        · injection hr with hr
          subst hr
          simp only [Vector.Size, Vector.Capacity, RawMemory.Capacity, Vector.Swap,
            RawMemory.Swap] at h1 h2 ⊢
          omega
    · rename_i hle
      simp only [Vector.Size, Vector.Capacity, RawMemory.Capacity] at hle ⊢
      repeat' split at hr
      all_goals first
        | contradiction
        | (injection hr with hr; subst hr; simp only []; omega)

/-- In every reachable state `Size() <= Capacity()`. -/
theorem Reachable.size_le_capacity [Inhabited T] {tr : TypeTraits} {size_of : Nat}
    {S : Vector T} (h : Reachable tr size_of S) : S.Size ≤ S.Capacity := by
  induction h with
  | ctor_default => exact Nat.le_refl _
  | ctor_size n R hR => exact Vector.ctor_size_size_cap size_of n R hR
  | ctor_copy S C S1 _ hR _ =>
    obtain ⟨h1, h2, _⟩ := Vector.ctor_copy_size_cap_eq S C S1 hR
    rw [h1, h2]
  | ctor_move_target S _ ih => exact ih
  | ctor_move_source S _ _ => exact Nat.le_refl _
  | assign_copy a b R B _ _ hR _ _ => exact (Vector.assign_copy_size_cap a b R B hR).1
  | assign_copy_self a R _ hR ih =>
    injection hR with hR
    subst hR
    exact ih
  | assign_move_target a b _ _ _ ihb => exact ihb
  | assign_move_source a b _ _ _ _ => exact Nat.zero_le _
  | PushBack S R v _ hR ih => exact Vector.PushBack_size_cap tr S R v ih hR
  | PushBack_rvalue S R v _ hR ih => exact Vector.PushBack_size_cap tr S R v ih hR
  | EmplaceBack S R v x _ hR ih => exact Vector.EmplaceBack_size_cap tr S R v x ih hR
  | PopBack S R _ hR ih => exact Vector.PopBack_size_cap S R ih hR
  | Insert S R p pos v _ hR ih => exact Vector.Emplace_size_cap tr S R p pos v ih hR
  | Insert_rvalue S R p pos v _ hR ih => exact Vector.Emplace_size_cap tr S R p pos v ih hR
  | Emplace S R p pos v _ hR ih => exact Vector.Emplace_size_cap tr S R p pos v ih hR
  | Erase S R p pos _ hR ih => exact Vector.Erase_size_cap S R p pos ih hR
  | Resize S R n _ hR ih => exact Vector.Resize_size_cap tr size_of S R n ih hR
  | Reserve S R n _ hR ih => exact Vector.Reserve_size_cap tr size_of S R n ih hR
  | Swap_this a b _ _ _ ihb => exact ihb
  | Swap_other a b _ _ iha _ => exact iha

/-- The constructor `Vector(size_t size)`: `size` value-initialised elements in
a block of exactly `size` slots. -/
theorem Vector.ctor_size_eq [Inhabited T] (size_of n : Nat) (hsz : 0 < size_of)
    (hfit : n * size_of < SIZE_RANGE) :
    (Vector.ctor_size size_of n : Option (Vector T))
      = some (Vector.ofParts (List.replicate n default) []) := by
  have hv := uninitialized_value_construct_n_spec (List.replicate n (Slot.raw : Slot T)) [] []
    0 rfl
  simp only [List.nil_append, List.append_nil, List.length_replicate] at hv
  unfold Vector.ctor_size
  simp only [RawMemory.ctor_capacity, Allocate_fits size_of n hsz hfit, RawMemory.GetAddress, hv,
    Vector.ofParts]
  simp

/-- Copy assignment on the in-place growing path, from a source `ys1 ++ ys2`
with `|ys1|` the size of the target: the first `|ys1|` elements are assigned,
and the elements `ys2` are constructed from slot `0` of the target on. -/
theorem Vector.assign_copy_grow (xs ys1 ys2 : List T) (tail tail2 : List (Slot T))
    (hlen : ys1.length = xs.length) (hfit : ys2.length ≤ tail.length) :
    Vector.assign_copy (Vector.ofParts xs tail) (Vector.ofParts (ys1 ++ ys2) tail2)
      = some (Vector.mk
            (RawMemory.mk (ys2.map Slot.live ++ (ys1.map Slot.live ++ tail).drop ys2.length)
              (xs.length + tail.length))
            (ys1 ++ ys2).length,
          Vector.ofParts (ys1 ++ ys2) tail2) := by
  have hcp := copy_loop_spec ((ys1 ++ ys2).map Slot.live ++ tail2) []
    (ys2.map Slot.live ++ tail2) ys1 (by simp) 0 ys1 [] (xs.map Slot.live) tail 0 0
    (by simp) (by simp) (by simp) rfl (by simp [hlen])
    (by intro s hs; simp at hs; obtain ⟨a, _, rfl⟩ := hs; simp)
  have hfit2 : ys2.length ≤ (ys1.map Slot.live ++ tail).length := by simp; omega
  have hdst : ys1.map Slot.live ++ tail
      = [] ++ (ys1.map Slot.live ++ tail).take ys2.length
          ++ (ys1.map Slot.live ++ tail).drop ys2.length := by
    simp [List.take_append_drop]
  have hun := uninitialized_copy_n_spec ys2 (ys1.map Slot.live) tail2 []
    ((ys1.map Slot.live ++ tail).take ys2.length) ((ys1.map Slot.live ++ tail).drop ys2.length)
    (0 + xs.length) 0 (by simp [hlen]) rfl
    (by rw [List.length_take]; exact Nat.min_eq_left hfit2)
  rw [← hdst] at hun
  have hsub : size_t_sub (ys1 ++ ys2).length xs.length = ys2.length := by
    rw [size_t_sub_le _ _ (by simp [hlen])]; simp [hlen]
  simp only [List.nil_append, List.length_map, List.append_assoc, Nat.zero_add,
    List.map_append, hlen] at hcp hun
  unfold Vector.assign_copy
  simp only [Vector.ofParts, RawMemory.Capacity, RawMemory.GetAddress, Vector.Size, hsub,
    List.map_append, List.append_assoc]
  rw [if_neg (by simp [hlen]; omega), if_neg (by simp [hlen])]
  unfold copy
  rw [if_pos (by omega)]
  simp only [Nat.add_sub_cancel_left, Nat.zero_add, Nat.sub_zero, hcp, hun]

/-- Copy assignment between two vectors that hold contents returns. -/
theorem Vector.assign_copy_returns (a b : Vector T) (xs ys : List T) (ha : a.Holds xs)
    (hb : b.Holds ys) : ∃ R, Vector.assign_copy a b = some (R, b) := by
  obtain ⟨tail, rfl⟩ := ha.canonical
  obtain ⟨tail2, rfl⟩ := hb.canonical
  by_cases hgt : xs.length + tail.length < ys.length
  · exact ⟨_, Vector.assign_copy_realloc xs ys tail tail2 hgt⟩
  · by_cases hlt : ys.length < xs.length
    · have hplen : (xs.take ys.length).length = ys.length := by
        simp [List.length_take]; omega
      have hne : xs.drop ys.length ≠ [] := by
        intro hnil
        have := congrArg List.length hnil
        simp at this
        omega
      have := Vector.assign_copy_shrink ys (xs.take ys.length) (xs.drop ys.length) tail tail2
        hplen hne
      rw [List.take_append_drop] at this
      exact ⟨_, this⟩
    · have hplen : (ys.take xs.length).length = xs.length := by
        simp [List.length_take]; omega
      have := Vector.assign_copy_grow xs (ys.take xs.length) (ys.drop xs.length) tail tail2
        hplen (by simp; omega)
      rw [List.take_append_drop] at this
      exact ⟨_, this⟩

/-! ### Copy constructors that throw -/

/-- With a copy constructor that never throws, the throwing algorithm is
`uninitialized_copy_n`. -/
theorem uninitialized_copy_n_throwing_loop_never (src : List (Slot T)) :
    ∀ (n first : Nat) (dst : List (Slot T)) (d_begin d_cur : Nat),
      uninitialized_copy_n_throwing_loop (fun _ => false) src first n dst d_begin d_cur
        = match uninitialized_copy_n src first n dst d_cur with
          | some d => CopyOutcome.done d
          | none => CopyOutcome.undefined := by
  intro n
  induction n with
  | zero => intro first dst d_begin d_cur; rfl
  | succ n ih =>
    intro first dst d_begin d_cur
    simp only [uninitialized_copy_n_throwing_loop, uninitialized_copy_n]
    cases readAt src first with
    | none => rfl
    | some v =>
      simp only [Bool.false_eq_true, if_false]
      cases constructAt dst d_cur v with
      | none => rfl
      | some dst1 => exact ih (first + 1) dst1 d_begin (d_cur + 1)

/-- With a copy constructor that never throws, `Reserve_throwing` is `Reserve`
on every request that `Reserve` answers with a block of `n` slots. -/
theorem Vector.Reserve_throwing_never (tr : TypeTraits) (size_of : Nat) (S : Vector T) (n : Nat)
    (hsz : 0 < size_of) (hfit : n ≤ S.data_.Capacity ∨ n * size_of < SIZE_RANGE) :
    Vector.Reserve_throwing tr (fun _ => false) S n
      = Outcome.ofOption (Vector.Reserve tr size_of S n) := by
  unfold Vector.Reserve_throwing Vector.Reserve uninitialized_copy_n_throwing
  simp only [uninitialized_copy_n_throwing_loop_never]
  by_cases hcap : n ≤ S.data_.Capacity
  · simp only [hcap, if_true, Outcome.ofOption]
  · simp only [hcap, if_false, ctor_capacity_fits size_of n hsz (hfit.resolve_left hcap)]
    cases hm : tr.moves
    · simp only [Bool.false_eq_true, if_false]
      cases uninitialized_copy_n S.data_.buffer_ S.data_.GetAddress S.size_
        (RawMemory.ctor_fitting n).buffer_ (RawMemory.ctor_fitting n : RawMemory T).GetAddress with
      | none => rfl
      | some nb =>
        simp only [Option.map_some']
        cases destroy_n S.data_.buffer_ S.data_.GetAddress S.size_ <;> rfl
    · simp only [if_true]
      cases uninitialized_move_n S.data_.buffer_ S.data_.GetAddress S.size_
        (RawMemory.ctor_fitting n).buffer_ (RawMemory.ctor_fitting n : RawMemory T).GetAddress with
      | none => rfl
      | some pr =>
        obtain ⟨ob, nb⟩ := pr
        simp only []
        cases destroy_n ob S.data_.GetAddress S.size_ <;> rfl

/-- With a copy constructor that never throws, `PushBack_throwing` is
`PushBack`. -/
theorem Vector.PushBack_throwing_never (tr : TypeTraits) (S : Vector T) (v : T) :
    Vector.PushBack_throwing tr (fun _ => false) S v
      = Outcome.ofOption (Vector.PushBack tr S v) := by
  unfold Vector.PushBack_throwing Vector.PushBack uninitialized_copy_n_throwing
  simp only [uninitialized_copy_n_throwing_loop_never]
  by_cases hfull : S.size_ = S.Capacity
  · simp only [hfull, if_true]
    cases (RawMemory.ctor_fitting (if S.Capacity = 0 then 1 else S.Capacity * 2) :
        RawMemory T).plus S.Capacity with
    | none => rfl
    | some at_ =>
      simp only []
      cases constructAt (RawMemory.ctor_fitting (if S.Capacity = 0 then 1
          else S.Capacity * 2) : RawMemory T).buffer_ at_ v with
      | none => rfl
      | some nb =>
        simp only []
        cases hm : tr.moves
        · simp only [Bool.false_eq_true, if_false]
          cases uninitialized_copy_n S.data_.buffer_ S.data_.GetAddress S.Capacity nb
            (RawMemory.ctor_fitting (if S.Capacity = 0 then 1 else S.Capacity * 2) :
              RawMemory T).GetAddress with
          | none => rfl
          | some nb1 =>
            simp only [Option.map_some', RawMemory.Swap]
            cases destroy_n S.data_.buffer_ (RawMemory.GetAddress
              ({ buffer_ := S.data_.buffer_, capacity_ := S.data_.capacity_ } : RawMemory T))
              S.Capacity <;> rfl
        · simp only [if_true]
          cases uninitialized_move_n S.data_.buffer_ S.data_.GetAddress S.Capacity nb
            (RawMemory.ctor_fitting (if S.Capacity = 0 then 1 else S.Capacity * 2) :
              RawMemory T).GetAddress with
          | none => rfl
          | some pr =>
            obtain ⟨ob, nb1⟩ := pr
            simp only [RawMemory.Swap]
            cases destroy_n ob (RawMemory.GetAddress
              ({ buffer_ := ob, capacity_ := S.data_.capacity_ } : RawMemory T))
              S.Capacity <;> rfl
  · simp only [hfull, if_false]
    cases S.data_.plus S.size_ with
    | none => rfl
    | some at_ =>
      simp only []
      cases constructAt S.data_.buffer_ at_ v <;> rfl

/-- In every reachable state both assertions of `operator[]` hold for every
index below `Size()`, so that `operator[]` reaches slot `i` of the block; on a
vector that holds `xs` it gives `xs[i]`; and the offsets that `PushBack` and
`Emplace` pass to `RawMemory::operator+` are at most the capacity of the block
they address: `size_` in the current block when `size_ != capacity_`, and
every `p <= size_` in the new block of the growth path. -/
theorem Reachable.assertions_hold [Inhabited T] {tr : TypeTraits} {size_of : Nat}
    {S : Vector T} (h : Reachable tr size_of S) :
    (∀ i, i < S.Size →
      i < S.size_ ∧ i < S.data_.capacity_ ∧ S.index i = readAt S.data_.buffer_ i) ∧
    (∀ xs, S.Holds xs → ∀ (i : Nat) (hi : i < xs.length), S.index i = some (xs.get ⟨i, hi⟩)) ∧
    (S.Size ≠ S.Capacity → S.data_.plus S.size_ = some S.size_) ∧
    (∀ p, p ≤ S.size_ →
      (RawMemory.ctor_fitting (if S.size_ = 0 then 1 else S.size_ * 2) : RawMemory T).plus p
        = some p) := by
  have hle : S.size_ ≤ S.data_.capacity_ := h.size_le_capacity
  refine ⟨?_, ?_, ?_, ?_⟩
  · intro i hi
    have hi1 : i < S.size_ := hi
    have hi2 : i < S.data_.capacity_ := by omega
    refine ⟨hi1, hi2, ?_⟩
    simp only [Vector.index, RawMemory.index, if_pos hi1, if_pos hi2]
  · intro xs hx i hi
    rw [hx.index_eq, List.getElem?_eq_getElem hi]
    rfl
  · intro _
    simp only [RawMemory.plus, if_pos hle]
  · intro p hp
    simp only [RawMemory.plus, RawMemory.ctor_fitting]
    rw [if_pos (by split <;> omega)]

/-- With a copy constructor that never throws, `Emplace_throwing` is
`Emplace`. -/
theorem Vector.Emplace_throwing_never (tr : TypeTraits) (S : Vector T) (p : Nat) (v : T) :
    Vector.Emplace_throwing tr (fun _ => false) S p v
      = Outcome.ofOption (Vector.Emplace tr S p v) := by
  unfold Vector.Emplace_throwing Vector.Emplace uninitialized_copy_n_throwing
  simp only [uninitialized_copy_n_throwing_loop_never]
  by_cases hfull : S.size_ = S.Capacity
  · simp only [hfull, if_true]
    cases (RawMemory.ctor_fitting (if S.Capacity = 0 then 1 else S.Capacity * 2) :
        RawMemory T).plus p with
    | none => rfl
    | some at_ =>
      simp only []
      cases constructAt (RawMemory.ctor_fitting (if S.Capacity = 0 then 1
          else S.Capacity * 2) : RawMemory T).buffer_ at_ v with
      | none => rfl
      | some nb =>
        simp only []
        cases hm : tr.moves
        · simp only [Bool.false_eq_true, if_false]
          cases uninitialized_copy_n S.data_.buffer_ S.data_.GetAddress p nb
            (RawMemory.ctor_fitting (if S.Capacity = 0 then 1 else S.Capacity * 2) :
              RawMemory T).GetAddress with
          | none => rfl
          | some nb1 =>
            simp only []
            cases uninitialized_copy_n S.data_.buffer_ (S.data_.GetAddress + p)
              (size_t_sub S.Capacity p) nb1
              ((RawMemory.ctor_fitting (if S.Capacity = 0 then 1 else S.Capacity * 2) :
                RawMemory T).GetAddress + p + 1) with
            | none => rfl
            | some nb2 =>
              simp only [Option.map_some', RawMemory.Swap]
              cases destroy_n S.data_.buffer_ (RawMemory.GetAddress
                ({ buffer_ := S.data_.buffer_, capacity_ := S.data_.capacity_ } : RawMemory T))
                S.Capacity <;> rfl
        · simp only [if_true]
          cases uninitialized_move_n S.data_.buffer_ S.data_.GetAddress p nb
            (RawMemory.ctor_fitting (if S.Capacity = 0 then 1 else S.Capacity * 2) :
              RawMemory T).GetAddress with
          | none => rfl
          | some pr =>
            obtain ⟨ob, nb1⟩ := pr
            simp only []
            cases uninitialized_move_n ob (S.data_.GetAddress + p) (size_t_sub S.Capacity p) nb1
              ((RawMemory.ctor_fitting (if S.Capacity = 0 then 1 else S.Capacity * 2) :
                RawMemory T).GetAddress + p + 1) with
            | none => rfl
            | some pr2 =>
              obtain ⟨ob2, nb2⟩ := pr2
              simp only [RawMemory.Swap]
              cases destroy_n ob2 (RawMemory.GetAddress
                ({ buffer_ := ob2, capacity_ := S.data_.capacity_ } : RawMemory T))
                S.Capacity <;> rfl
  · simp only [hfull, if_false]
    by_cases hend : p = S.size_
    · simp only [hend, if_true]
      cases constructAt S.data_.buffer_ S.size_ v <;> rfl
    · simp only [hend, if_false]
      by_cases hlast : size_t_sub S.size_ 1 < S.data_.capacity_
      · simp only [hlast, if_true]
        cases moveFrom S.data_.buffer_ (size_t_sub S.size_ 1) with
        | none => rfl
        | some pr =>
          obtain ⟨last, b0⟩ := pr
          simp only []
          cases constructAt b0 (S.data_.GetAddress + S.size_) last with
          | none => rfl
          | some b1 =>
            simp only []
            cases move_backward b1 p (size_t_sub S.size_ 1) S.size_ with
            | none => rfl
            | some b2 =>
              simp only []
              cases assignAt b2 p v <;> rfl
      · simp only [hlast, if_false]
        rfl

/-- With a copy constructor that never throws, `EmplaceBack_throwing` is
`EmplaceBack`. -/
theorem Vector.EmplaceBack_throwing_never (tr : TypeTraits) (S : Vector T) (v : T) :
    Vector.EmplaceBack_throwing tr (fun _ => false) S v
      = Outcome.ofOption (Vector.EmplaceBack tr S v) := by
  unfold Vector.EmplaceBack_throwing Vector.EmplaceBack uninitialized_copy_n_throwing
  simp only [uninitialized_copy_n_throwing_loop_never]
  by_cases hfull : S.size_ = S.Capacity
  · simp only [hfull, if_true]
    cases constructAt (RawMemory.ctor_fitting (if S.Capacity = 0 then 1
        else S.Capacity * 2) : RawMemory T).buffer_
        ((RawMemory.ctor_fitting (if S.Capacity = 0 then 1 else S.Capacity * 2) :
          RawMemory T).GetAddress + S.Capacity) v with
    | none => rfl
    | some nb =>
      simp only []
      cases hm : tr.moves
      · simp only [Bool.false_eq_true, if_false]
        cases uninitialized_copy_n S.data_.buffer_ S.data_.GetAddress S.Capacity nb
          (RawMemory.ctor_fitting (if S.Capacity = 0 then 1 else S.Capacity * 2) :
            RawMemory T).GetAddress with
        | none => rfl
        | some nb1 =>
          simp only [Option.map_some', RawMemory.Swap]
          cases destroy_n S.data_.buffer_ (RawMemory.GetAddress
            ({ buffer_ := S.data_.buffer_, capacity_ := S.data_.capacity_ } : RawMemory T))
            S.Capacity with
          | none => rfl
          | some d =>
            simp only []
            cases RawMemory.index ({ buffer_ := nb1, capacity_ :=
              (RawMemory.ctor_fitting (if S.Capacity = 0 then 1 else S.Capacity * 2) :
                RawMemory T).capacity_ } : RawMemory T)
              (size_t_sub (S.Capacity + 1) 1) <;> rfl
      · simp only [if_true]
        cases uninitialized_move_n S.data_.buffer_ S.data_.GetAddress S.Capacity nb
          (RawMemory.ctor_fitting (if S.Capacity = 0 then 1 else S.Capacity * 2) :
            RawMemory T).GetAddress with
        | none => rfl
        | some pr =>
          obtain ⟨ob, nb1⟩ := pr
          simp only [RawMemory.Swap]
          cases destroy_n ob (RawMemory.GetAddress
            ({ buffer_ := ob, capacity_ := S.data_.capacity_ } : RawMemory T))
            S.Capacity with
          | none => rfl
          | some d =>
            simp only []
            cases RawMemory.index ({ buffer_ := nb1, capacity_ :=
              (RawMemory.ctor_fitting (if S.Capacity = 0 then 1 else S.Capacity * 2) :
                RawMemory T).capacity_ } : RawMemory T)
              (size_t_sub (S.Capacity + 1) 1) <;> rfl
  · simp only [hfull, if_false]
    cases constructAt S.data_.buffer_ (S.data_.GetAddress + S.size_) v with
    | none => rfl
    | some b =>
      simp only []
      cases RawMemory.index ({ buffer_ := b, capacity_ := S.data_.capacity_ } : RawMemory T)
        (size_t_sub (S.size_ + 1) 1) <;> rfl

end Canonical

/-! ## The claims -/

section Claims
variable {T : Type}

/-- C1: for every vector `S` with contents `xs` and every value `v`, both
overloads of `PushBack` (copying and moving, on the growth path or not, for
either transfer rule) return a vector whose `Size()` is `|xs| + 1`, whose
element at index `|xs|` is `v` and whose element at every index `i < |xs|` is
`xs[i]`. -/
theorem PushBack_appends (tr : TypeTraits) (S : Vector T) (xs : List T) (v : T)
    (h : S.Holds xs) :
    (∃ R, S.PushBack tr v = some R ∧ R.Size = xs.length + 1 ∧
      R.index xs.length = some v ∧
      ∀ (i : Nat) (hi : i < xs.length), R.index i = some (xs.get ⟨i, hi⟩)) ∧
    (∃ R, S.PushBack_rvalue tr v = some R ∧ R.Size = xs.length + 1 ∧
      R.index xs.length = some v ∧
      ∀ (i : Nat) (hi : i < xs.length), R.index i = some (xs.get ⟨i, hi⟩)) := by
  have key : ∃ R, S.PushBack tr v = some R ∧ R.Size = xs.length + 1 ∧
      R.index xs.length = some v ∧
      ∀ (i : Nat) (hi : i < xs.length), R.index i = some (xs.get ⟨i, hi⟩) := by
    obtain ⟨R, hR, hholds, _⟩ := Vector.PushBack_holds tr S xs v h
    refine ⟨R, hR, ?_, ?_, ?_⟩
    · simpa using hholds.size_eq
    · rw [hholds.index_eq]; simp
    · intro i hi
      rw [hholds.index_eq, List.getElem?_append_left hi, List.getElem?_eq_getElem hi]
      rfl
  exact ⟨key, by rw [Vector.PushBack_rvalue_eq]; exact key⟩

/-- A run of C1 on the vector `[1, 2]` with capacity 2 (growth path) and the
value `5`. -/
theorem PushBack_appends_witness :
    (∃ R, (Vector.ofParts [1, 2] [] : Vector Nat).PushBack ⟨true, true⟩ 5 = some R ∧
      R.Size = 2 + 1 ∧ R.index 2 = some 5 ∧
      ∀ (i : Nat) (hi : i < 2), R.index i = some (([1, 2] : List Nat).get ⟨i, hi⟩)) ∧
    (∃ R, (Vector.ofParts [1, 2] [] : Vector Nat).PushBack_rvalue ⟨true, true⟩ 5 = some R ∧
      R.Size = 2 + 1 ∧ R.index 2 = some 5 ∧
      ∀ (i : Nat) (hi : i < 2), R.index i = some (([1, 2] : List Nat).get ⟨i, hi⟩)) :=
  PushBack_appends ⟨true, true⟩ (Vector.ofParts [1, 2] []) [1, 2] 5 (by decide)

/-- C2 (the code departs from it): on the in-place growing path of copy
assignment the trailing elements of `b` are copy-constructed from slot `0` of
`a` on, not from slot `Size()` on.  For `a = [1]` with capacity 2 and
`b = [7, 8]` the assignment leaves the block of `a` as `8` followed by a raw
slot with `Size() == 2`: `a[0]` is `8`, not `7`, slot `1` holds no object, and
`a` does not hold the contents of `b`. -/
theorem assign_copy_growing_misplaces :
    Vector.assign_copy (Vector.ofParts [1] [Slot.raw] : Vector Nat) (Vector.ofParts [7, 8] [])
        = some ({ data_ := { buffer_ := [Slot.live 8, Slot.raw], capacity_ := 2 }, size_ := 2 },
            Vector.ofParts [7, 8] []) ∧
      (Vector.ofParts [1] [Slot.raw] : Vector Nat).Holds [1] ∧
      (Vector.ofParts [7, 8] [] : Vector Nat).Holds [7, 8] ∧
      ([1] : List Nat).length ≤ ([7, 8] : List Nat).length ∧
      ([7, 8] : List Nat).length ≤ (Vector.ofParts [1] [Slot.raw] : Vector Nat).Capacity ∧
      (∀ R B, Vector.assign_copy (Vector.ofParts [1] [Slot.raw] : Vector Nat)
          (Vector.ofParts [7, 8] []) = some (R, B) →
        R.index 0 = some 8 ∧ R.index 1 = none ∧ ¬ R.Holds [7, 8]) := by
  refine ⟨by decide, by decide, by decide, by decide, by decide, ?_⟩
  intro R B hRB
  have hval : Vector.assign_copy (Vector.ofParts [1] [Slot.raw] : Vector Nat)
      (Vector.ofParts [7, 8] [])
      = some ({ data_ := { buffer_ := [Slot.live 8, Slot.raw], capacity_ := 2 }, size_ := 2 },
          Vector.ofParts [7, 8] []) := by decide
  rw [hval] at hRB
  injection hRB with hRB
  injection hRB with hR hB
  subst hR
  exact ⟨by decide, by decide, by decide⟩

/-- C3: the growth policy of appends.  A `PushBack` on a vector with
`Size() == Capacity() == c` leaves `Capacity() == max(1, 2 * c)`, a `PushBack`
with `Size() < Capacity()` leaves the capacity unchanged; after the `N` calls
`PushBack(v)` for a list `vs` of `N` values on a default-constructed vector the
contents are `vs`, `Size() == N` and `Capacity()` is `0` for `N == 0` and
otherwise the least power of two that is at least `N`; and `PushBack(1)`,
`PushBack(2)`, `PushBack(3)` from empty give contents `[1, 2, 3]`, size 3 and
capacity 4. -/
theorem PushBack_growth_policy (tr : TypeTraits) (S : Vector T) (xs : List T) (v : T)
    (vs : List T) (h : S.Holds xs) :
    (∃ R, S.PushBack tr v = some R ∧
      (S.Size = S.Capacity → R.Capacity = max 1 (2 * S.Capacity)) ∧
      (S.Size < S.Capacity → R.Capacity = S.Capacity)) ∧
    (∃ R, Vector.PushBack_all tr Vector.ctor_default vs = some R ∧ R.Holds vs ∧
      R.Size = vs.length ∧ (vs.length = 0 → R.Capacity = 0) ∧
      (0 < vs.length → LeastPow2 R.Capacity vs.length)) ∧
    (∃ R : Vector Nat, Vector.PushBack_all tr Vector.ctor_default [1, 2, 3] = some R ∧
      R.Holds [1, 2, 3] ∧ R.Size = 3 ∧ R.Capacity = 4) := by
  refine ⟨?_, ?_, ?_⟩
  · obtain ⟨R, hR, _, hcap⟩ := Vector.PushBack_holds tr S xs v h
    refine ⟨R, hR, ?_, ?_⟩
    · intro heq
      rw [hcap, if_pos heq, heq]
      split <;> omega
    · intro hlt
      rw [hcap, if_neg (by omega)]
  · obtain ⟨R, hR, hholds, hinv⟩ := Vector.PushBack_all_holds tr vs Vector.ctor_default []
      Vector.holds_ctor_default (Or.inl ⟨rfl, rfl⟩)
    have hholds2 : R.Holds vs := by simpa using hholds
    refine ⟨R, hR, hholds2, hholds2.size_eq, ?_, ?_⟩
    · intro h0
      rw [hholds2.size_eq] at hinv
      rcases hinv with ⟨_, hc⟩ | ⟨hpos, _⟩
      · exact hc
      · omega
    · intro hpos
      rw [hholds2.size_eq] at hinv
      exact hinv.least hpos
  · obtain ⟨R, hR, hholds, hinv⟩ := Vector.PushBack_all_holds tr [1, 2, 3]
      (Vector.ctor_default : Vector Nat) [] Vector.holds_ctor_default (Or.inl ⟨rfl, rfl⟩)
    have hholds2 : R.Holds [1, 2, 3] := by simpa using hholds
    refine ⟨R, hR, hholds2, hholds2.size_eq, ?_⟩
    rw [hholds2.size_eq] at hinv
    have hl := hinv.least (by simp)
    obtain ⟨_, hge, hleast⟩ := hl
    have h4 := hleast 2 (by simp)
    rcases hinv with ⟨h0, _⟩ | ⟨_, k, hc, hnc, hk⟩
    · simp at h0
    · rcases hk with hk | hk
      · subst hk; simp at hc; simp [hc] at hge
      · have hk2 : k ≤ 2 := by
          by_contra hcon
          have : 2 ^ 3 ≤ 2 ^ k := Nat.pow_le_pow_right (by norm_num) (by omega)
          rw [← hc] at this
          norm_num at h4
          omega
        interval_cases k
        · simp at hc; simp [hc] at hge
        · simp at hc; simp [hc] at hge
        · simpa using hc

/-- A run of C3 on the full vector `[1, 2]` with capacity 2, the value `5` and
the appended values `[1, 2, 3, 4, 5]`. -/
theorem PushBack_growth_policy_witness :
    (∃ R, (Vector.ofParts [1, 2] [] : Vector Nat).PushBack ⟨false, true⟩ 5 = some R ∧
      ((Vector.ofParts [1, 2] [] : Vector Nat).Size
          = (Vector.ofParts [1, 2] [] : Vector Nat).Capacity →
        R.Capacity = max 1 (2 * (Vector.ofParts [1, 2] [] : Vector Nat).Capacity)) ∧
      ((Vector.ofParts [1, 2] [] : Vector Nat).Size
          < (Vector.ofParts [1, 2] [] : Vector Nat).Capacity →
        R.Capacity = (Vector.ofParts [1, 2] [] : Vector Nat).Capacity)) ∧
    (∃ R, Vector.PushBack_all ⟨false, true⟩ Vector.ctor_default [1, 2, 3, 4, 5] = some R ∧
      R.Holds [1, 2, 3, 4, 5] ∧
      R.Size = ([1, 2, 3, 4, 5] : List Nat).length ∧
      (([1, 2, 3, 4, 5] : List Nat).length = 0 → R.Capacity = 0) ∧
      (0 < ([1, 2, 3, 4, 5] : List Nat).length →
        LeastPow2 R.Capacity ([1, 2, 3, 4, 5] : List Nat).length)) ∧
    (∃ R : Vector Nat, Vector.PushBack_all ⟨false, true⟩ Vector.ctor_default [1, 2, 3] = some R ∧
      R.Holds [1, 2, 3] ∧ R.Size = 3 ∧ R.Capacity = 4) :=
  PushBack_growth_policy ⟨false, true⟩ (Vector.ofParts [1, 2] []) [1, 2] 5 [1, 2, 3, 4, 5]
    (by decide)

/-- C4: for every vector `S` with contents `xs`, every index `p <= |xs|` and
every value `v`, `Emplace` at `begin() + p` constructing `v` leaves the
contents `xs[0..p) ++ [v] ++ xs[p..)` and `Size() == |xs| + 1` and returns the
position `begin() + p`, which holds `v`; this covers the growth path, the
append without growth and the mid-sequence insertion without growth, for
either transfer rule.  `Emplace` at index 1 of `[1, 3]` constructing `2` gives
`[1, 2, 3]`. -/
theorem Emplace_inserts (tr : TypeTraits) (S : Vector T) (xs : List T) (p : Nat) (v : T)
    (h : S.Holds xs) (hp : p ≤ xs.length) :
    (∃ R pos, S.Emplace tr p v = some (R, pos) ∧
      R.Holds (xs.take p ++ [v] ++ xs.drop p) ∧ R.Size = xs.length + 1 ∧ pos = p ∧
      R.index pos = some v) ∧
    (∀ S2 : Vector Nat, S2.Holds [1, 3] →
      ∃ R, S2.Emplace tr 1 2 = some (R, 1) ∧ R.Holds [1, 2, 3]) := by
  constructor
  · obtain ⟨R, hR, hholds, _⟩ := Vector.Emplace_holds tr S xs p v h hp
    refine ⟨R, p, hR, by simpa using hholds, ?_, rfl, ?_⟩
    · rw [hholds.size_eq]; simp [List.length_take, Nat.min_eq_left hp]; omega
    · rw [hholds.index_eq]
      exact getElem?_mid (xs.take p) v (xs.drop p) p (by simp [List.length_take, hp])
  · intro S2 h2
    obtain ⟨R, hR, hholds, _⟩ := Vector.Emplace_holds tr S2 [1, 3] 1 2 h2 (by simp)
    exact ⟨R, hR, by simpa using hholds⟩

/-- A run of C4 on the vector `[1, 3, 4]` with one free slot (mid-sequence
insertion without growth) at index 1 with the value `2`. -/
theorem Emplace_inserts_witness :
    (∃ R pos, (Vector.ofParts [1, 3, 4] [Slot.raw] : Vector Nat).Emplace ⟨true, true⟩ 1 2
        = some (R, pos) ∧
      R.Holds (([1, 3, 4] : List Nat).take 1 ++ [2] ++ ([1, 3, 4] : List Nat).drop 1) ∧
      R.Size = ([1, 3, 4] : List Nat).length + 1 ∧ pos = 1 ∧ R.index pos = some 2) ∧
    (∀ S2 : Vector Nat, S2.Holds [1, 3] →
      ∃ R, S2.Emplace ⟨true, true⟩ 1 2 = some (R, 1) ∧ R.Holds [1, 2, 3]) :=
  Emplace_inserts ⟨true, true⟩ (Vector.ofParts [1, 3, 4] [Slot.raw]) [1, 3, 4] 1 2
    (by decide) (by decide)

/-- C5: for every non-empty vector `S` with contents `xs` and every index
`p < |xs|`, `Erase` at `begin() + p` leaves the contents
`xs[0..p) ++ xs[p+1..)`, `Size() == |xs| - 1` and the capacity unchanged, and
returns `begin() + p`, which holds the element that followed the erased one or
is the new `end()` when `p` was the last index.  `Erase` at index 1 of
`[10, 20, 30]` gives `[10, 30]` with `Size() == 2`. -/
theorem Erase_removes (S : Vector T) (xs : List T) (p : Nat) (h : S.Holds xs)
    (hp : p < xs.length) :
    (∃ R pos, S.Erase p = some (R, pos) ∧
      R.Holds (xs.take p ++ xs.drop (p + 1)) ∧ R.Size = xs.length - 1 ∧
      R.Capacity = S.Capacity ∧ pos = p ∧
      (∀ hn : p + 1 < xs.length, R.index pos = some (xs.get ⟨p + 1, hn⟩)) ∧
      (p + 1 = xs.length → pos = R.Size)) ∧
    (∀ S2 : Vector Nat, S2.Holds [10, 20, 30] →
      ∃ R, S2.Erase 1 = some (R, 1) ∧ R.Holds [10, 30] ∧ R.Size = 2) := by
  constructor
  · obtain ⟨R, hR, hholds, hcap⟩ := Vector.Erase_holds S xs p h hp
    have hsz : R.Size = xs.length - 1 := by
      rw [hholds.size_eq]; simp [List.length_take]; omega
    refine ⟨R, p, hR, hholds, hsz, hcap, rfl, ?_, ?_⟩
    · intro hn
      rw [hholds.index_eq]
      have hd : xs.drop (p + 1) = xs[p + 1] :: xs.drop (p + 1 + 1) :=
        List.drop_eq_getElem_cons hn
      rw [hd]
      exact getElem?_mid (xs.take p) _ _ p (by simp [List.length_take]; omega)
    · intro he
      rw [hsz]; omega
  · intro S2 h2
    obtain ⟨R, hR, hholds, _⟩ := Vector.Erase_holds S2 [10, 20, 30] 1 h2 (by simp)
    have hh : R.Holds [10, 30] := by simpa using hholds
    exact ⟨R, hR, hh, hh.size_eq⟩

/-- A run of C5 on the full vector `[10, 20, 30]` at index 1. -/
theorem Erase_removes_witness :
    (∃ R pos, (Vector.ofParts [10, 20, 30] [] : Vector Nat).Erase 1 = some (R, pos) ∧
      R.Holds (([10, 20, 30] : List Nat).take 1 ++ ([10, 20, 30] : List Nat).drop (1 + 1)) ∧
      R.Size = ([10, 20, 30] : List Nat).length - 1 ∧
      R.Capacity = (Vector.ofParts [10, 20, 30] [] : Vector Nat).Capacity ∧ pos = 1 ∧
      (∀ hn : 1 + 1 < ([10, 20, 30] : List Nat).length,
        R.index pos = some (([10, 20, 30] : List Nat).get ⟨1 + 1, hn⟩)) ∧
      (1 + 1 = ([10, 20, 30] : List Nat).length → pos = R.Size)) ∧
    (∀ S2 : Vector Nat, S2.Holds [10, 20, 30] →
      ∃ R, S2.Erase 1 = some (R, 1) ∧ R.Holds [10, 30] ∧ R.Size = 2) :=
  Erase_removes (Vector.ofParts [10, 20, 30] []) [10, 20, 30] 1 (by decide) (by decide)

/-- C6: for every vector `S` with contents `xs`, the copy-constructed vector
has `Size() == |xs|`, the element `xs[i]` at every index `i < |xs|` and
`Capacity() == |xs|`, whatever the capacity of `S`, and `S` is unchanged. -/
theorem ctor_copy_copies (S : Vector T) (xs : List T) (h : S.Holds xs) :
    ∃ C S1, Vector.ctor_copy S = some (C, S1) ∧ C.Holds xs ∧ C.Size = xs.length ∧
      (∀ (i : Nat) (hi : i < xs.length), C.index i = some (xs.get ⟨i, hi⟩)) ∧
      C.Capacity = xs.length ∧ S1 = S := by
  obtain ⟨tail, rfl⟩ := h.canonical
  refine ⟨_, _, Vector.ctor_copy_ofParts xs tail, Vector.holds_ofParts _ _, rfl, ?_, by simp, rfl⟩
  intro i hi
  rw [Vector.ofParts_index, List.getElem?_eq_getElem hi]
  rfl

/-- A run of C6 on the vector `[4, 5]` with capacity 4. -/
theorem ctor_copy_copies_witness :
    ∃ C S1, Vector.ctor_copy (Vector.ofParts [4, 5] [Slot.raw, Slot.raw] : Vector Nat)
        = some (C, S1) ∧ C.Holds [4, 5] ∧ C.Size = ([4, 5] : List Nat).length ∧
      (∀ (i : Nat) (hi : i < ([4, 5] : List Nat).length),
        C.index i = some (([4, 5] : List Nat).get ⟨i, hi⟩)) ∧
      C.Capacity = ([4, 5] : List Nat).length ∧
      S1 = Vector.ofParts [4, 5] [Slot.raw, Slot.raw] :=
  ctor_copy_copies (Vector.ofParts [4, 5] [Slot.raw, Slot.raw]) [4, 5] (by decide)

/-- C7: for every vector `S` with contents `xs` and capacity `c`, the
move-constructed vector has the contents `xs`, `Size() == |xs|` and
`Capacity() == c`, and `S` is left empty with `Size() == 0` and
`Capacity() == 0`. -/
theorem ctor_move_steals (S : Vector T) (xs : List T) (h : S.Holds xs) :
    (Vector.ctor_move S).1.Holds xs ∧ (Vector.ctor_move S).1.Size = xs.length ∧
      (Vector.ctor_move S).1.Capacity = S.Capacity ∧
      (Vector.ctor_move S).2.Holds [] ∧ (Vector.ctor_move S).2.Size = 0 ∧
      (Vector.ctor_move S).2.Capacity = 0 := by
  have h1 : (Vector.ctor_move S).1 = S := rfl
  have h2 : (Vector.ctor_move S).2 = Vector.ctor_default := rfl
  rw [h1, h2]
  exact ⟨h, h.size_eq, rfl, Vector.holds_ctor_default, rfl, rfl⟩

/-- A run of C7 on the vector `[4, 5]` with capacity 3. -/
theorem ctor_move_steals_witness :
    (Vector.ctor_move (Vector.ofParts [4, 5] [Slot.raw] : Vector Nat)).1.Holds [4, 5] ∧
      (Vector.ctor_move (Vector.ofParts [4, 5] [Slot.raw] : Vector Nat)).1.Size
        = ([4, 5] : List Nat).length ∧
      (Vector.ctor_move (Vector.ofParts [4, 5] [Slot.raw] : Vector Nat)).1.Capacity
        = (Vector.ofParts [4, 5] [Slot.raw] : Vector Nat).Capacity ∧
      (Vector.ctor_move (Vector.ofParts [4, 5] [Slot.raw] : Vector Nat)).2.Holds [] ∧
      (Vector.ctor_move (Vector.ofParts [4, 5] [Slot.raw] : Vector Nat)).2.Size = 0 ∧
      (Vector.ctor_move (Vector.ofParts [4, 5] [Slot.raw] : Vector Nat)).2.Capacity = 0 :=
  ctor_move_steals (Vector.ofParts [4, 5] [Slot.raw]) [4, 5] (by decide)

/-- C8 (the code departs from it): move assignment swaps the two blocks and
sets the size of the source to `0` without destroying the old elements of the
target.  For `a = [1]` and `b = [2, 3]`, `a = std::move(b)` leaves `a` with the
contents, size and capacity of `b`, and leaves `b` with `Size() == 0` and the
old block of `a`, whose slot `0` still holds the live object `1`. -/
theorem assign_move_leaves_live :
    Vector.assign_move (Vector.ofParts [1] [] : Vector Nat) (Vector.ofParts [2, 3] [])
        = (Vector.ofParts [2, 3] [],
            { data_ := { buffer_ := [Slot.live 1], capacity_ := 1 }, size_ := 0 }) ∧
      (Vector.assign_move (Vector.ofParts [1] [] : Vector Nat) (Vector.ofParts [2, 3] [])).2.Size
        = 0 ∧
      Slot.live 1 ∈ (Vector.assign_move (Vector.ofParts [1] [] : Vector Nat)
        (Vector.ofParts [2, 3] [])).2.data_.buffer_ ∧
      ¬ (Vector.assign_move (Vector.ofParts [1] [] : Vector Nat)
        (Vector.ofParts [2, 3] [])).2.TailRaw := by
  refine ⟨by decide, by decide, by decide, by decide⟩

/-- C10, as stated, fails: `Reserve(2 ^ 62)` on the vector `[1, 2]` of an
element type with `sizeof(T) == 4`.  The byte count `2 ^ 62 * 4` wraps to `0`,
the new block has no slot, and the transfer of the first element writes
outside it, on the move branch and on the copy branch of the transfer rule:
the call has no defined result, so it does not leave the contents `[1, 2]` in
a vector of capacity `2 ^ 62`. -/
theorem Reserve_wrapping_request_undefined :
    (Vector.ofParts [1, 2] [] : Vector Nat).Holds [1, 2] ∧
    (RawMemory.ctor_capacity 4 (2 ^ 62) : RawMemory Nat) = ⟨[], 2 ^ 62⟩ ∧
    (Vector.ofParts [1, 2] [] : Vector Nat).Reserve ⟨true, true⟩ 4 (2 ^ 62) = none ∧
    (Vector.ofParts [1, 2] [] : Vector Nat).Reserve ⟨false, true⟩ 4 (2 ^ 62) = none ∧
    ¬ ∃ R, (Vector.ofParts [1, 2] [] : Vector Nat).Reserve ⟨true, true⟩ 4 (2 ^ 62) = some R ∧
      R.Holds [1, 2] ∧
      R.Capacity = max (Vector.ofParts [1, 2] [] : Vector Nat).Capacity (2 ^ 62) := by
  have hctor : (RawMemory.ctor_capacity 4 (2 ^ 62) : RawMemory Nat) = ⟨[], 2 ^ 62⟩ := by
    simp [RawMemory.ctor_capacity, RawMemory.Allocate, size_t_mul, SIZE_RANGE]
  have hmove : (Vector.ofParts [1, 2] [] : Vector Nat).Reserve ⟨true, true⟩ 4 (2 ^ 62) = none := by
    unfold Vector.Reserve
    rw [if_neg (by simp [Vector.ofParts, RawMemory.Capacity])]
    simp only [hctor]
    rfl
  have hcopy : (Vector.ofParts [1, 2] [] : Vector Nat).Reserve ⟨false, true⟩ 4 (2 ^ 62) = none := by
    unfold Vector.Reserve
    rw [if_neg (by simp [Vector.ofParts, RawMemory.Capacity])]
    simp only [hctor]
    rfl
  refine ⟨by decide, hctor, hmove, hcopy, ?_⟩
  rintro ⟨R, hR, _⟩
  rw [hmove] at hR
  exact absurd hR (by simp)

/-- C10, amended: for every vector `S` with contents `xs` and capacity `c` and
every `n` whose block can be had, that is `n <= c` or a byte count
`n * sizeof(T)` that does not wrap in `size_t`, `Reserve(n)` leaves the
contents `xs` and `Size()` unchanged and makes `Capacity() == max(c, n)`: for
`n <= c` the vector is unchanged, for `n > c` the new capacity is exactly `n`,
and a second `Reserve(n)` changes nothing. -/
theorem Reserve_sets_capacity (tr : TypeTraits) (size_of : Nat) (S : Vector T) (xs : List T)
    (n : Nat) (h : S.Holds xs) (hsz : 0 < size_of)
    (hfit : n ≤ S.Capacity ∨ n * size_of < SIZE_RANGE) :
    ∃ R, S.Reserve tr size_of n = some R ∧ R.Holds xs ∧ R.Size = S.Size ∧
      R.Capacity = max S.Capacity n ∧ (n ≤ S.Capacity → R = S) ∧
      (S.Capacity < n → R.Capacity = n) ∧ R.Reserve tr size_of n = some R := by
  obtain ⟨R, hR, hholds, hcap, hsame⟩ := Vector.Reserve_holds tr size_of S xs n h hsz hfit
  refine ⟨R, hR, hholds, by rw [hholds.size_eq, h.size_eq], hcap, hsame, ?_, ?_⟩
  · intro hlt
    rw [hcap]; omega
  · have hle : n ≤ R.Capacity := by rw [hcap]; omega
    obtain ⟨R2, hR2, _, _, hsame2⟩ :=
      Vector.Reserve_holds tr size_of R xs n hholds hsz (Or.inl hle)
    rw [hR2, hsame2 hle]

/-- A run of the amended C10 on the full vector `[1, 2]` with the new capacity
5 and `sizeof(T) == 4`. -/
theorem Reserve_sets_capacity_witness :
    ∃ R, (Vector.ofParts [1, 2] [] : Vector Nat).Reserve ⟨false, true⟩ 4 5 = some R ∧
      R.Holds [1, 2] ∧ R.Size = (Vector.ofParts [1, 2] [] : Vector Nat).Size ∧
      R.Capacity = max (Vector.ofParts [1, 2] [] : Vector Nat).Capacity 5 ∧
      (5 ≤ (Vector.ofParts [1, 2] [] : Vector Nat).Capacity →
        R = Vector.ofParts [1, 2] []) ∧
      ((Vector.ofParts [1, 2] [] : Vector Nat).Capacity < 5 → R.Capacity = 5) ∧
      R.Reserve ⟨false, true⟩ 4 5 = some R :=
  Reserve_sets_capacity ⟨false, true⟩ 4 (Vector.ofParts [1, 2] []) [1, 2] 5 (by decide)
    (by decide) (Or.inr (by decide))

/-- C11: `PopBack` on an empty vector changes nothing (`Size()` stays `0`, the
capacity is unchanged); on every non-empty vector with contents `xs` it leaves
the contents `xs[0..|xs|-1)`, `Size() == |xs| - 1` and the capacity
unchanged. -/
theorem PopBack_removes_last (S : Vector T) (xs : List T) (h : S.Holds xs) :
    ∃ R, S.PopBack = some R ∧
      (xs = [] → R = S ∧ R.Size = 0 ∧ R.Capacity = S.Capacity) ∧
      (xs ≠ [] → R.Holds (xs.take (xs.length - 1)) ∧ R.Size = xs.length - 1 ∧
        R.Capacity = S.Capacity) := by
  obtain ⟨R, hR, hholds, hcap, hsame⟩ := Vector.PopBack_holds S xs h
  refine ⟨R, hR, ?_, ?_⟩
  · intro hnil
    refine ⟨hsame hnil, ?_, hcap⟩
    rw [hsame hnil, h.size_eq, hnil]; rfl
  · intro _
    rw [List.dropLast_eq_take] at hholds
    refine ⟨hholds, ?_, hcap⟩
    rw [hholds.size_eq]
    simp [List.length_take]

/-- A run of C11 on the vector `[4, 5, 6]` with capacity 4. -/
theorem PopBack_removes_last_witness :
    ∃ R, (Vector.ofParts [4, 5, 6] [Slot.raw] : Vector Nat).PopBack = some R ∧
      (([4, 5, 6] : List Nat) = [] → R = Vector.ofParts [4, 5, 6] [Slot.raw] ∧ R.Size = 0 ∧
        R.Capacity = (Vector.ofParts [4, 5, 6] [Slot.raw] : Vector Nat).Capacity) ∧
      (([4, 5, 6] : List Nat) ≠ [] →
        R.Holds (([4, 5, 6] : List Nat).take (([4, 5, 6] : List Nat).length - 1)) ∧
        R.Size = ([4, 5, 6] : List Nat).length - 1 ∧
        R.Capacity = (Vector.ofParts [4, 5, 6] [Slot.raw] : Vector Nat).Capacity) :=
  PopBack_removes_last (Vector.ofParts [4, 5, 6] [Slot.raw]) [4, 5, 6] (by decide)

/-- C13: `Size() <= Capacity()` holds for a default-constructed, a sized-, a
copy- and a move-constructed vector, and every public operation preserves it:
copy and move assignment, `PushBack`, `EmplaceBack`, `PopBack`, `Insert`,
`Emplace`, `Erase` on a non-empty vector, `Resize`, `Reserve` and `Swap`, for
both vectors of a binary operation.  Hence it holds in every reachable state.
On vectors that hold contents the operations return, so the preservation is
not vacuous; for `Vector(n)`, `Resize(n)` and `Reserve(n)` that is so whenever
the block of `n` slots can be had (`n <= Capacity()`, or a byte count
`n * sizeof(T)` that does not wrap in `size_t`). -/
theorem size_le_capacity_invariant [Inhabited T] (tr : TypeTraits) (size_of : Nat)
    (S B : Vector T) (v : T) (p n : Nat) (hS : S.Size ≤ S.Capacity)
    (hB : B.Size ≤ B.Capacity) :
    ((Vector.ctor_default : Vector T).Size ≤ (Vector.ctor_default : Vector T).Capacity ∧
      ((∀ R : Vector T, Vector.ctor_size size_of n = some R → R.Size ≤ R.Capacity) ∧
        (0 < size_of → n * size_of < SIZE_RANGE →
          ∃ R : Vector T, Vector.ctor_size size_of n = some R ∧ R.Size ≤ R.Capacity)) ∧
      (∀ C S1, Vector.ctor_copy S = some (C, S1) →
        C.Size ≤ C.Capacity ∧ S1.Size ≤ S1.Capacity) ∧
      (Vector.ctor_move S).1.Size ≤ (Vector.ctor_move S).1.Capacity ∧
      (Vector.ctor_move S).2.Size ≤ (Vector.ctor_move S).2.Capacity) ∧
    ((∀ R B1, Vector.assign_copy S B = some (R, B1) →
        R.Size ≤ R.Capacity ∧ B1.Size ≤ B1.Capacity) ∧
      (∀ R, Vector.assign_copy_self S = some R → R.Size ≤ R.Capacity) ∧
      (Vector.assign_move S B).1.Size ≤ (Vector.assign_move S B).1.Capacity ∧
      (Vector.assign_move S B).2.Size ≤ (Vector.assign_move S B).2.Capacity ∧
      (Vector.Swap S B).1.Size ≤ (Vector.Swap S B).1.Capacity ∧
      (Vector.Swap S B).2.Size ≤ (Vector.Swap S B).2.Capacity) ∧
    ((∀ R, Vector.PushBack tr S v = some R → R.Size ≤ R.Capacity) ∧
      (∀ R, Vector.PushBack_rvalue tr S v = some R → R.Size ≤ R.Capacity) ∧
      (∀ R x, Vector.EmplaceBack tr S v = some (R, x) → R.Size ≤ R.Capacity) ∧
      (∀ R, Vector.PopBack S = some R → R.Size ≤ R.Capacity) ∧
      (∀ R pos, Vector.Insert tr S p v = some (R, pos) → R.Size ≤ R.Capacity) ∧
      (∀ R pos, Vector.Insert_rvalue tr S p v = some (R, pos) → R.Size ≤ R.Capacity) ∧
      (∀ R pos, Vector.Emplace tr S p v = some (R, pos) → R.Size ≤ R.Capacity) ∧
      (Vector.Size S ≠ 0 → ∀ R pos, Vector.Erase S p = some (R, pos) →
        R.Size ≤ R.Capacity) ∧
      (∀ R, Vector.Resize tr size_of S n = some R → R.Size ≤ R.Capacity) ∧
      (∀ R, Vector.Reserve tr size_of S n = some R → R.Size ≤ R.Capacity)) ∧
    (∀ X : Vector T, Reachable tr size_of X → X.Size ≤ X.Capacity) ∧
    (∀ xs ys : List T, Vector.Holds S xs → Vector.Holds B ys →
      (∃ C, Vector.ctor_copy S = some (C, S)) ∧
      (∃ R, Vector.assign_copy S B = some (R, B)) ∧
      (∃ R, Vector.PushBack tr S v = some R) ∧
      (∃ R, Vector.PushBack_rvalue tr S v = some R) ∧
      (∃ R, Vector.EmplaceBack tr S v = some (R, v)) ∧
      (∃ R, Vector.PopBack S = some R) ∧
      (p ≤ xs.length → (∃ R, Vector.Insert tr S p v = some (R, p)) ∧
        (∃ R, Vector.Insert_rvalue tr S p v = some (R, p)) ∧
        (∃ R, Vector.Emplace tr S p v = some (R, p))) ∧
      (p < xs.length → ∃ R, Vector.Erase S p = some (R, p)) ∧
      (0 < size_of → n ≤ Vector.Capacity S ∨ n * size_of < SIZE_RANGE →
        (∃ R, Vector.Resize tr size_of S n = some R) ∧
        (∃ R, Vector.Reserve tr size_of S n = some R))) := by
  refine ⟨⟨Nat.le_refl _, ⟨?_, ?_⟩, ?_, hS, Nat.le_refl _⟩,
    ⟨?_, ?_, hB, Nat.zero_le _, hB, hS⟩,
    ⟨?_, ?_, ?_, ?_, ?_, ?_, ?_, ?_, ?_, ?_⟩, ?_, ?_⟩
  · exact fun R hR => Vector.ctor_size_size_cap size_of n R hR
  · exact fun hsz hfit =>
      ⟨_, Vector.ctor_size_eq size_of n hsz hfit, (Vector.holds_ofParts _ _).size_le⟩
  · intro C S1 hC
    obtain ⟨h1, h2, h3⟩ := Vector.ctor_copy_size_cap_eq S C S1 hC
    exact ⟨by rw [h1, h2], by rw [h3]; exact hS⟩
  · intro R B1 hR
    obtain ⟨h1, h2⟩ := Vector.assign_copy_size_cap S B R B1 hR
    exact ⟨h1, by rw [h2]; exact hB⟩
  · intro R hR
    injection hR with hR
    subst hR
    exact hS
  · exact fun R hR => Vector.PushBack_size_cap tr S R v hS hR
  · exact fun R hR => Vector.PushBack_size_cap tr S R v hS hR
  · exact fun R x hR => Vector.EmplaceBack_size_cap tr S R v x hS hR
  · exact fun R hR => Vector.PopBack_size_cap S R hS hR
  · exact fun R pos hR => Vector.Emplace_size_cap tr S R p pos v hS hR
  · exact fun R pos hR => Vector.Emplace_size_cap tr S R p pos v hS hR
  · exact fun R pos hR => Vector.Emplace_size_cap tr S R p pos v hS hR
  · exact fun _ R pos hR => Vector.Erase_size_cap S R p pos hS hR
  · exact fun R hR => Vector.Resize_size_cap tr size_of S R n hS hR
  · exact fun R hR => Vector.Reserve_size_cap tr size_of S R n hS hR
  · exact fun X hX => hX.size_le_capacity
  · intro xs ys hx hy
    obtain ⟨R1, hR1, _, _⟩ := Vector.PushBack_holds tr S xs v hx
    obtain ⟨R2, hR2, _, _, _⟩ := Vector.PopBack_holds S xs hx
    refine ⟨?_, Vector.assign_copy_returns S B xs ys hx hy, ⟨R1, hR1⟩, ⟨R1, hR1⟩, ⟨R1, ?_⟩,
      ⟨R2, hR2⟩, ?_, ?_, ?_⟩
    · obtain ⟨tail, rfl⟩ := hx.canonical
      exact ⟨_, Vector.ctor_copy_ofParts xs tail⟩
    · rw [Vector.EmplaceBack_eq_PushBack tr S xs v hx, hR1]; rfl
    · intro hp
      obtain ⟨R5, hR5, _, _⟩ := Vector.Emplace_holds tr S xs p v hx hp
      exact ⟨⟨R5, hR5⟩, ⟨R5, hR5⟩, ⟨R5, hR5⟩⟩
    · intro hp
      obtain ⟨R6, hR6, _, _⟩ := Vector.Erase_holds S xs p hx hp
      exact ⟨R6, hR6⟩
    · intro hsz hfit
      obtain ⟨R3, hR3, _, _⟩ := Vector.Resize_holds tr size_of S xs n hx hsz hfit
      obtain ⟨R4, hR4, _, _, _⟩ := Vector.Reserve_holds tr size_of S xs n hx hsz hfit
      exact ⟨⟨R3, hR3⟩, ⟨R4, hR4⟩⟩

/-- A run of C13 on `S = [1, 2]` (full), `B = [7]` with capacity 2, the value
`5`, the position `1`, the size `4` and `sizeof(T) == 4`. -/
theorem size_le_capacity_invariant_witness :
    ((Vector.ctor_default : Vector Nat).Size ≤ (Vector.ctor_default : Vector Nat).Capacity ∧
      ((∀ R : Vector Nat, Vector.ctor_size 4 4 = some R → R.Size ≤ R.Capacity) ∧
        (0 < 4 → 4 * 4 < SIZE_RANGE →
          ∃ R : Vector Nat, Vector.ctor_size 4 4 = some R ∧ R.Size ≤ R.Capacity)) ∧
      (∀ C S1, Vector.ctor_copy run_full = some (C, S1) →
        C.Size ≤ C.Capacity ∧ S1.Size ≤ S1.Capacity) ∧
      (Vector.ctor_move run_full).1.Size ≤ (Vector.ctor_move run_full).1.Capacity ∧
      (Vector.ctor_move run_full).2.Size ≤ (Vector.ctor_move run_full).2.Capacity) ∧
    ((∀ R B1, Vector.assign_copy run_full run_room = some (R, B1) →
        R.Size ≤ R.Capacity ∧ B1.Size ≤ B1.Capacity) ∧
      (∀ R, Vector.assign_copy_self run_full = some R → R.Size ≤ R.Capacity) ∧
      (Vector.assign_move run_full run_room).1.Size ≤ (Vector.assign_move run_full run_room).1.Capacity ∧
      (Vector.assign_move run_full run_room).2.Size ≤ (Vector.assign_move run_full run_room).2.Capacity ∧
      (Vector.Swap run_full run_room).1.Size ≤ (Vector.Swap run_full run_room).1.Capacity ∧
      (Vector.Swap run_full run_room).2.Size ≤ (Vector.Swap run_full run_room).2.Capacity) ∧
    ((∀ R, Vector.PushBack ⟨false, true⟩ run_full 5 = some R → R.Size ≤ R.Capacity) ∧
      (∀ R, Vector.PushBack_rvalue ⟨false, true⟩ run_full 5 = some R → R.Size ≤ R.Capacity) ∧
      (∀ R x, Vector.EmplaceBack ⟨false, true⟩ run_full 5 = some (R, x) → R.Size ≤ R.Capacity) ∧
      (∀ R, Vector.PopBack run_full = some R → R.Size ≤ R.Capacity) ∧
      (∀ R pos, Vector.Insert ⟨false, true⟩ run_full 1 5 = some (R, pos) → R.Size ≤ R.Capacity) ∧
      (∀ R pos, Vector.Insert_rvalue ⟨false, true⟩ run_full 1 5 = some (R, pos) → R.Size ≤ R.Capacity) ∧
      (∀ R pos, Vector.Emplace ⟨false, true⟩ run_full 1 5 = some (R, pos) → R.Size ≤ R.Capacity) ∧
      (Vector.Size run_full ≠ 0 → ∀ R pos, Vector.Erase run_full 1 = some (R, pos) →
        R.Size ≤ R.Capacity) ∧
      (∀ R, Vector.Resize ⟨false, true⟩ 4 run_full 4 = some R → R.Size ≤ R.Capacity) ∧
      (∀ R, Vector.Reserve ⟨false, true⟩ 4 run_full 4 = some R → R.Size ≤ R.Capacity)) ∧
    (∀ X : Vector Nat, Reachable ⟨false, true⟩ 4 X → X.Size ≤ X.Capacity) ∧
    (∀ xs ys : List Nat, Vector.Holds run_full xs → Vector.Holds run_room ys →
      (∃ C, Vector.ctor_copy run_full = some (C, run_full)) ∧
      (∃ R, Vector.assign_copy run_full run_room = some (R, run_room)) ∧
      (∃ R, Vector.PushBack ⟨false, true⟩ run_full 5 = some R) ∧
      (∃ R, Vector.PushBack_rvalue ⟨false, true⟩ run_full 5 = some R) ∧
      (∃ R, Vector.EmplaceBack ⟨false, true⟩ run_full 5 = some (R, 5)) ∧
      (∃ R, Vector.PopBack run_full = some R) ∧
      (1 ≤ xs.length → (∃ R, Vector.Insert ⟨false, true⟩ run_full 1 5 = some (R, 1)) ∧
        (∃ R, Vector.Insert_rvalue ⟨false, true⟩ run_full 1 5 = some (R, 1)) ∧
        (∃ R, Vector.Emplace ⟨false, true⟩ run_full 1 5 = some (R, 1))) ∧
      (1 < xs.length → ∃ R, Vector.Erase run_full 1 = some (R, 1)) ∧
      (0 < 4 → 4 ≤ Vector.Capacity run_full ∨ 4 * 4 < SIZE_RANGE →
        (∃ R, Vector.Resize ⟨false, true⟩ 4 run_full 4 = some R) ∧
        (∃ R, Vector.Reserve ⟨false, true⟩ 4 run_full 4 = some R))) :=
  size_le_capacity_invariant ⟨false, true⟩ 4 run_full run_room 5 1 4 (by decide) (by decide)

/-- C14 (the code departs from it): the slot-liveness invariant does not hold
in every reachable state.  After `a = std::move(b)` with `a = [1]` and
`b = [2, 3]`, both built by `PushBack` from empty vectors, `b` has
`Size() == 0` and a live object in slot `0`.  After `a = b` with `a = [1]` of
capacity 2, built by `Reserve(2)` and `PushBack(1)`, and `b = [7, 8]`, `a` has
`Size() == 2` and a raw slot `1`.  All four operands satisfy the invariant
before the assignment. -/
theorem slot_liveness_broken_by_assignment :
    (Reachable ⟨true, true⟩ 4 (Vector.ofParts [1] [] : Vector Nat) ∧
      Reachable ⟨true, true⟩ 4 (Vector.ofParts [2, 3] [] : Vector Nat) ∧
      (Vector.ofParts [1] [] : Vector Nat).SlotsLive ∧
      (Vector.ofParts [2, 3] [] : Vector Nat).SlotsLive ∧
      Vector.assign_move (Vector.ofParts [1] [] : Vector Nat) (Vector.ofParts [2, 3] [])
        = (Vector.ofParts [2, 3] [], Vector.mk (RawMemory.mk [Slot.live 1] 1) 0) ∧
      Reachable ⟨true, true⟩ 4 (Vector.mk (RawMemory.mk [Slot.live (1 : Nat)] 1) 0) ∧
      ¬ (Vector.mk (RawMemory.mk [Slot.live (1 : Nat)] 1) 0).SlotsLive) ∧
    (Reachable ⟨true, true⟩ 4 (Vector.ofParts [1] [Slot.raw] : Vector Nat) ∧
      Reachable ⟨true, true⟩ 4 (Vector.ofParts [7, 8] [] : Vector Nat) ∧
      (Vector.ofParts [1] [Slot.raw] : Vector Nat).SlotsLive ∧
      (Vector.ofParts [7, 8] [] : Vector Nat).SlotsLive ∧
      Vector.assign_copy (Vector.ofParts [1] [Slot.raw] : Vector Nat) (Vector.ofParts [7, 8] [])
        = some (Vector.mk (RawMemory.mk [Slot.live 8, Slot.raw] 2) 2,
            Vector.ofParts [7, 8] []) ∧
      Reachable ⟨true, true⟩ 4 (Vector.mk (RawMemory.mk [Slot.live (8 : Nat), Slot.raw] 2) 2) ∧
      ¬ (Vector.mk (RawMemory.mk [Slot.live (8 : Nat), Slot.raw] 2) 2).SlotsLive) := by
  have r1 : Reachable ⟨true, true⟩ 4 (Vector.ofParts [1] [] : Vector Nat) :=
    Reachable.PushBack Vector.ctor_default _ 1 Reachable.ctor_default (by decide)
  have r2 : Reachable ⟨true, true⟩ 4 (Vector.ofParts [2] [] : Vector Nat) :=
    Reachable.PushBack Vector.ctor_default _ 2 Reachable.ctor_default (by decide)
  have r23 : Reachable ⟨true, true⟩ 4 (Vector.ofParts [2, 3] [] : Vector Nat) :=
    Reachable.PushBack _ _ 3 r2 (by decide)
  have r0 : Reachable ⟨true, true⟩ 4 (Vector.ofParts [] [Slot.raw, Slot.raw] : Vector Nat) :=
    Reachable.Reserve Vector.ctor_default _ 2 Reachable.ctor_default (by decide)
  have r1c : Reachable ⟨true, true⟩ 4 (Vector.ofParts [1] [Slot.raw] : Vector Nat) :=
    Reachable.PushBack _ _ 1 r0 (by decide)
  have r7 : Reachable ⟨true, true⟩ 4 (Vector.ofParts [7] [] : Vector Nat) :=
    Reachable.PushBack Vector.ctor_default _ 7 Reachable.ctor_default (by decide)
  have r78 : Reachable ⟨true, true⟩ 4 (Vector.ofParts [7, 8] [] : Vector Nat) :=
    Reachable.PushBack _ _ 8 r7 (by decide)
  refine ⟨⟨r1, r23, by decide, by decide, by decide, ?_, by decide⟩,
    ⟨r1c, r78, by decide, by decide, by decide, ?_, by decide⟩⟩
  · exact Reachable.assign_move_source _ _ r1 r23
  · exact Reachable.assign_copy _ _ _ (Vector.ofParts [7, 8] []) r1c r78 (by decide)

/-- C15: for every vector `S` and value `v`, `PushBack(v)` (both overloads),
`EmplaceBack(v)`, `Emplace(end(), v)` and `Insert(end(), v)` (both overloads)
give the same resulting vector, with the same contents, size and capacity;
`Emplace` and `Insert` return the old `end()`, and `EmplaceBack` returns a
reference to the element at the new last index, which is `v`. -/
theorem append_operations_agree (tr : TypeTraits) (S : Vector T) (xs : List T) (v : T)
    (h : S.Holds xs) :
    ∃ R, S.PushBack tr v = some R ∧ S.PushBack_rvalue tr v = some R ∧
      S.EmplaceBack tr v = some (R, v) ∧
      S.Emplace tr S.Size v = some (R, S.Size) ∧
      S.Insert tr S.Size v = some (R, S.Size) ∧
      S.Insert_rvalue tr S.Size v = some (R, S.Size) ∧
      R.Holds (xs ++ [v]) ∧ R.index (R.Size - 1) = some v := by
  obtain ⟨R, hR, hholds, _⟩ := Vector.PushBack_holds tr S xs v h
  have hE : S.Emplace tr S.Size v = some (R, S.Size) := by
    rw [Vector.Emplace_end_eq_PushBack tr S xs v h, hR]; rfl
  refine ⟨R, hR, by rw [Vector.PushBack_rvalue_eq]; exact hR, ?_, hE, hE, hE, hholds, ?_⟩
  · rw [Vector.EmplaceBack_eq_PushBack tr S xs v h, hR]; rfl
  · rw [hholds.index_eq, hholds.size_eq]
    simp

/-- A run of C15 on the full vector `[1, 2]` with the value `5`. -/
theorem append_operations_agree_witness :
    ∃ R, (Vector.ofParts [1, 2] [] : Vector Nat).PushBack ⟨false, true⟩ 5 = some R ∧
      (Vector.ofParts [1, 2] [] : Vector Nat).PushBack_rvalue ⟨false, true⟩ 5 = some R ∧
      (Vector.ofParts [1, 2] [] : Vector Nat).EmplaceBack ⟨false, true⟩ 5 = some (R, 5) ∧
      (Vector.ofParts [1, 2] [] : Vector Nat).Emplace ⟨false, true⟩
        (Vector.ofParts [1, 2] [] : Vector Nat).Size 5
        = some (R, (Vector.ofParts [1, 2] [] : Vector Nat).Size) ∧
      (Vector.ofParts [1, 2] [] : Vector Nat).Insert ⟨false, true⟩
        (Vector.ofParts [1, 2] [] : Vector Nat).Size 5
        = some (R, (Vector.ofParts [1, 2] [] : Vector Nat).Size) ∧
      (Vector.ofParts [1, 2] [] : Vector Nat).Insert_rvalue ⟨false, true⟩
        (Vector.ofParts [1, 2] [] : Vector Nat).Size 5
        = some (R, (Vector.ofParts [1, 2] [] : Vector Nat).Size) ∧
      R.Holds ([1, 2] ++ [5]) ∧ R.index (R.Size - 1) = some 5 :=
  append_operations_agree ⟨false, true⟩ (Vector.ofParts [1, 2] []) [1, 2] 5 (by decide)

/-- C16: for every pair of distinct vectors `a` (contents `xs`, capacity `c`)
and `b` (contents `ys`): for `|ys| > c` copy assignment `a = b` builds a
temporary copy and swaps it in, which leaves `a` with the contents `ys` and
`Capacity() == |ys|`; for `|ys| < |xs|` it shrinks in place and leaves `a` with
the contents `ys` and `Capacity() == c`; in both cases `a.Size() == |ys|` and
`b` is unchanged.  Self-assignment `a = a` leaves `a` unchanged. -/
theorem assign_copy_realloc_or_shrink (a b : Vector T) (xs ys : List T) (ha : a.Holds xs)
    (hb : b.Holds ys) :
    (a.Capacity < ys.length →
      ∃ R B, Vector.assign_copy a b = some (R, B) ∧ R.Holds ys ∧
        R.Capacity = ys.length ∧ R.Size = ys.length ∧ B = b) ∧
    (ys.length < xs.length →
      ∃ R B, Vector.assign_copy a b = some (R, B) ∧ R.Holds ys ∧
        R.Capacity = a.Capacity ∧ R.Size = ys.length ∧ B = b) ∧
    Vector.assign_copy_self a = some a := by
  obtain ⟨tail, rfl⟩ := ha.canonical
  obtain ⟨tail2, rfl⟩ := hb.canonical
  refine ⟨?_, ?_, rfl⟩
  · intro hgt
    simp only [Vector.ofParts_Capacity] at hgt
    exact ⟨_, _, Vector.assign_copy_realloc xs ys tail tail2 hgt, Vector.holds_ofParts _ _,
      by simp, rfl, rfl⟩
  · intro hlt
    have hplen : (xs.take ys.length).length = ys.length := by
      simp [List.length_take]; omega
    have hne : xs.drop ys.length ≠ [] := by
      intro hnil
      have := congrArg List.length hnil
      simp at this
      omega
    have := Vector.assign_copy_shrink ys (xs.take ys.length) (xs.drop ys.length) tail tail2
      hplen hne
    rw [List.take_append_drop] at this
    refine ⟨_, _, this, Vector.holds_ofParts _ _, ?_, rfl, rfl⟩
    simp
    omega

/-- A run of C16 on `a = [1, 2, 3]` and `b = [7]` (shrinking in place). -/
theorem assign_copy_realloc_or_shrink_witness :
    ((Vector.ofParts [1, 2, 3] [] : Vector Nat).Capacity < ([7] : List Nat).length →
      ∃ R B, Vector.assign_copy (Vector.ofParts [1, 2, 3] [] : Vector Nat)
          (Vector.ofParts [7] []) = some (R, B) ∧ R.Holds [7] ∧
        R.Capacity = ([7] : List Nat).length ∧ R.Size = ([7] : List Nat).length ∧
        B = Vector.ofParts [7] []) ∧
    (([7] : List Nat).length < ([1, 2, 3] : List Nat).length →
      ∃ R B, Vector.assign_copy (Vector.ofParts [1, 2, 3] [] : Vector Nat)
          (Vector.ofParts [7] []) = some (R, B) ∧ R.Holds [7] ∧
        R.Capacity = (Vector.ofParts [1, 2, 3] [] : Vector Nat).Capacity ∧
        R.Size = ([7] : List Nat).length ∧ B = Vector.ofParts [7] []) ∧
    Vector.assign_copy_self (Vector.ofParts [1, 2, 3] [] : Vector Nat)
      = some (Vector.ofParts [1, 2, 3] []) :=
  assign_copy_realloc_or_shrink (Vector.ofParts [1, 2, 3] []) (Vector.ofParts [7] [])
    [1, 2, 3] [7] (by decide) (by decide)

/-- C17 (the code departs from it): in the reachable state that `a = b` leaves
in `a`, for `a = [1]` of capacity 2 and `b = [7, 8]`, the index `1` is below
`Size()` and below the capacity, so both assertions of `operator[]` hold, but
slot `1` holds no object: `a[1]` is not an element, and `a[0]` is `8` where `b`
has `7`. -/
theorem index_reaches_raw_slot :
    Reachable ⟨true, true⟩ 4 (Vector.ofParts [1] [Slot.raw] : Vector Nat) ∧
      Reachable ⟨true, true⟩ 4 (Vector.ofParts [7, 8] [] : Vector Nat) ∧
      Vector.assign_copy (Vector.ofParts [1] [Slot.raw] : Vector Nat) (Vector.ofParts [7, 8] [])
        = some (Vector.mk (RawMemory.mk [Slot.live 8, Slot.raw] 2) 2,
            Vector.ofParts [7, 8] []) ∧
      Reachable ⟨true, true⟩ 4 (Vector.mk (RawMemory.mk [Slot.live (8 : Nat), Slot.raw] 2) 2) ∧
      1 < (Vector.mk (RawMemory.mk [Slot.live (8 : Nat), Slot.raw] 2) 2).Size ∧
      1 < (Vector.mk (RawMemory.mk [Slot.live (8 : Nat), Slot.raw] 2) 2).data_.capacity_ ∧
      (Vector.mk (RawMemory.mk [Slot.live (8 : Nat), Slot.raw] 2) 2).index 1 = none ∧
      (Vector.mk (RawMemory.mk [Slot.live (8 : Nat), Slot.raw] 2) 2).index 0 = some 8 ∧
      (Vector.ofParts [7, 8] [] : Vector Nat).index 0 = some 7 ∧
      (Vector.ofParts [7, 8] [] : Vector Nat).index 1 = some 8 := by
  have r0 : Reachable ⟨true, true⟩ 4 (Vector.ofParts [] [Slot.raw, Slot.raw] : Vector Nat) :=
    Reachable.Reserve Vector.ctor_default _ 2 Reachable.ctor_default (by decide)
  have r1c : Reachable ⟨true, true⟩ 4 (Vector.ofParts [1] [Slot.raw] : Vector Nat) :=
    Reachable.PushBack _ _ 1 r0 (by decide)
  have r7 : Reachable ⟨true, true⟩ 4 (Vector.ofParts [7] [] : Vector Nat) :=
    Reachable.PushBack Vector.ctor_default _ 7 Reachable.ctor_default (by decide)
  have r78 : Reachable ⟨true, true⟩ 4 (Vector.ofParts [7, 8] [] : Vector Nat) :=
    Reachable.PushBack _ _ 8 r7 (by decide)
  exact ⟨r1c, r78, by decide,
    Reachable.assign_copy _ _ _ (Vector.ofParts [7, 8] []) r1c r78 (by decide), by decide,
    by decide, by decide, by decide, by decide, by decide⟩

/-- C18 (the code departs from it): on the growth path the new element is
constructed in the new block before the transfer, and nothing destroys it when
the transfer throws.  For the full vector `[1, 2]` and a copy constructor that
throws on the element at index 1, `PushBack(5)` and `EmplaceBack(5)` release
the new block with the live object `5` in slot `2`, and `Emplace` at index 1
releases it with the live objects `1` and `5` in slots `0` and `1`.
`PushBack` and `EmplaceBack` constructed two objects in the new block and
destroyed one; `Emplace` constructed two and destroyed none. -/
theorem growth_unwinding_leaks_new_element :
    Vector.PushBack_throwing ⟨false, true⟩ (fun k => k == 1)
        (Vector.ofParts [1, 2] [] : Vector Nat) 5
      = Outcome.thrown (Vector.ofParts [1, 2] [])
          [Slot.raw, Slot.raw, Slot.live 5, Slot.raw] ∧
    Vector.EmplaceBack_throwing ⟨false, true⟩ (fun k => k == 1)
        (Vector.ofParts [1, 2] [] : Vector Nat) 5
      = Outcome.thrown (Vector.ofParts [1, 2] [])
          [Slot.raw, Slot.raw, Slot.live 5, Slot.raw] ∧
    Vector.Emplace_throwing ⟨false, true⟩ (fun k => k == 1)
        (Vector.ofParts [1, 2] [] : Vector Nat) 1 5
      = Outcome.thrown (Vector.ofParts [1, 2] [])
          [Slot.live 1, Slot.live 5, Slot.raw, Slot.raw] ∧
    Vector.Reserve_throwing ⟨false, true⟩ (fun k => k == 1)
        (Vector.ofParts [1, 2] [] : Vector Nat) 3
      = Outcome.thrown (Vector.ofParts [1, 2] []) [Slot.raw, Slot.raw, Slot.raw] := by
  refine ⟨by decide, by decide, by decide, by decide⟩

/-- C19: `Erase` undoes `Emplace`.  For every vector `S` with contents `xs`,
every index `p <= |xs|` and every value `v`, `Emplace` at `begin() + p` with
`v` followed by `Erase` at the returned position restores the contents `xs`
and `Size() == |xs|`; the capacity has not shrunk, and the position returned
by `Erase` is again `begin() + p`. -/
theorem Erase_undoes_Emplace (tr : TypeTraits) (S : Vector T) (xs : List T) (p : Nat) (v : T)
    (h : S.Holds xs) (hp : p ≤ xs.length) :
    ∃ R pos R2 pos2, S.Emplace tr p v = some (R, pos) ∧ R.Erase pos = some (R2, pos2) ∧
      R2.Holds xs ∧ R2.Size = xs.length ∧ pos2 = p ∧ S.Capacity ≤ R2.Capacity := by
  obtain ⟨R, hR, hholds, hcap⟩ := Vector.Emplace_holds tr S xs p v h hp
  have hplen : (xs.take p).length = p := by simp [List.length_take, hp]
  obtain ⟨R2, hR2, hholds2, hcap2⟩ := Vector.Erase_holds R _ p hholds
    (by simp [List.length_take]; omega)
  have hback : (xs.take p ++ v :: xs.drop p).take p
      ++ (xs.take p ++ v :: xs.drop p).drop (p + 1) = xs := by
    have h1 : (xs.take p ++ v :: xs.drop p).take p = xs.take p := by
      rw [List.take_append_of_le_length (by omega), List.take_of_length_le (by omega)]
    have h2 : (xs.take p ++ v :: xs.drop p).drop (p + 1) = xs.drop p := by
      have : xs.take p ++ v :: xs.drop p = (xs.take p ++ [v]) ++ xs.drop p := by simp
      rw [this, List.drop_left' (by simp [hplen])]
    rw [h1, h2, List.take_append_drop]
  rw [hback] at hholds2
  exact ⟨R, p, R2, p, hR, hR2, hholds2, hholds2.size_eq, rfl, by omega⟩

/-- A run of C19 on the vector `[1, 3, 4]` with one free slot, at index 1
with the value `2`. -/
theorem Erase_undoes_Emplace_witness :
    ∃ R pos R2 pos2,
      (Vector.ofParts [1, 3, 4] [Slot.raw] : Vector Nat).Emplace ⟨true, true⟩ 1 2
        = some (R, pos) ∧
      R.Erase pos = some (R2, pos2) ∧ R2.Holds [1, 3, 4] ∧
      R2.Size = ([1, 3, 4] : List Nat).length ∧ pos2 = 1 ∧
      (Vector.ofParts [1, 3, 4] [Slot.raw] : Vector Nat).Capacity ≤ R2.Capacity :=
  Erase_undoes_Emplace ⟨true, true⟩ (Vector.ofParts [1, 3, 4] [Slot.raw]) [1, 3, 4] 1 2
    (by decide) (by decide)

/-- C20: for every pair of vectors `a` and `b`, `a.Swap(b)` exchanges their
contents, `Size()` and `Capacity()`: `a` ends as `b` was and `b` ends as `a`
was.  Applying `Swap` twice restores both vectors, and `a.Swap(b)` has the
same effect as `b.Swap(a)`. -/
theorem Swap_exchanges (a b : Vector T) (xs ys : List T) (ha : a.Holds xs) (hb : b.Holds ys) :
    ((Vector.Swap a b).1.Holds ys ∧ (Vector.Swap a b).1.Size = b.Size ∧
      (Vector.Swap a b).1.Capacity = b.Capacity ∧ (Vector.Swap a b).1 = b) ∧
    ((Vector.Swap a b).2.Holds xs ∧ (Vector.Swap a b).2.Size = a.Size ∧
      (Vector.Swap a b).2.Capacity = a.Capacity ∧ (Vector.Swap a b).2 = a) ∧
    Vector.Swap (Vector.Swap a b).1 (Vector.Swap a b).2 = (a, b) ∧
    ((Vector.Swap b a).1 = (Vector.Swap a b).2 ∧ (Vector.Swap b a).2 = (Vector.Swap a b).1) := by
  have h1 : (Vector.Swap a b).1 = b := rfl
  have h2 : (Vector.Swap a b).2 = a := rfl
  refine ⟨⟨?_, ?_, ?_, h1⟩, ⟨?_, ?_, ?_, h2⟩, ?_, ?_, ?_⟩
  · rw [h1]; exact hb
  · rw [h1]
  · rw [h1]
  · rw [h2]; exact ha
  · rw [h2]
  · rw [h2]
  · rfl
  · rfl
  · rfl

/-- A run of C20 on `a = [1]` with capacity 2 and `b = [7, 8, 9]`. -/
theorem Swap_exchanges_witness :
    ((Vector.Swap (Vector.ofParts [1] [Slot.raw] : Vector Nat)
        (Vector.ofParts [7, 8, 9] [])).1.Holds [7, 8, 9] ∧
      (Vector.Swap (Vector.ofParts [1] [Slot.raw] : Vector Nat)
        (Vector.ofParts [7, 8, 9] [])).1.Size = (Vector.ofParts [7, 8, 9] [] : Vector Nat).Size ∧
      (Vector.Swap (Vector.ofParts [1] [Slot.raw] : Vector Nat)
        (Vector.ofParts [7, 8, 9] [])).1.Capacity
        = (Vector.ofParts [7, 8, 9] [] : Vector Nat).Capacity ∧
      (Vector.Swap (Vector.ofParts [1] [Slot.raw] : Vector Nat)
        (Vector.ofParts [7, 8, 9] [])).1 = Vector.ofParts [7, 8, 9] []) ∧
    ((Vector.Swap (Vector.ofParts [1] [Slot.raw] : Vector Nat)
        (Vector.ofParts [7, 8, 9] [])).2.Holds [1] ∧
      (Vector.Swap (Vector.ofParts [1] [Slot.raw] : Vector Nat)
        (Vector.ofParts [7, 8, 9] [])).2.Size
        = (Vector.ofParts [1] [Slot.raw] : Vector Nat).Size ∧
      (Vector.Swap (Vector.ofParts [1] [Slot.raw] : Vector Nat)
        (Vector.ofParts [7, 8, 9] [])).2.Capacity
        = (Vector.ofParts [1] [Slot.raw] : Vector Nat).Capacity ∧
      (Vector.Swap (Vector.ofParts [1] [Slot.raw] : Vector Nat)
        (Vector.ofParts [7, 8, 9] [])).2 = Vector.ofParts [1] [Slot.raw]) ∧
    Vector.Swap
        (Vector.Swap (Vector.ofParts [1] [Slot.raw] : Vector Nat)
          (Vector.ofParts [7, 8, 9] [])).1
        (Vector.Swap (Vector.ofParts [1] [Slot.raw] : Vector Nat)
          (Vector.ofParts [7, 8, 9] [])).2
      = (Vector.ofParts [1] [Slot.raw], Vector.ofParts [7, 8, 9] []) ∧
    ((Vector.Swap (Vector.ofParts [7, 8, 9] [] : Vector Nat)
        (Vector.ofParts [1] [Slot.raw])).1
        = (Vector.Swap (Vector.ofParts [1] [Slot.raw] : Vector Nat)
          (Vector.ofParts [7, 8, 9] [])).2 ∧
      (Vector.Swap (Vector.ofParts [7, 8, 9] [] : Vector Nat)
        (Vector.ofParts [1] [Slot.raw])).2
        = (Vector.Swap (Vector.ofParts [1] [Slot.raw] : Vector Nat)
          (Vector.ofParts [7, 8, 9] [])).1) :=
  Swap_exchanges (Vector.ofParts [1] [Slot.raw]) (Vector.ofParts [7, 8, 9] []) [1] [7, 8, 9]
    (by decide) (by decide)

end Claims

end Vec14
